import Mathlib

/-!
# fasthttputil pipe connections (src/fasthttputil/pipe.go)

A shallow embedding of the in-memory connection pair of `pipe.go`, and the
properties of its `Write`, `Read` and `Close` methods.

Modelling conventions.

* A `*byteBuffer` is an `Option byteBuffer`; the nil pointer is `none`.  A nil
  buffer travelling through a channel is the end-of-stream sentinel.  In the
  first part of this file buffers are held by value and `byteBufferPool` is not
  part of the state, so a `releaseByteBuffer` call changes nothing there.  That
  describes the traces in which every call returns: in them a buffer is put
  into the pool by `read` only when no pending byte of it is left, and by
  `Write` only before it was queued.  The call `releaseByteBuffer(c.b)` of
  `pipeConn.release` is different: it pools a buffer whose bytes may still be
  pending in `c.bb`, and the call after it, `releasePipeChan`, does not return.
  What follows from that is not visible by value; the section
  `Buffers as objects` embeds the code again over a memory of buffer objects,
  backing arrays and the shared `byteBufferPool`.
* A pair owns exactly two `pipeChan` objects (the two results of
  `acquirePipeChan` in `newPipeConns`).  A `*pipeChan` field of an endpoint is
  an `Option ChanRef`: nil, or one of these two objects.  The contents of a
  buffered channel is the list of queued values, oldest first.  The source
  never closes a channel, so a channel has no closed state: a receive on an
  empty channel blocks, also the receive of a `range` clause.
* A method call is a function from the state before the call to an outcome
  `Res`: the call returns, or it blocks on a channel operation (with the state
  it has reached), or it dereferences a nil pointer.  The mutex `wlock` is not
  part of the state: a call that returns has released every lock it took.
* `c.parent` is always the pair the endpoint belongs to, so `parent.release()`
  is `pipeConns.release` on the same state.
-/

namespace Pipe

/-- A byte of a Go byte slice.  The code only copies bytes, so their range plays no role. -/
abbrev Byte := Nat

/-- Go `type byteBuffer struct { b []byte }`. -/
structure byteBuffer where
  b : List Byte
deriving DecidableEq, Repr

/-- A `*byteBuffer`: `none` is nil, which in a channel is the end-of-stream sentinel. -/
abbrev BufPtr := Option byteBuffer

/-- The two `pipeChan` objects of a pair: `ch1` and `ch2` of `newPipeConns`. -/
inductive ChanRef where
  | ch1
  | ch2
deriving DecidableEq, Repr

/-- The two endpoints of a pair: the fields `c1` and `c2` of `pipeConns`. -/
inductive Side where
  | c1
  | c2
deriving DecidableEq, Repr

/-- The other endpoint of the pair. -/
def Side.peer : Side → Side
  | .c1 => .c2
  | .c2 => .c1

/-- The error values of `pipe.go`; a nil `error` is `none : Option GoError`. -/
inductive GoError where
  | EOF
  | errWouldBlock
  | closedForWriting
  | deadlineNotSupported
deriving DecidableEq, Repr

/-- Capacity of a `pipeChan`: `make(chan *byteBuffer, 4)` in `pipeChanPool.New`. -/
def chanCap : Nat := 4

/-- Go `type pipeConn struct` without the mutex and the parent pointer. -/
structure pipeConn where
  r : Option ChanRef
  w : Option ChanRef
  b : BufPtr
  bb : List Byte
  rclosed : Bool
  wclosed : Bool
deriving DecidableEq, Repr

/-- Go `type pipeConns struct` together with the two channel objects its
endpoints point to, and `pooled`, the log of `pipeChanPool.Put` calls made on
these two channels (oldest first). -/
structure pipeConns where
  c1 : pipeConn
  c2 : pipeConn
  ch1 : List BufPtr
  ch2 : List BufPtr
  pooled : List ChanRef
deriving DecidableEq, Repr

/-- Outcome of a call that started in some state: it returned `v` leaving
state `s`; it is blocked on a channel operation in state `s`; it dereferenced a
nil pointer; or the model ran out of fuel (shown never to happen). -/
inductive Res (σ α : Type) where
  | ret (s : σ) (v : α)
  | block (s : σ)
  | nilDeref
  | outOfFuel
deriving DecidableEq, Repr

/-- Apply a function to the state of an outcome. -/
def Res.mapState {σ τ α : Type} (f : σ → τ) : Res σ α → Res τ α
  | .ret s v => .ret (f s) v
  | .block s => .block (f s)
  | .nilDeref => .nilDeref
  | .outOfFuel => .outOfFuel

/-- Apply a function to the value an outcome returns. -/
def Res.mapVal {σ α β : Type} (f : α → β) : Res σ α → Res σ β
  | .ret s v => .ret s (f v)
  | .block s => .block s
  | .nilDeref => .nilDeref
  | .outOfFuel => .outOfFuel

/-- Select an endpoint of the pair. -/
def pipeConns.conn (s : pipeConns) : Side → pipeConn
  | .c1 => s.c1
  | .c2 => s.c2

/-- Store an endpoint of the pair. -/
def pipeConns.setConn (s : pipeConns) : Side → pipeConn → pipeConns
  | .c1, c => { s with c1 := c }
  | .c2, c => { s with c2 := c }

/-- Contents of one of the two channels. -/
def pipeConns.chan (s : pipeConns) : ChanRef → List BufPtr
  | .ch1 => s.ch1
  | .ch2 => s.ch2

/-- Replace the contents of one of the two channels. -/
def pipeConns.setChan (s : pipeConns) : ChanRef → List BufPtr → pipeConns
  | .ch1, q => { s with ch1 := q }
  | .ch2, q => { s with ch2 := q }

/-- Contents of the channel a `*pipeChan` field points to (empty for nil). -/
def pipeConns.deref (s : pipeConns) : Option ChanRef → List BufPtr
  | none => []
  | some ref => s.chan ref

/-- Go `newPipeConns`: both channels come from `acquirePipeChan`, which only
returns an empty channel. -/
def newPipeConns : pipeConns :=
  { c1 := { r := some .ch1, w := some .ch2, b := none, bb := [], rclosed := false, wclosed := false }
    c2 := { r := some .ch2, w := some .ch1, b := none, bb := [], rclosed := false, wclosed := false }
    ch1 := []
    ch2 := []
    pooled := [] }

/-- Go `pipeConn.Write` on endpoint `e`: returns `(n, err)`. -/
def Write (s : pipeConns) (e : Side) (p : List Byte) : Res pipeConns (Nat × Option GoError) :=
  -- b := acquireByteBuffer(); b.b = append(b.b[:0], p...)
  let b : byteBuffer := { b := p }
  if (s.conn e).wclosed then
    -- releaseByteBuffer(b)
    .ret s (0, some .closedForWriting)
  else
    -- c.w.ch <- b
    match (s.conn e).w with
    | none => .nilDeref
    | some ref =>
      if (s.chan ref).length < chanCap then
        .ret (s.setChan ref (s.chan ref ++ [some b])) (p.length, none)
      else
        .block s

/-- Go builtin `copy(dst, src)`: the number of bytes copied and `dst` afterwards. -/
def copy (dst src : List Byte) : Nat × List Byte :=
  let n := min dst.length src.length
  (n, src.take n ++ dst.drop n)

/-- The last three lines of `pipeConn.read`: copy from `c.bb` into `p` and advance `c.bb`. -/
def readCopy (c : pipeConn) (q : List BufPtr) (p : List Byte) :
    Res (pipeConn × List BufPtr) (Nat × Option GoError × List Byte) :=
  let n := (copy p c.bb).1
  .ret ({ c with bb := c.bb.drop n }, q) (n, none, (copy p c.bb).2)

/-- Go `pipeConn.read` on an endpoint `c` whose receive channel `c.r` (when not
nil) holds `q`.  Returns `(n, err, p)` with `p` the destination after the call,
and the endpoint and channel contents after the call. -/
def pipeConn.read (c : pipeConn) (q : List BufPtr) (p : List Byte) (mayBlock : Bool) :
    Res (pipeConn × List BufPtr) (Nat × Option GoError × List Byte) :=
  if c.bb.length = 0 then
    -- releaseByteBuffer(c.b); c.b = nil
    let c := { c with b := none }
    if c.rclosed then
      .ret (c, q) (0, some .EOF, p)
    else
      match c.r with
      | none => .nilDeref
      | some _ =>
        match q with
        | [] =>
          -- the channel is empty: `<-c.r.ch` blocks, the `select` takes `default`
          if mayBlock then .block (c, q) else .ret (c, q) (0, some .errWouldBlock, p)
        | x :: rest =>
          match x with
          | none => .ret ({ c with b := none, rclosed := true }, rest) (0, some .EOF, p)
          | some buf => readCopy { c with b := some buf, bb := buf.b } rest p
  else
    readCopy c q p

/-- The `for len(p) > 0` loop of `pipeConn.Read`.  `pre` is the part of the
caller's slice before the current `p` (already filled), so that `pre ++ p` is
the whole destination. -/
def ReadLoop : Nat → pipeConn → List BufPtr → List Byte → List Byte → Nat → Bool →
    Res (pipeConn × List BufPtr) (Nat × Option GoError × List Byte)
  | 0, _, _, _, _, _, _ => .outOfFuel
  | fuel + 1, c, q, pre, p, nn, mayBlock =>
    if p.length > 0 then
      match pipeConn.read c q p mayBlock with
      | .ret (c1, q1) (n, err, p1) =>
        let nn1 := nn + n
        match err with
        | some err =>
          if (!mayBlock) && err == GoError.errWouldBlock then
            .ret (c1, q1) (nn1, none, pre ++ p1)
          else
            .ret (c1, q1) (nn1, some err, pre ++ p1)
        | none => ReadLoop fuel c1 q1 (pre ++ p1.take n) (p1.drop n) nn1 false
      | .block s1 => .block s1
      | .nilDeref => .nilDeref
      | .outOfFuel => .outOfFuel
    else
      .ret (c, q) (nn, none, pre ++ p)

/-- Write an endpoint and the contents of its receive channel back into the pair. -/
def pipeConns.putRead (s : pipeConns) (e : Side) (cq : pipeConn × List BufPtr) : pipeConns :=
  match (s.conn e).r with
  | none => s.setConn e cq.1
  | some ref => (s.setConn e cq.1).setChan ref cq.2

/-- Go `pipeConn.Read` on endpoint `e` with destination `p`: returns
`(nn, err, p)` with `p` the destination after the call.  Every iteration of
the loop that does not return consumes a byte of `p` or an entry of the
receive channel, which bounds the iterations. -/
def Read (s : pipeConns) (e : Side) (p : List Byte) :
    Res pipeConns (Nat × Option GoError × List Byte) :=
  let c := s.conn e
  let q := s.deref c.r
  (ReadLoop (p.length + q.length + 1) c q [] p 0 true).mapState (s.putRead e)

/-- The loop `for b := range ch.ch { releaseByteBuffer(b) }` of
`releasePipeChan` on the channel `ref` holding `q`: every queued value is
received and released; the channel is never closed, so on the empty channel the
receive of the `range` clause blocks. -/
def rangeRelease (s : pipeConns) (ref : ChanRef) : List BufPtr → Res pipeConns Unit
  | [] => .block (s.setChan ref [])
  | _ :: rest => rangeRelease s ref rest

/-- Go `releasePipeChan(ch)`. -/
def releasePipeChan (s : pipeConns) (ch : Option ChanRef) : Res pipeConns Unit :=
  match ch with
  | none => .nilDeref
  | some ref =>
    match rangeRelease s ref (s.chan ref) with
    | .ret s1 _ => .ret { s1 with pooled := s1.pooled ++ [ref] } ()
    | .block s1 => .block s1
    | .nilDeref => .nilDeref
    | .outOfFuel => .outOfFuel

/-- Go `pipeConn.release` on endpoint `e`, by value: the channels, flags and
fields of the pair.  The first statement, `releaseByteBuffer(c.b)`, puts the
buffer `c.b` into `byteBufferPool`, which this state does not hold;
`Mem.pipeConn.release` is the same function with the pool and the storage of
the buffers. -/
def pipeConn.release (s : pipeConns) (e : Side) : Res pipeConns Unit :=
  -- releaseByteBuffer(c.b): see `Mem.pipeConn.release`
  match releasePipeChan s (s.conn e).r with
  | .ret s1 _ =>
    .ret (s1.setConn e { s1.conn e with r := none, w := none, b := none, bb := [] }) ()
  | .block s1 => .block s1
  | .nilDeref => .nilDeref
  | .outOfFuel => .outOfFuel

/-- Go `pipeConns.release`. -/
def pipeConns.release (s : pipeConns) : Res pipeConns Unit :=
  let mustRelease := s.c1.wclosed && s.c2.wclosed
  if mustRelease then
    match pipeConn.release s .c1 with
    | .ret s1 _ => pipeConn.release s1 .c2
    | .block s1 => .block s1
    | .nilDeref => .nilDeref
    | .outOfFuel => .outOfFuel
  else
    .ret s ()

/-- Go `pipeConn.Close` on endpoint `e`: returns the error. -/
def Close (s : pipeConns) (e : Side) : Res pipeConns (Option GoError) :=
  -- c.wclosed = true
  let s1 := s.setConn e { s.conn e with wclosed := true }
  -- c.w.ch <- nil
  match (s1.conn e).w with
  | none => .nilDeref
  | some ref =>
    if (s1.chan ref).length < chanCap then
      let s2 := s1.setChan ref (s1.chan ref ++ [none])
      -- c.parent.release()
      match pipeConns.release s2 with
      | .ret s3 _ => .ret s3 none
      | .block s3 => .block s3
      | .nilDeref => .nilDeref
      | .outOfFuel => .outOfFuel
    else
      .block s1

/-! ## Specification vocabulary -/

/-- The bytes of the buffers queued before the first end-of-stream sentinel. -/
def dataBeforeEOS : List BufPtr → List Byte
  | [] => []
  | none :: _ => []
  | some b :: rest => b.b ++ dataBeforeEOS rest

/-- The bytes a reader can still obtain from endpoint `c` with receive channel
contents `q`: after `rclosed` the channel is not consulted any more. -/
def availR (c : pipeConn) (q : List BufPtr) : List Byte :=
  c.bb ++ (if c.rclosed then [] else dataBeforeEOS q)

/-- What `Read` may change: only `b`, `bb` and `rclosed` of the endpoint, and it
removes a front part of the channel; `rclosed` is set only by a sentinel of
that front part. -/
def ReadFrame (c : pipeConn) (q : List BufPtr) (c1 : pipeConn) (q1 : List BufPtr) : Prop :=
  c1.r = c.r ∧ c1.w = c.w ∧ c1.wclosed = c.wclosed ∧
  ∃ front, q = front ++ q1 ∧ (c1.rclosed = true ↔ (c.rclosed = true ∨ none ∈ front))

/-- Postcondition of the loop of `Read` started on endpoint `c` with receive
channel contents `q`, filled part `pre`, open part `p` and `nn` bytes counted so far. -/
def ReadPost (c : pipeConn) (q : List BufPtr) (pre p : List Byte) (nn : Nat) (mayBlock : Bool) :
    Res (pipeConn × List BufPtr) (Nat × Option GoError × List Byte) → Prop
  | .outOfFuel => False
  | .nilDeref => c.r = none
  | .block (c1, q1) =>
    mayBlock = true ∧ 0 < p.length ∧ c.bb = [] ∧ c.rclosed = false ∧ q = [] ∧
      c1 = { c with b := none } ∧ q1 = []
  | .ret (c1, q1) (n, err, d) =>
    ∃ taken : List Byte,
      n = nn + taken.length ∧ d = pre ++ taken ++ p.drop taken.length ∧
      taken.length ≤ p.length ∧ availR c q = taken ++ availR c1 q1 ∧ ReadFrame c q c1 q1 ∧
      ((err = none ∧ taken.length = p.length) ∨
       (err = some .EOF ∧ taken.length < p.length ∧ c1.rclosed = true ∧ c1.bb = []) ∨
       (err = none ∧ taken.length < p.length ∧ c1.rclosed = false ∧ c1.bb = [] ∧ q1 = []))

/-- The channel endpoint `e` receives from, as wired by `newPipeConns`. -/
def recvRef : Side → ChanRef
  | .c1 => .ch1
  | .c2 => .ch2

/-- The receive queue of endpoint `e`: the contents of the channel `c.r` points to. -/
def recvQueue (s : pipeConns) (e : Side) : List BufPtr :=
  s.deref (s.conn e).r

/-- The send queue of endpoint `e`: the contents of the channel `c.w` points to. -/
def sendQueue (s : pipeConns) (e : Side) : List BufPtr :=
  s.deref (s.conn e).w

/-- The available bytes of endpoint `e`: its unconsumed pending bytes followed
by the contents of the buffers queued in its receive queue before the first
end-of-stream sentinel. -/
def available (s : pipeConns) (e : Side) : List Byte :=
  (s.conn e).bb ++ dataBeforeEOS (recvQueue s e)

/-- A call on one of the two endpoints. -/
inductive Call where
  | Write (e : Side) (p : List Byte)
  | Read (e : Side) (p : List Byte)
  | Close (e : Side)
deriving DecidableEq, Repr

/-- What a call returned; for `Read` also the destination after the call. -/
inductive Out where
  | wrote (n : Nat) (err : Option GoError)
  | read (n : Nat) (err : Option GoError) (p : List Byte)
  | closed (err : Option GoError)
deriving DecidableEq, Repr

/-- Perform one call. -/
def exec (s : pipeConns) : Call → Res pipeConns Out
  | .Write e p => (Write s e p).mapVal (fun v => Out.wrote v.1 v.2)
  | .Read e p => (Read s e p).mapVal (fun v => Out.read v.1 v.2.1 v.2.2)
  | .Close e => (Close s e).mapVal Out.closed

/-- A sequential trace: the calls are performed one after the other, each
starting when the previous one has returned.  The result is the final state
and the log of the calls with what they returned, or `none` when some call
does not return (it blocks, or dereferences nil). -/
def run : pipeConns → List Call → Option (pipeConns × List (Call × Out))
  | s, [] => some (s, [])
  | s, c :: cs =>
    match exec s c with
    | .ret s1 o =>
      match run s1 cs with
      | some (s2, log) => some (s2, (c, o) :: log)
      | none => none
    | _ => none

/-- The states a pair can be in between two calls of a sequential trace that
starts with `newPipeConns`. -/
def Reachable (s : pipeConns) : Prop :=
  ∃ calls log, run newPipeConns calls = some (s, log)

/-- The bytes `Write` calls on endpoint `e` reported as written, in order. -/
def written (e : Side) : List (Call × Out) → List Byte
  | [] => []
  | (.Write e1 p, .wrote n _) :: log =>
    if e1 = e then p.take n ++ written e log else written e log
  | _ :: log => written e log

/-- The bytes `Read` calls on endpoint `e` returned, in order: the first `n`
bytes of the destination of each call. -/
def delivered (e : Side) : List (Call × Out) → List Byte
  | [] => []
  | (.Read e1 _, .read n _ d) :: log =>
    if e1 = e then d.take n ++ delivered e log else delivered e log
  | _ :: log => delivered e log

/-- Once a sentinel is queued, only sentinels follow it. -/
def eosTail (q : List BufPtr) : Prop :=
  ∀ front rest, q = front ++ rest → none ∈ front → ∀ x ∈ rest, x = none

/-- Invariant of a queue `q` read by an endpoint with flag `rclosed = rc` and
written by an endpoint with flag `wclosed = pw`. -/
def QInv (q : List BufPtr) (pw rc : Bool) : Prop :=
  q.length ≤ chanCap ∧ (pw = false → rc = false ∧ none ∉ q) ∧
  (rc = true → ∀ x ∈ q, x = none) ∧ eosTail q

/-- Invariant of the states between the calls of a sequential trace. -/
def Inv (s : pipeConns) : Prop :=
  (∀ e, (s.conn e).r = some (recvRef e) ∧ (s.conn e).w = some (recvRef e.peer)) ∧
  s.pooled = [] ∧
  (∀ e, (s.conn e).wclosed = true → (s.conn e.peer).wclosed = false) ∧
  ∀ e, QInv (s.chan (recvRef e)) (s.conn e.peer).wclosed (s.conn e).rclosed

/-- The state a half-close of endpoint `e` with send channel `ref` leads to:
`wclosed` of `e` is set and one sentinel is appended to the channel. -/
def halfClosed (s : pipeConns) (e : Side) (ref : ChanRef) : pipeConns :=
  (s.setConn e { s.conn e with wclosed := true }).setChan ref (s.chan ref ++ [none])

/-- The byte sequences passed to the `Write` calls on endpoint `e`, concatenated in call order. -/
def payload (e : Side) : List Call → List Byte
  | [] => []
  | .Write e1 p :: calls => if e1 = e then p ++ payload e calls else payload e calls
  | _ :: calls => payload e calls

/-- The calls of a round-trip trace from endpoint `e` to its peer: `Write` on
`e`, and `Read` on the peer with a destination of positive length. -/
def roundTripCall (e : Side) : Call → Prop
  | .Write e1 _ => e1 = e
  | .Read e1 p => e1 = e.peer ∧ 0 < p.length
  | .Close _ => False

instance (e : Side) (c : Call) : Decidable (roundTripCall e c) := by
  cases c <;> simp only [roundTripCall] <;> infer_instance

/-- A round-trip trace: two writes on `c1`, two reads on `c2`. -/
def roundTripExample : List Call :=
  [.Write .c1 [1, 2, 3], .Read .c2 [0, 0], .Write .c1 [4, 5], .Read .c2 [0, 0]]

/-- The log of `roundTripExample` on a fresh pair. -/
def roundTripLog : List (Call × Out) :=
  [(.Write .c1 [1, 2, 3], .wrote 3 none), (.Read .c2 [0, 0], .read 2 none [1, 2]),
   (.Write .c1 [4, 5], .wrote 2 none), (.Read .c2 [0, 0], .read 2 none [3, 4])]

/-- The state `roundTripExample` leads to from a fresh pair. -/
def roundTripState : pipeConns :=
  { newPipeConns with c2 := { newPipeConns.c2 with b := some { b := [4, 5] }, bb := [5] } }

/-- End of stream has been signalled to endpoint `e`: it has seen the sentinel,
or a sentinel is queued in its receive queue. -/
def eosPending (s : pipeConns) (e : Side) : Prop :=
  (s.conn e).rclosed = true ∨ none ∈ recvQueue s e

/-- The state of a fresh pair after `c1.Write([7])` and `c1.Close()`. -/
def eofExample : pipeConns :=
  { newPipeConns with
    c1 := { newPipeConns.c1 with wclosed := true }
    ch2 := [some { b := [7] }, none] }

/-- The state `eofExample` is in after `c2.Read` with a destination of length 2. -/
def eofExampleRead : pipeConns :=
  { eofExample with
    c2 := { eofExample.c2 with rclosed := true }
    ch2 := [] }

/-- The state of a fresh pair after `c1.Write([1, 2, 3])`. -/
def shortExample : pipeConns :=
  { newPipeConns with ch2 := [some { b := [1, 2, 3] }] }

/-- The calls that use the direction a half-close of endpoint `e` leaves
intact: `Read` on `e` and `Write` on its peer. -/
def otherDirectionCall (e : Side) : Call → Prop
  | .Read e1 _ => e1 = e
  | .Write e1 _ => e1 = e.peer
  | .Close _ => False

instance (e : Side) (c : Call) : Decidable (otherDirectionCall e c) := by
  cases c <;> simp only [otherDirectionCall] <;> infer_instance

/-- The state in which `c2.Close()` is blocked on a fresh pair after
`c1.Close()`: both `wclosed` flags are set, `ch1` has been drained by the
`range` loop of `releasePipeChan`, and nothing was put into the pool. -/
def jointCloseBlocked : pipeConns :=
  { newPipeConns with
    c1 := { newPipeConns.c1 with wclosed := true }
    c2 := { newPipeConns.c2 with wclosed := true }
    ch1 := []
    ch2 := [none] }

/-- A `Read` call on endpoint `e` with a destination of positive length. -/
def readCall (e : Side) : Call → Prop
  | .Read e1 p => e1 = e ∧ 0 < p.length
  | _ => False

instance (e : Side) (c : Call) : Decidable (readCall e c) := by
  cases c <;> simp only [readCall] <;> infer_instance

/-- What the `Read` calls logged in `log` must return when `rem` are the bytes
not yet returned and the writer has closed: each call returns the next
`min(len(p), len(rem))` bytes of `rem`, and reports `io.EOF` exactly when fewer
bytes remain than the destination is long. -/
def readsAfterClose : List Byte → List (Call × Out) → Prop
  | _, [] => True
  | rem, (.Read _ p, .read n err d) :: log =>
    n = min p.length rem.length ∧ d.take n = rem.take n ∧
    err = (if rem.length < p.length then some .EOF else none) ∧
    readsAfterClose (rem.drop n) log
  | _, _ :: _ => False

/-- No `Read` call logged in `log` reported `io.EOF`. -/
def noEOF (log : List (Call × Out)) : Prop :=
  ∀ c n d, (c, Out.read n (some .EOF) d) ∉ log

/-- The text of an error value: what its `Error()` method returns. -/
def GoError.Error : GoError → String
  | .EOF => "EOF"
  | .errWouldBlock => "would block"
  | .closedForWriting => "connection closed for writing"
  | .deadlineNotSupported => "deadline not supported"

/-- A `time.Time` value; the deadline setters never look at it. -/
abbrev Time := Int

/-- Go `pipeConn.SetDeadline` on endpoint `e`: returns the error. -/
def SetDeadline (s : pipeConns) (_e : Side) (_t : Time) : Res pipeConns (Option GoError) :=
  .ret s (some .deadlineNotSupported)

/-- Go `pipeConn.SetReadDeadline` on endpoint `e`. -/
def SetReadDeadline (s : pipeConns) (e : Side) (t : Time) : Res pipeConns (Option GoError) :=
  SetDeadline s e t

/-- Go `pipeConn.SetWriteDeadline` on endpoint `e`. -/
def SetWriteDeadline (s : pipeConns) (e : Side) (t : Time) : Res pipeConns (Option GoError) :=
  SetDeadline s e t

/-- The state of a fresh pair after `c1.Write([])`: one empty, non-nil buffer is queued for `c2`. -/
def emptyBufExample : pipeConns :=
  { newPipeConns with ch2 := [some { b := [] }] }

/-- The state in which `c2.Close()` is blocked when it starts in `eofExample`
(after `c1.Write([7])` and `c1.Close()`): `ch1` has been drained, the receive
queue `ch2` of `c2` still holds the unread buffer and the sentinel. -/
def unreadBlocked : pipeConns :=
  { eofExample with
    c2 := { eofExample.c2 with wclosed := true }
    ch1 := [] }

/-- The state `unreadBlocked` is in after `c2.Read` with a destination of length 2. -/
def unreadBlockedRead : pipeConns :=
  { unreadBlocked with
    c2 := { unreadBlocked.c2 with rclosed := true }
    ch2 := [] }

/-- The state of a fresh pair after two calls of `c1.Close()`. -/
def twoSentinels : pipeConns :=
  { newPipeConns with
    c1 := { newPipeConns.c1 with wclosed := true }
    ch2 := [none, none] }

/-! ## Several pairs and the channel pool

A world holds every pair made so far.  The `pipeChan` objects live in a heap
and are named by their address; `pipeChanPool` holds addresses.  A pair keeps
the addresses of the two channels `newPipeConns` acquired for it: the channel
fields of its endpoints only ever hold nil or one of these two channels, so a
method call on a pair is the single-pair call on the pair's view of the heap,
written back afterwards. -/

/-- A `pipeConns` object in a world: its two endpoints and the addresses of the
channels `ch1` and `ch2` that `newPipeConns` acquired for it. -/
structure PairCell where
  c1 : pipeConn
  c2 : pipeConn
  a1 : Nat
  a2 : Nat
deriving DecidableEq, Repr

/-- The `pipeChan` objects made by `pipeChanPool.New` (contents by address),
the contents of `pipeChanPool`, and the pairs made so far (a pair is named by
its index). -/
structure World where
  heap : List (List BufPtr)
  pool : List Nat
  pairs : List PairCell
deriving DecidableEq, Repr

/-- Outcome of a call in a world: as `Res`, and `bugPanic` for the
`panic("BUG: non-empty pipeChan acquired")` of `acquirePipeChan`. -/
inductive WRes (α : Type) where
  | ret (w : World) (v : α)
  | block (w : World)
  | nilDeref
  | outOfFuel
  | bugPanic
deriving DecidableEq, Repr

/-- The world before any call: no channel, an empty pool, no pair. -/
def World.empty : World :=
  { heap := [], pool := [], pairs := [] }

/-- Go `acquirePipeChan`.  `pipeChanPool.Get()` hands out one of the pooled
channels, here the `k`-th, and removes it from the pool, or it calls `New`,
which makes an empty channel of capacity 4; `sync.Pool` is free to do either,
so `k` is a parameter.  Returns the address of the channel. -/
def acquirePipeChan (w : World) (k : Nat) : WRes Nat :=
  match w.pool[k]? with
  | some a =>
    if (w.heap.getD a []).length > 0 then
      .bugPanic
    else
      .ret { w with pool := w.pool.eraseIdx k } a
  | none => .ret { w with heap := w.heap ++ [[]] } w.heap.length

/-- Go `newPipeConns` in a world: returns the index of the new pair. -/
def World.newPipeConns (w : World) (k1 k2 : Nat) : WRes Nat :=
  match acquirePipeChan w k1 with
  | .ret w1 ch1 =>
    match acquirePipeChan w1 k2 with
    | .ret w2 ch2 =>
      .ret { w2 with
             pairs := w2.pairs ++
               [{ c1 := Pipe.newPipeConns.c1, c2 := Pipe.newPipeConns.c2, a1 := ch1, a2 := ch2 }] }
        w2.pairs.length
    | .block w2 => .block w2
    | .nilDeref => .nilDeref
    | .outOfFuel => .outOfFuel
    | .bugPanic => .bugPanic
  | .block w1 => .block w1
  | .nilDeref => .nilDeref
  | .outOfFuel => .outOfFuel
  | .bugPanic => .bugPanic

/-- The address of one of the two channels of a pair. -/
def PairCell.addr (pc : PairCell) : ChanRef → Nat
  | .ch1 => pc.a1
  | .ch2 => pc.a2

/-- The single-pair state of a pair in a world: its endpoints and the contents
of its two channels. -/
def World.view (w : World) (pc : PairCell) : pipeConns :=
  { c1 := pc.c1, c2 := pc.c2, ch1 := w.heap.getD pc.a1 [], ch2 := w.heap.getD pc.a2 [],
    pooled := [] }

/-- Write the single-pair state `s` of the pair `pc` with index `i` back into
the world: its endpoints, the contents of its two channels, and the channels
it has put into `pipeChanPool`. -/
def World.store (w : World) (i : Nat) (pc : PairCell) (s : pipeConns) : World :=
  { heap := (w.heap.set pc.a1 s.ch1).set pc.a2 s.ch2
    pool := w.pool ++ s.pooled.map pc.addr
    pairs := w.pairs.set i { pc with c1 := s.c1, c2 := s.c2 } }

/-- A `Write`, `Read` or `Close` call on an endpoint of the pair with index `i`. -/
def World.call (w : World) (i : Nat) (c : Call) : WRes Out :=
  match w.pairs[i]? with
  | none => .nilDeref
  | some pc =>
    match exec (w.view pc) c with
    | .ret s o => .ret (w.store i pc s) o
    | .block s => .block (w.store i pc s)
    | .nilDeref => .nilDeref
    | .outOfFuel => .outOfFuel

/-- A call in a world: `newPipeConns`, or a call on a pair. -/
inductive WCall where
  | new (k1 k2 : Nat)
  | onPair (i : Nat) (c : Call)
deriving DecidableEq, Repr

/-- What a call in a world returned: the new pair, or the result of the call on a pair. -/
inductive WOut where
  | pair (i : Nat)
  | out (o : Out)
deriving DecidableEq, Repr

/-- Perform one call in a world. -/
def wexec (w : World) : WCall → WRes WOut
  | .new k1 k2 =>
    match World.newPipeConns w k1 k2 with
    | .ret w1 i => .ret w1 (.pair i)
    | .block w1 => .block w1
    | .nilDeref => .nilDeref
    | .outOfFuel => .outOfFuel
    | .bugPanic => .bugPanic
  | .onPair i c =>
    match World.call w i c with
    | .ret w1 o => .ret w1 (.out o)
    | .block w1 => .block w1
    | .nilDeref => .nilDeref
    | .outOfFuel => .outOfFuel
    | .bugPanic => .bugPanic

/-- A sequential trace in a world, as `run`: `none` when some call does not return. -/
def wrun : World → List WCall → Option (World × List (WCall × WOut))
  | w, [] => some (w, [])
  | w, c :: cs =>
    match wexec w c with
    | .ret w1 o =>
      match wrun w1 cs with
      | some (w2, log) => some (w2, (c, o) :: log)
      | none => none
    | _ => none

/-- The worlds between the calls of a sequential trace that starts with an empty pool. -/
def WReachable (w : World) : Prop :=
  ∃ calls log, wrun World.empty calls = some (w, log)

/-- The calls on the pair with index `j` in a log, with their results, in order. -/
def logOn (j : Nat) : List (WCall × WOut) → List (Call × Out)
  | [] => []
  | (.onPair i c, .out o) :: log => if i = j then (c, o) :: logOn j log else logOn j log
  | _ :: log => logOn j log

/-- The single-pair state the pair with index `j` starts a trace with: its view
if it exists already, and the state `newPipeConns` gives it otherwise. -/
def startView (w : World) (j : Nat) : pipeConns :=
  match w.pairs[j]? with
  | some pc => w.view pc
  | none => Pipe.newPipeConns

/-- The channel addresses the endpoint fields `r` and `w` of a pair refer to. -/
def PairCell.refs (pc : PairCell) : List Nat :=
  ([pc.c1.r, pc.c1.w, pc.c2.r, pc.c2.w].filterMap id).map pc.addr

/-- Invariant of the worlds between the calls of a sequential trace. -/
def WInv (w : World) : Prop :=
  w.pool = [] ∧
  (∀ (i : Nat) (pc : PairCell), w.pairs[i]? = some pc →
    pc.a1 < w.heap.length ∧ pc.a2 < w.heap.length ∧ pc.a1 ≠ pc.a2 ∧ Inv (w.view pc)) ∧
  (∀ (i j : Nat) (pa pb : PairCell), w.pairs[i]? = some pa → w.pairs[j]? = some pb → i ≠ j →
    pa.a1 ≠ pb.a1 ∧ pa.a1 ≠ pb.a2 ∧ pa.a2 ≠ pb.a1 ∧ pa.a2 ≠ pb.a2)

/-- A world trace: two pairs are made, then `c1` of the first pair writes two bytes. -/
def twoPairsCalls : List WCall :=
  [.new 0 0, .new 0 0, .onPair 0 (.Write .c1 [1, 2])]

/-- The first pair of `twoPairsWorld`. -/
def twoPairsFirst : PairCell :=
  { c1 := newPipeConns.c1, c2 := newPipeConns.c2, a1 := 0, a2 := 1 }

/-- The second pair of `twoPairsWorld`. -/
def twoPairsSecond : PairCell :=
  { c1 := newPipeConns.c1, c2 := newPipeConns.c2, a1 := 2, a2 := 3 }

/-- The world `twoPairsCalls` leads to from the empty world. -/
def twoPairsWorld : World :=
  { heap := [[], [some { b := [1, 2] }], [], []], pool := [],
    pairs := [twoPairsFirst, twoPairsSecond] }

/-- The log of `twoPairsCalls`. -/
def twoPairsLog : List (WCall × WOut) :=
  [(.new 0 0, .pair 0), (.new 0 0, .pair 1),
   (.onPair 0 (.Write .c1 [1, 2]), .out (.wrote 2 none))]

/-! ## Buffers as objects: `byteBufferPool` and shared storage

The model above holds buffers by value and leaves `byteBufferPool` out.  Here
a `byteBuffer` is an object with an address, its field `b` is a slice of a
backing array, `byteBufferPool` holds addresses of buffers, and the pending
bytes `c.bb` of an endpoint are a slice of the array of the buffer `c.b`.  All
pairs share the two pools, the package-level variables `byteBufferPool` and
`pipeChanPool` of the source.  Every function of `pipe.go` that bears on buffers
is embedded again, line by line, over this memory. -/

namespace Mem

/-- A non-nil Go byte slice: the address of its backing array, the offset of
its first element in the array, and its length.  Its capacity is what the
array holds from the offset on. -/
structure Slice where
  arr : Nat
  off : Nat
  len : Nat
deriving DecidableEq, Repr

/-- Go `pipeConn`: `r` and `w` hold the address of a `pipeChan` or nil, `b` the
address of a `byteBuffer` or nil, `bb` a slice or nil. -/
structure pipeConn where
  r : Option Nat
  w : Option Nat
  b : Option Nat
  bb : Option Slice
  rclosed : Bool
  wclosed : Bool
deriving DecidableEq, Repr

/-- Go `pipeConns`. -/
structure pipeConns where
  c1 : pipeConn
  c2 : pipeConn
deriving DecidableEq, Repr

/-- The memory of the package: the backing arrays of byte slices (an array is
the list of its elements, its length is its capacity), the `byteBuffer` objects
(the field `b` of each), the contents of `byteBufferPool`, the `pipeChan`
objects (the queued values of `ch`, oldest first; a value is the address of a
buffer or nil), the contents of `pipeChanPool`, and the pairs made so far. -/
structure Store where
  arrays : List (List Byte)
  bufs : List (Option Slice)
  bufPool : List Nat
  chans : List (List (Option Nat))
  chanPool : List Nat
  pairs : List pipeConns
deriving DecidableEq, Repr

/-- Outcome of a call: it returns, or it blocks on a channel operation (with
the memory it has reached), or it dereferences a nil pointer, or the loop of
`Read` runs out of fuel, or `acquirePipeChan` panics. -/
inductive MRes (α : Type) where
  | ret (m : Store) (v : α)
  | block (m : Store)
  | nilDeref
  | outOfFuel
  | bugPanic
deriving DecidableEq, Repr

/-- A step of a call: from the memory before it to an outcome. -/
def M (α : Type) : Type := Store → MRes α

/-- Sequencing of steps: the second step runs when the first returns. -/
def M.bind {α β : Type} (x : M α) (f : α → M β) : M β := fun m =>
  match x m with
  | .ret m1 v => f v m1
  | .block m1 => .block m1
  | .nilDeref => .nilDeref
  | .outOfFuel => .outOfFuel
  | .bugPanic => .bugPanic

instance : Monad M where
  pure v := fun m => .ret m v
  bind := M.bind

/-- The memory before any call. -/
def Store.empty : Store :=
  { arrays := [], bufs := [], bufPool := [], chans := [], chanPool := [], pairs := [] }

/-- The bytes of a slice. -/
def Store.bytes (m : Store) : Option Slice → List Byte
  | none => []
  | some s => ((m.arrays.getD s.arr []).drop s.off).take s.len

/-- Go `len(s)`. -/
def len : Option Slice → Nat
  | none => 0
  | some s => s.len

/-- The endpoint `e` of a pair. -/
def pipeConns.conn (pc : pipeConns) : Side → pipeConn
  | .c1 => pc.c1
  | .c2 => pc.c2

/-- Replace the endpoint `e` of a pair. -/
def pipeConns.setConn (pc : pipeConns) : Side → pipeConn → pipeConns
  | .c1, c => { pc with c1 := c }
  | .c2, c => { pc with c2 := c }

/-- Read the endpoint `e` of the pair with index `i`. -/
def getConn (i : Nat) (e : Side) : M pipeConn := fun m =>
  match m.pairs[i]? with
  | some pc => .ret m (pc.conn e)
  | none => .nilDeref

/-- Assign to fields of the endpoint `e` of the pair with index `i`. -/
def modifyConn (i : Nat) (e : Side) (f : pipeConn → pipeConn) : M Unit := fun m =>
  match m.pairs[i]? with
  | some pc => .ret { m with pairs := m.pairs.set i (pc.setConn e (f (pc.conn e))) } ()
  | none => .nilDeref

/-- Dereference a pointer. -/
def deref (p : Option Nat) : M Nat := fun m =>
  match p with
  | some a => .ret m a
  | none => .nilDeref

/-- Go `ch <- v` on the channel object at `a`: blocks while the channel holds
`chanCap` values. -/
def send (a : Nat) (v : Option Nat) : M Unit := fun m =>
  if (m.chans.getD a []).length < chanCap then
    .ret { m with chans := m.chans.set a (m.chans.getD a [] ++ [v]) } ()
  else
    .block m

/-- Go `<-ch` on the channel object at `a`: blocks on the empty channel. -/
def recv (a : Nat) : M (Option Nat) := fun m =>
  match m.chans.getD a [] with
  | v :: rest => .ret { m with chans := m.chans.set a rest } v
  | [] => .block m

/-- Go `select { case v = <-ch: default: }` on the channel object at `a`: the
received value, or `none` when the `default` branch is taken. -/
def tryRecv (a : Nat) : M (Option (Option Nat)) := fun m =>
  match m.chans.getD a [] with
  | v :: rest => .ret { m with chans := m.chans.set a rest } (some v)
  | [] => .ret m none

/-- The field `b` of the buffer object at `b`. -/
def getBuf (b : Nat) : M (Option Slice) := fun m =>
  .ret m (m.bufs.getD b none)

/-- The queued values of the channel object at `a`. -/
def getChan (a : Nat) : M (List (Option Nat)) := fun m =>
  .ret m (m.chans.getD a [])

/-- Go `acquireByteBuffer`.  `byteBufferPool.Get()` hands out one of the pooled
buffers, here the `k`-th, and removes it from the pool, or it calls `New`,
which makes `&byteBuffer{}`; `sync.Pool` is free to do either, so `k` is a
parameter.  Returns the address of the buffer. -/
def acquireByteBuffer (k : Nat) : M Nat := fun m =>
  match m.bufPool[k]? with
  | some a => .ret { m with bufPool := m.bufPool.eraseIdx k } a
  | none => .ret { m with bufs := m.bufs ++ [none] } m.bufs.length

/-- Go `releaseByteBuffer`. -/
def releaseByteBuffer (b : Option Nat) : M Unit := fun m =>
  match b with
  | some a => .ret { m with bufPool := m.bufPool ++ [a] } ()
  | none => .ret m ()

/-- Store `p` into the array `a` from the offset `off` on. -/
def overwrite (a : List Byte) (off : Nat) (p : List Byte) : List Byte :=
  a.take off ++ p ++ a.drop (off + p.length)

/-- Go `b.b = append(b.b[:0], p...)` on the buffer at `b`.  When `p` fits the
capacity of `b.b` it is stored into the array of `b.b`, which every other slice
of that array sees; otherwise a new array is allocated (of the capacity needed:
Go may allocate more, which matters to no call that fits).  Appending nothing
to the nil slice gives the nil slice. -/
def appendReset (b : Nat) (p : List Byte) : M Unit := fun m =>
  match m.bufs.getD b none with
  | some s =>
    if p.length ≤ (m.arrays.getD s.arr []).length - s.off then
      .ret { m with
             arrays := m.arrays.set s.arr (overwrite (m.arrays.getD s.arr []) s.off p)
             bufs := m.bufs.set b (some { s with len := p.length }) } ()
    else
      .ret { m with
             arrays := m.arrays ++ [p]
             bufs := m.bufs.set b (some { arr := m.arrays.length, off := 0, len := p.length }) } ()
  | none =>
    if p.length = 0 then
      .ret m ()
    else
      .ret { m with
             arrays := m.arrays ++ [p]
             bufs := m.bufs.set b (some { arr := m.arrays.length, off := 0, len := p.length }) } ()

/-- Go `pipeConn.Write` on endpoint `e` of the pair `i`; `k` is the pick of
`byteBufferPool.Get`.  Returns the count and the error. -/
def Write (i : Nat) (e : Side) (p : List Byte) (k : Nat) : M (Nat × Option GoError) := do
  let b ← acquireByteBuffer k
  appendReset b p
  let c ← getConn i e
  if c.wclosed then
    releaseByteBuffer (some b)
    pure (0, some .closedForWriting)
  else
    let ch ← deref c.w
    send ch (some b)
    pure (p.length, none)

/-- The lines `n := copy(p, c.bb); c.bb = c.bb[n:]` of `read`: returns the
count and the destination after the copy. -/
def readCopy (i : Nat) (e : Side) (p : List Byte) : M (Nat × Option GoError × List Byte) :=
  fun m =>
  match m.pairs[i]? with
  | none => .nilDeref
  | some pc =>
    let c := pc.conn e
    let n := min p.length (len c.bb)
    let bb1 := c.bb.map fun s => { s with off := s.off + n, len := s.len - n }
    .ret { m with pairs := m.pairs.set i (pc.setConn e { c with bb := bb1 }) }
      (n, none, (m.bytes c.bb).take n ++ p.drop n)

/-- Go `pipeConn.read` on endpoint `e` of the pair `i`: returns the count, the
error and the destination after the call. -/
def read (i : Nat) (e : Side) (p : List Byte) (mayBlock : Bool) :
    M (Nat × Option GoError × List Byte) := do
  let c ← getConn i e
  if len c.bb = 0 then
    releaseByteBuffer c.b
    modifyConn i e fun c => { c with b := none }
    if c.rclosed then
      pure (0, some .EOF, p)
    else
      let ch ← deref c.r
      let got ← (if mayBlock then (do let v ← recv ch; pure (some v)) else tryRecv ch)
      match got with
      | none => pure (0, some .errWouldBlock, p)
      | some none =>
        modifyConn i e fun c => { c with b := none, rclosed := true }
        pure (0, some .EOF, p)
      | some (some b) =>
        let s ← getBuf b
        modifyConn i e fun c => { c with b := some b, bb := s }
        readCopy i e p
  else
    readCopy i e p

/-- The loop of `Read`, with fuel: `pre` is the part of the destination already
filled, `p` the rest, `nn` the count so far. -/
def ReadLoop (i : Nat) (e : Side) : Nat → List Byte → List Byte → Nat → Bool →
    M (Nat × Option GoError × List Byte)
  | 0, _, _, _, _ => fun _ => .outOfFuel
  | fuel + 1, pre, p, nn, mayBlock =>
    if p.length > 0 then do
      let (n, err, p1) ← read i e p mayBlock
      match err with
      | some er =>
        if (!mayBlock && er == GoError.errWouldBlock) then
          pure (nn + n, none, pre ++ p1)
        else
          pure (nn + n, some er, pre ++ p1)
      | none => ReadLoop i e fuel (pre ++ p1.take n) (p1.drop n) (nn + n) false
    else
      pure (nn, none, pre ++ p)

/-- Go `pipeConn.Read` on endpoint `e` of the pair `i`: returns the count, the
error and the destination after the call.  Every turn of the loop but the last
consumes a byte of the destination or a queued value. -/
def Read (i : Nat) (e : Side) (p : List Byte) : M (Nat × Option GoError × List Byte) := fun m =>
  ReadLoop i e (p.length + (m.chans.map List.length).sum + 1) [] p 0 true m

/-- The loop `for b := range ch.ch { releaseByteBuffer(b) }` of
`releasePipeChan` on the channel object at `a` holding `q`: every queued value
is received and released; the channel is never closed, so on the empty channel
the receive of the `range` clause blocks. -/
def rangeRelease (a : Nat) : List (Option Nat) → M Unit
  | [] => fun m => .block { m with chans := m.chans.set a [] }
  | b :: rest => do
    releaseByteBuffer b
    rangeRelease a rest

/-- Go `releasePipeChan(ch)`. -/
def releasePipeChan (ch : Option Nat) : M Unit := do
  let a ← deref ch
  let q ← getChan a
  rangeRelease a q
  fun m => .ret { m with chanPool := m.chanPool ++ [a] } ()

/-- Go `pipeConn.release` on endpoint `e` of the pair `i`. -/
def pipeConn.release (i : Nat) (e : Side) : M Unit := do
  let c ← getConn i e
  releaseByteBuffer c.b
  releasePipeChan c.r
  modifyConn i e fun c => { c with r := none, w := none, b := none, bb := none }

/-- Go `pipeConns.release` on the pair `i`. -/
def pipeConns.release (i : Nat) : M Unit := do
  let c1 ← getConn i .c1
  let c2 ← getConn i .c2
  let mustRelease := c1.wclosed && c2.wclosed
  if mustRelease then
    pipeConn.release i .c1
    pipeConn.release i .c2
  else
    pure ()

/-- Go `pipeConn.Close` on endpoint `e` of the pair `i`: returns the error. -/
def Close (i : Nat) (e : Side) : M (Option GoError) := do
  modifyConn i e fun c => { c with wclosed := true }
  let c ← getConn i e
  let ch ← deref c.w
  send ch none
  pipeConns.release i
  pure none

/-- Go `acquirePipeChan`, `k` being the pick of `pipeChanPool.Get`: returns the
address of the channel. -/
def acquirePipeChan (k : Nat) : M Nat := fun m =>
  match m.chanPool[k]? with
  | some a =>
    if (m.chans.getD a []).length > 0 then
      .bugPanic
    else
      .ret { m with chanPool := m.chanPool.eraseIdx k } a
  | none => .ret { m with chans := m.chans ++ [[]] } m.chans.length

/-- Go `newPipeConns`: returns the index of the new pair. -/
def newPipeConns (k1 k2 : Nat) : M Nat := do
  let ch1 ← acquirePipeChan k1
  let ch2 ← acquirePipeChan k2
  fun m =>
    .ret { m with
           pairs := m.pairs ++
             [{ c1 := { r := some ch1, w := some ch2, b := none, bb := none,
                        rclosed := false, wclosed := false }
                c2 := { r := some ch2, w := some ch1, b := none, bb := none,
                        rclosed := false, wclosed := false } }] }
      m.pairs.length

/-- A call: `newPipeConns`, or a method call on endpoint `e` of the pair `i`.
The numbers `k` are the picks of the `Get` calls. -/
inductive MCall where
  | new (k1 k2 : Nat)
  | Write (i : Nat) (e : Side) (p : List Byte) (k : Nat)
  | Read (i : Nat) (e : Side) (p : List Byte)
  | Close (i : Nat) (e : Side)
deriving DecidableEq, Repr

/-- What a call did: it returned the new pair, it returned a result, or it is
blocked on a channel operation. -/
inductive MOut where
  | pair (i : Nat)
  | out (o : Out)
  | blocked
deriving DecidableEq, Repr

/-- Perform one call. -/
def mexec : MCall → M MOut
  | .new k1 k2 => do
    let i ← newPipeConns k1 k2
    pure (.pair i)
  | .Write i e p k => do
    let (n, err) ← Write i e p k
    pure (.out (.wrote n err))
  | .Read i e p => do
    let (n, err, d) ← Read i e p
    pure (.out (.read n err d))
  | .Close i e => do
    let err ← Close i e
    pure (.out (.closed err))

/-- A trace of calls, each made by a goroutine of its own, one after the
other: the next call starts when the one before has returned or has blocked.
The goroutine of a blocked call stays parked at its channel operation, in the
memory the call has reached, and is not resumed.  The result is the memory
after the trace and what each call did; `none` when a call panics. -/
def mrun : Store → List MCall → Option (Store × List (MCall × MOut))
  | m, [] => some (m, [])
  | m, c :: cs =>
    match mexec c m with
    | .ret m1 o =>
      match mrun m1 cs with
      | some (m2, log) => some (m2, (c, o) :: log)
      | none => none
    | .block m1 =>
      match mrun m1 cs with
      | some (m2, log) => some (m2, (c, .blocked) :: log)
      | none => none
    | _ => none

/-- The calls that lead to a pooled buffer whose storage is still pending: two
pairs are made; on the first pair `c2` writes `[1, 2, 3]`, `c1` reads one byte
and closes, and `c2` closes. -/
def aliasSetup : List MCall :=
  [.new 0 0, .new 0 0, .Write 0 .c2 [1, 2, 3] 0, .Read 0 .c1 [0], .Close 0 .c1, .Close 0 .c2]

/-- The memory after `aliasSetup`: the second `Close` is blocked in
`releasePipeChan`, the buffer 0 is in `byteBufferPool`, and `c1` of the first
pair still holds it in `b` and two bytes of its array in `bb`. -/
def aliasStore : Store :=
  { arrays := [[1, 2, 3]]
    bufs := [some { arr := 0, off := 0, len := 3 }]
    bufPool := [0]
    chans := [[], [none], [], []]
    chanPool := []
    pairs :=
      [{ c1 := { r := some 0, w := some 1, b := some 0, bb := some { arr := 0, off := 1, len := 2 },
                 rclosed := false, wclosed := true }
         c2 := { r := some 1, w := some 0, b := none, bb := none,
                 rclosed := false, wclosed := true } },
       { c1 := { r := some 2, w := some 3, b := none, bb := none,
                 rclosed := false, wclosed := false }
         c2 := { r := some 3, w := some 2, b := none, bb := none,
                 rclosed := false, wclosed := false } }] }

/-- What each call of `aliasSetup` did. -/
def aliasSetupLog : List (MCall × MOut) :=
  [(.new 0 0, .pair 0), (.new 0 0, .pair 1),
   (.Write 0 .c2 [1, 2, 3] 0, .out (.wrote 3 none)),
   (.Read 0 .c1 [0], .out (.read 1 none [1])),
   (.Close 0 .c1, .out (.closed none)),
   (.Close 0 .c2, .blocked)]

/-- The memory `aliasStore` after `c1` of the second pair has written
`[9, 9, 9]` and `byteBufferPool.Get` has handed out the pooled buffer 0: its
array holds the new bytes, and the buffer is queued for `c2` of the second
pair. -/
def aliasWritten : Store :=
  { aliasStore with
    arrays := [[9, 9, 9]]
    bufPool := []
    chans := [[], [none], [], [some 0]] }

/-- The bytes pending at endpoint `e` of the pair `i`: the bytes of its `bb`. -/
def pending (m : Store) (i : Nat) (e : Side) : List Byte :=
  match m.pairs[i]? with
  | some pc => m.bytes (pc.conn e).bb
  | none => []

/-- What a call returned, when it returned. -/
def MRes.val {α : Type} : MRes α → Option α
  | .ret _ v => some v
  | _ => none

end Mem

/-! ## The loop of Read -/

theorem ReadFrame.refl (c : pipeConn) (q : List BufPtr) : ReadFrame c q c q :=
  ⟨rfl, rfl, rfl, [], by simp, by simp⟩

theorem ReadFrame.trans {c c1 c2 : pipeConn} {q q1 q2 : List BufPtr}
    (h1 : ReadFrame c q c1 q1) (h2 : ReadFrame c1 q1 c2 q2) : ReadFrame c q c2 q2 := by
  obtain ⟨a1, a2, a3, f, hf, a5⟩ := h1
  obtain ⟨b1, b2, b3, g, hg, b5⟩ := h2
  refine ⟨b1.trans a1, b2.trans a2, b3.trans a3, f ++ g, ?_, ?_⟩
  · rw [hf, hg, List.append_assoc]
  · rw [b5, a5, List.mem_append, or_assoc]

theorem ReadPost.step {c c1 : pipeConn} {q q1 : List BufPtr} {pre p t : List Byte} {nn : Nat}
    {mayBlock : Bool} {res : Res (pipeConn × List BufPtr) (Nat × Option GoError × List Byte)}
    (ht : t.length ≤ p.length) (hav : availR c q = t ++ availR c1 q1)
    (hfr : ReadFrame c q c1 q1)
    (h : ReadPost c1 q1 (pre ++ t) (p.drop t.length) (nn + t.length) false res) :
    ReadPost c q pre p nn mayBlock res := by
  match res, h with
  | .block (c2, q2), h => simp [ReadPost] at h
  | .nilDeref, h => exact hfr.1.symm.trans h
  | .ret (c2, q2) (n, err, d), h =>
    obtain ⟨taken, hn, hd, hlen, hav2, hfr2, hend⟩ := h
    simp only [List.length_drop] at hlen hend
    refine ⟨t ++ taken, ?_, ?_, ?_, ?_, hfr.trans hfr2, ?_⟩
    · simp [hn]; omega
    · simp [hd, List.drop_drop, Nat.add_comm]
    · simp; omega
    · rw [hav, hav2, List.append_assoc]
    · simp only [List.length_append]
      rcases hend with ⟨e1, e2⟩ | ⟨e1, e2, e3⟩ | ⟨e1, e2, e3⟩
      · exact Or.inl ⟨e1, by omega⟩
      · exact Or.inr (Or.inl ⟨e1, by omega, e3⟩)
      · exact Or.inr (Or.inr ⟨e1, by omega, e3⟩)

theorem readCopy_loop_step {fuel : Nat} {c : pipeConn} {q : List BufPtr} {pre p : List Byte}
    {nn : Nat} {mb : Bool} :
    (match readCopy c q p with
      | .ret (c1, q1) (n, err, p1) =>
        (match err with
        | some err =>
          if (!mb) && err == GoError.errWouldBlock then
            Res.ret (c1, q1) (nn + n, none, pre ++ p1)
          else
            Res.ret (c1, q1) (nn + n, some err, pre ++ p1)
        | none => ReadLoop fuel c1 q1 (pre ++ p1.take n) (p1.drop n) (nn + n) false)
      | .block s1 => .block s1
      | .nilDeref => .nilDeref
      | .outOfFuel => .outOfFuel) =
    ReadLoop fuel { c with bb := c.bb.drop (min p.length c.bb.length) } q
      (pre ++ c.bb.take (min p.length c.bb.length)) (p.drop (min p.length c.bb.length))
      (nn + min p.length c.bb.length) false := by
  have h1 : (List.take (min p.length c.bb.length) c.bb).length = min p.length c.bb.length := by
    simp
  simp only [readCopy, copy]
  rw [List.take_left' h1, List.drop_left' h1]

theorem ReadPost.copyStep {fuel : Nat} {c c0 : pipeConn} {q q0 : List BufPtr} {pre p : List Byte}
    {nn : Nat} {mb : Bool}
    (ih : ∀ (c : pipeConn) (q : List BufPtr) (pre p : List Byte) (nn : Nat) (mb : Bool),
      p.length + q.length < fuel →
      ReadPost c q pre p nn mb (ReadLoop fuel c q pre p nn mb))
    (hfuel : p.length + q.length < fuel + 1)
    (hprog : 1 ≤ min p.length c.bb.length ∨ q.length < q0.length)
    (hq : q0.length ≤ q.length + 1)
    (hfuel0 : p.length + q0.length < fuel + 1)
    (hav : availR c0 q0 = availR c q)
    (hfr : ReadFrame c0 q0 c q) :
    ReadPost c0 q0 pre p nn mb
      (ReadLoop fuel { c with bb := c.bb.drop (min p.length c.bb.length) } q
        (pre ++ c.bb.take (min p.length c.bb.length)) (p.drop (min p.length c.bb.length))
        (nn + min p.length c.bb.length) false) := by
  have hl : (List.take (min p.length c.bb.length) c.bb).length = min p.length c.bb.length := by
    simp
  apply @ReadPost.step c0 { c with bb := c.bb.drop (min p.length c.bb.length) } q0 q pre p
    (c.bb.take (min p.length c.bb.length))
  · simp
  · rw [hav]; simp only [availR]; rw [← List.append_assoc, List.take_append_drop]
  · exact hfr.trans ⟨rfl, rfl, rfl, [], by simp, by simp⟩
  · rw [hl]
    apply ih
    simp only [List.length_drop]; omega

theorem eof_ne_wouldBlock : (GoError.EOF == GoError.errWouldBlock) = false := rfl

theorem ReadLoop_post (fuel : Nat) : ∀ (c : pipeConn) (q : List BufPtr) (pre p : List Byte)
    (nn : Nat) (mb : Bool), p.length + q.length < fuel →
    ReadPost c q pre p nn mb (ReadLoop fuel c q pre p nn mb) := by
  induction fuel with
  | zero => intro c q pre p nn mb h; omega
  | succ fuel ih =>
    intro c q pre p nn mb hfuel
    unfold ReadLoop
    by_cases hp : p.length > 0
    · simp only [hp, if_true]
      unfold pipeConn.read
      obtain ⟨r, w, b, bb, rc, wc⟩ := c
      match bb, rc, r, q, hfuel with
      | [], true, r, q, _ =>
        simp only [List.length_nil, if_true, eof_ne_wouldBlock, Bool.and_false,
          Bool.false_eq_true, if_false]
        refine ⟨[], by simp, by simp, by simp, by simp [availR],
          ⟨rfl, rfl, rfl, [], by simp, by simp⟩, ?_⟩
        exact Or.inr (Or.inl ⟨by simp, by simpa using hp, rfl, rfl⟩)
      | [], false, none, q, _ =>
        simp only [List.length_nil, if_true, Bool.false_eq_true, if_false]
        rfl
      | [], false, some ref, [], _ =>
        cases mb with
        | true =>
          simp only [List.length_nil, if_true, Bool.false_eq_true, if_false]
          exact ⟨rfl, hp, rfl, rfl, rfl, rfl, rfl⟩
        | false =>
          simp only [List.length_nil, if_true, Bool.false_eq_true, if_false]
          refine ⟨[], by simp, by simp, by simp, by simp [availR],
            ⟨rfl, rfl, rfl, [], by simp, by simp⟩, ?_⟩
          exact Or.inr (Or.inr ⟨by simp, by simpa using hp, rfl, rfl, rfl⟩)
      | [], false, some ref, none :: rest, _ =>
        simp only [List.length_nil, if_true, eof_ne_wouldBlock, Bool.and_false,
          Bool.false_eq_true, if_false]
        refine ⟨[], by simp, by simp, by simp, by simp [availR, dataBeforeEOS],
          ⟨rfl, rfl, rfl, [none], by simp, by simp⟩, ?_⟩
        exact Or.inr (Or.inl ⟨by simp, by simpa using hp, rfl, rfl⟩)
      | [], false, some ref, some buf :: rest, hfuel =>
        simp only [List.length_nil, if_true, Bool.false_eq_true, if_false]
        rw [readCopy_loop_step]
        apply ReadPost.copyStep ih
        · simp at hfuel ⊢; omega
        · right; simp
        · simp
        · exact hfuel
        · simp [availR, dataBeforeEOS]
        · exact ⟨rfl, rfl, rfl, [some buf], by simp, by simp⟩
      | x :: bb, rc, r, q, hfuel =>
        simp only [List.length_cons, Nat.add_one_ne_zero, if_false]
        rw [readCopy_loop_step]
        apply ReadPost.copyStep ih hfuel
        · left; simp only [List.length_cons]; omega
        · omega
        · exact hfuel
        · rfl
        · exact ReadFrame.refl _ q
    · have hp0 : p = [] := by
        cases p with
        | nil => rfl
        | cons a t => simp at hp
      subst hp0
      simp only [List.length_nil, gt_iff_lt, lt_self_iff_false, if_false]
      exact ⟨[], by simp, by simp, by simp, by simp, ReadFrame.refl c q, Or.inl ⟨rfl, rfl⟩⟩

/-! ## Selectors -/

@[simp] theorem peer_ne (e : Side) : e.peer ≠ e := by cases e <;> simp [Side.peer]
@[simp] theorem ne_peer (e : Side) : e ≠ e.peer := by cases e <;> simp [Side.peer]
@[simp] theorem peer_peer (e : Side) : e.peer.peer = e := by cases e <;> rfl
@[simp] theorem recvRef_peer_ne (e : Side) : recvRef e.peer ≠ recvRef e := by
  cases e <;> simp [Side.peer, recvRef]
@[simp] theorem recvRef_ne_peer (e : Side) : recvRef e ≠ recvRef e.peer := by
  cases e <;> simp [Side.peer, recvRef]

theorem eq_or_eq_peer (e e1 : Side) : e1 = e ∨ e1 = e.peer := by
  cases e <;> cases e1 <;> simp [Side.peer]

@[simp] theorem conn_setConn_same (s : pipeConns) (e : Side) (c : pipeConn) :
    (s.setConn e c).conn e = c := by cases e <;> rfl
@[simp] theorem conn_setConn_peer (s : pipeConns) (e : Side) (c : pipeConn) :
    (s.setConn e c).conn e.peer = s.conn e.peer := by cases e <;> rfl
@[simp] theorem conn_peer_setConn (s : pipeConns) (e : Side) (c : pipeConn) :
    (s.setConn e.peer c).conn e = s.conn e := by cases e <;> rfl
@[simp] theorem conn_setChan (s : pipeConns) (ref : ChanRef) (q : List BufPtr) (e : Side) :
    (s.setChan ref q).conn e = s.conn e := by cases e <;> cases ref <;> rfl
@[simp] theorem chan_setConn (s : pipeConns) (ref : ChanRef) (c : pipeConn) (e : Side) :
    (s.setConn e c).chan ref = s.chan ref := by cases e <;> cases ref <;> rfl
@[simp] theorem chan_setChan_same (s : pipeConns) (ref : ChanRef) (q : List BufPtr) :
    (s.setChan ref q).chan ref = q := by cases ref <;> rfl
theorem chan_setChan_ne (s : pipeConns) {ref ref1 : ChanRef} (q : List BufPtr) (h : ref1 ≠ ref) :
    (s.setChan ref q).chan ref1 = s.chan ref1 := by
  cases ref <;> cases ref1 <;> first | rfl | exact absurd rfl h
@[simp] theorem pooled_setConn (s : pipeConns) (e : Side) (c : pipeConn) :
    (s.setConn e c).pooled = s.pooled := by cases e <;> rfl
@[simp] theorem pooled_setChan (s : pipeConns) (ref : ChanRef) (q : List BufPtr) :
    (s.setChan ref q).pooled = s.pooled := by cases ref <;> rfl
@[simp] theorem setConn_conn (s : pipeConns) (e : Side) : s.setConn e (s.conn e) = s := by
  cases e <;> rfl
theorem setChan_eq_self (s : pipeConns) (ref : ChanRef) (q : List BufPtr)
    (h : s.chan ref = q) : s.setChan ref q = s := by
  subst h; cases ref <;> rfl
@[simp] theorem setChan_chan (s : pipeConns) (ref : ChanRef) : s.setChan ref (s.chan ref) = s := by
  cases ref <;> rfl

/-! ## Queues -/

theorem dataBeforeEOS_append_none (q : List BufPtr) :
    dataBeforeEOS (q ++ [none]) = dataBeforeEOS q := by
  induction q with
  | nil => rfl
  | cons x q ih => cases x <;> simp [dataBeforeEOS, ih]

theorem dataBeforeEOS_append_some (q : List BufPtr) (b : byteBuffer) (h : none ∉ q) :
    dataBeforeEOS (q ++ [some b]) = dataBeforeEOS q ++ b.b := by
  induction q with
  | nil => simp [dataBeforeEOS]
  | cons x q ih =>
    cases x with
    | none => simp at h
    | some y =>
      have h' : none ∉ q := fun hm => h (List.mem_cons_of_mem _ hm)
      simp [dataBeforeEOS, ih h']

theorem dataBeforeEOS_all_none (q : List BufPtr) (h : ∀ x ∈ q, x = none) :
    dataBeforeEOS q = [] := by
  cases q with
  | nil => rfl
  | cons x q =>
    have := h x (List.mem_cons_self _ _)
    subst this
    rfl

theorem eosTail_nil : eosTail [] := by
  intro front rest h hf
  have := List.append_eq_nil.mp h.symm
  simp [this.1] at hf

theorem eosTail_suffix {f q1 : List BufPtr} (h : eosTail (f ++ q1)) : eosTail q1 := by
  intro front rest hq hf
  exact h (f ++ front) rest (by rw [hq, List.append_assoc]) (List.mem_append.mpr (Or.inr hf))

theorem eosTail_append_none {q : List BufPtr} (h : eosTail q) : eosTail (q ++ [none]) := by
  intro front rest hq hf x hx
  rcases List.append_eq_append_iff.mp hq with ⟨a, ha, hb⟩ | ⟨c, hc, hd⟩
  · have : x ∈ [(none : BufPtr)] := by rw [hb]; exact List.mem_append.mpr (Or.inr hx)
    simpa using this
  · rw [hd] at hx
    rcases List.mem_append.mp hx with hx | hx
    · exact h front c hc hf x hx
    · simpa using hx

theorem eosTail_append_some {q : List BufPtr} (b : byteBuffer) (h : none ∉ q) :
    eosTail (q ++ [some b]) := by
  intro front rest hq hf x hx
  exfalso
  have : (none : BufPtr) ∈ q ++ [some b] := by rw [hq]; exact List.mem_append.mpr (Or.inl hf)
  rcases List.mem_append.mp this with h1 | h1
  · exact h h1
  · simp at h1

/-! ## Write and Close, one call -/

theorem Write_closed (s : pipeConns) (e : Side) (p : List Byte)
    (h : (s.conn e).wclosed = true) : Write s e p = .ret s (0, some .closedForWriting) := by
  simp [Write, h]

theorem Write_open (s : pipeConns) (e : Side) (p : List Byte) (ref : ChanRef)
    (hc : (s.conn e).wclosed = false) (hw : (s.conn e).w = some ref)
    (hlen : (s.chan ref).length < chanCap) :
    Write s e p = .ret (s.setChan ref (s.chan ref ++ [some { b := p }])) (p.length, none) := by
  simp [Write, hc, hw, hlen]

theorem Write_full (s : pipeConns) (e : Side) (p : List Byte) (ref : ChanRef)
    (hc : (s.conn e).wclosed = false) (hw : (s.conn e).w = some ref)
    (hlen : ¬ (s.chan ref).length < chanCap) : Write s e p = .block s := by
  simp [Write, hc, hw, hlen]

theorem rangeRelease_block (s : pipeConns) (ref : ChanRef) (q : List BufPtr) :
    rangeRelease s ref q = .block (s.setChan ref []) := by
  induction q with
  | nil => rfl
  | cons x q ih => simpa [rangeRelease] using ih

theorem releasePipeChan_block (s : pipeConns) (ref : ChanRef) :
    releasePipeChan s (some ref) = .block (s.setChan ref []) := by
  simp [releasePipeChan, rangeRelease_block]

theorem pipeConn_release_block (s : pipeConns) (e : Side) (ref : ChanRef)
    (hr : (s.conn e).r = some ref) : pipeConn.release s e = .block (s.setChan ref []) := by
  simp [pipeConn.release, hr, releasePipeChan_block]

theorem release_open (s : pipeConns) (h : ¬ (s.c1.wclosed = true ∧ s.c2.wclosed = true)) :
    pipeConns.release s = .ret s () := by
  simp only [pipeConns.release]
  have : (s.c1.wclosed && s.c2.wclosed) = false := by
    cases h1 : s.c1.wclosed <;> cases h2 : s.c2.wclosed <;> simp_all
  simp [this]

theorem release_joint (s : pipeConns) (ref : ChanRef) (h1 : s.c1.wclosed = true)
    (h2 : s.c2.wclosed = true) (hr : s.c1.r = some ref) :
    pipeConns.release s = .block (s.setChan ref []) := by
  have := pipeConn_release_block s .c1 ref hr
  simp [pipeConns.release, h1, h2, this]

theorem Close_half (s : pipeConns) (e : Side) (ref : ChanRef)
    (hp : (s.conn e.peer).wclosed = false) (hw : (s.conn e).w = some ref)
    (hlen : (s.chan ref).length < chanCap) :
    Close s e = .ret (halfClosed s e ref) none := by
  have hrel : pipeConns.release (halfClosed s e ref) = .ret (halfClosed s e ref) () := by
    apply release_open
    cases e <;> cases ref <;>
      simp_all [halfClosed, pipeConns.setConn, pipeConns.setChan, pipeConns.conn, Side.peer]
  have hw' : ((s.setConn e { s.conn e with wclosed := true }).conn e).w = some ref := by
    simpa using hw
  simp only [Close, hw', chan_setConn, hlen, if_true]
  simp only [halfClosed] at hrel
  rw [hrel]
  rfl

theorem Close_full (s : pipeConns) (e : Side) (ref : ChanRef) (hw : (s.conn e).w = some ref)
    (hlen : ¬ (s.chan ref).length < chanCap) :
    Close s e = .block (s.setConn e { s.conn e with wclosed := true }) := by
  have hw' : ((s.setConn e { s.conn e with wclosed := true }).conn e).w = some ref := by
    simpa using hw
  simp only [Close, hw', chan_setConn, hlen, if_false]

theorem Close_joint (s : pipeConns) (e : Side) (ref ref1 : ChanRef)
    (hp : (s.conn e.peer).wclosed = true) (hw : (s.conn e).w = some ref)
    (hr : s.c1.r = some ref1) (hlen : (s.chan ref).length < chanCap) :
    Close s e = .block ((halfClosed s e ref).setChan ref1 []) := by
  have hrel : pipeConns.release (halfClosed s e ref) =
      .block ((halfClosed s e ref).setChan ref1 []) := by
    apply release_joint _ ref1
    · cases e <;> cases ref <;>
        simp_all [halfClosed, pipeConns.setConn, pipeConns.setChan, pipeConns.conn, Side.peer]
    · cases e <;> cases ref <;>
        simp_all [halfClosed, pipeConns.setConn, pipeConns.setChan, pipeConns.conn, Side.peer]
    · cases e <;> cases ref <;>
        simp_all [halfClosed, pipeConns.setConn, pipeConns.setChan, pipeConns.conn, Side.peer]
  have hw' : ((s.setConn e { s.conn e with wclosed := true }).conn e).w = some ref := by
    simpa using hw
  simp only [Close, hw', chan_setConn, hlen, if_true]
  simp only [halfClosed] at hrel
  rw [hrel]
  rfl

/-! ## The invariant, one call -/

theorem Inv.recvQueue {s : pipeConns} (h : Inv s) (e : Side) :
    recvQueue s e = s.chan (recvRef e) := by
  simp [Pipe.recvQueue, (h.1 e).1, pipeConns.deref]

theorem Inv.sendQueue {s : pipeConns} (h : Inv s) (e : Side) :
    sendQueue s e = s.chan (recvRef e.peer) := by
  simp [Pipe.sendQueue, (h.1 e).2, pipeConns.deref]

theorem Inv.available {s : pipeConns} (h : Inv s) (e : Side) :
    available s e = availR (s.conn e) (s.chan (recvRef e)) := by
  simp only [Pipe.available, h.recvQueue, availR]
  cases hrc : (s.conn e).rclosed with
  | false => simp
  | true =>
    have := (h.2.2.2 e).2.2.1 hrc
    simp [dataBeforeEOS_all_none _ this]

theorem Inv_new : Inv newPipeConns := by
  refine ⟨?_, rfl, ?_, ?_⟩
  · intro e; cases e <;> simp [newPipeConns, pipeConns.conn, recvRef, Side.peer]
  · intro e; cases e <;> simp [newPipeConns, pipeConns.conn, Side.peer]
  · intro e
    cases e <;>
      simp [newPipeConns, pipeConns.conn, pipeConns.chan, recvRef, Side.peer, QInv, eosTail_nil]

theorem Write_inv {s s1 : pipeConns} {e : Side} {p : List Byte} {n : Nat} {err : Option GoError}
    (h : Inv s) (hw : Write s e p = .ret s1 (n, err)) :
    Inv s1 ∧ available s1 e.peer = available s e.peer ++ p.take n ∧
      available s1 e = available s e := by
  cases hc : (s.conn e).wclosed with
  | true =>
    rw [Write_closed s e p hc] at hw
    simp only [Res.ret.injEq, Prod.mk.injEq] at hw
    obtain ⟨rfl, rfl, _⟩ := hw
    simp [h]
  | false =>
    have hq := h.2.2.2 e.peer
    simp only [peer_peer] at hq
    by_cases hlen : (s.chan (recvRef e.peer)).length < chanCap
    · rw [Write_open s e p _ hc (h.1 e).2 hlen] at hw
      simp only [Res.ret.injEq, Prod.mk.injEq] at hw
      obtain ⟨rfl, rfl, _⟩ := hw
      have hinv : Inv (s.setChan (recvRef e.peer) (s.chan (recvRef e.peer) ++ [some { b := p }])) := by
        refine ⟨?_, ?_, ?_, ?_⟩
        · intro e1; simpa using h.1 e1
        · simpa using h.2.1
        · intro e1; simpa using h.2.2.1 e1
        · intro e1
          rcases eq_or_eq_peer e e1 with rfl | rfl
          · simpa [chan_setChan_ne] using h.2.2.2 e1
          · simp only [chan_setChan_same, conn_setChan, peer_peer]
            have hnone := (hq.2.1 hc)
            refine ⟨?_, ?_, ?_, eosTail_append_some _ hnone.2⟩
            · simp only [List.length_append, List.length_singleton]; exact hlen
            · intro _; exact ⟨hnone.1, by simpa using hnone.2⟩
            · intro hrc; rw [hnone.1] at hrc; cases hrc
      refine ⟨hinv, ?_, ?_⟩
      · rw [hinv.available, h.available]
        simp only [conn_setChan, chan_setChan_same, availR]
        rw [(hq.2.1 hc).1]
        simp [dataBeforeEOS_append_some _ _ (hq.2.1 hc).2]
      · rw [hinv.available, h.available]
        simp [chan_setChan_ne]
    · rw [Write_full s e p _ hc (h.1 e).2 hlen] at hw
      cases hw

theorem Close_inv {s s1 : pipeConns} {e : Side} {err : Option GoError}
    (h : Inv s) (hw : Close s e = .ret s1 err) :
    Inv s1 ∧ (∀ e1, available s1 e1 = available s e1) ∧ err = none ∧
      (s.conn e.peer).wclosed = false ∧ s1 = halfClosed s e (recvRef e.peer) := by
  by_cases hlen : (s.chan (recvRef e.peer)).length < chanCap
  · cases hp : (s.conn e.peer).wclosed with
    | true =>
      have hr : s.c1.r = some (recvRef .c1) := (h.1 .c1).1
      rw [Close_joint s e _ _ hp (h.1 e).2 hr hlen] at hw
      cases hw
    | false =>
      rw [Close_half s e _ hp (h.1 e).2 hlen] at hw
      simp only [Res.ret.injEq] at hw
      obtain ⟨rfl, rfl⟩ := hw
      have hq := h.2.2.2 e.peer
      simp only [peer_peer] at hq
      have hinv : Inv (halfClosed s e (recvRef e.peer)) := by
        refine ⟨?_, ?_, ?_, ?_⟩
        · intro e1
          rcases eq_or_eq_peer e e1 with rfl | rfl
          · simpa [halfClosed] using h.1 e1
          · simpa [halfClosed] using h.1 e.peer
        · simpa [halfClosed] using h.2.1
        · intro e1
          rcases eq_or_eq_peer e e1 with rfl | rfl
          · simp [halfClosed, hp]
          · simp [halfClosed, hp]
        · intro e1
          rcases eq_or_eq_peer e e1 with rfl | rfl
          · have := h.2.2.2 e1
            simpa [halfClosed, chan_setChan_ne] using this
          · simp only [halfClosed, chan_setChan_same, conn_setChan, peer_peer, conn_setConn_same,
              conn_setConn_peer]
            refine ⟨?_, ?_, ?_, eosTail_append_none hq.2.2.2⟩
            · simp only [List.length_append, List.length_singleton]; exact hlen
            · intro hf; cases hf
            · intro hrc x hx
              rcases List.mem_append.mp hx with hx | hx
              · exact hq.2.2.1 hrc x hx
              · simpa using hx
      refine ⟨hinv, ?_, rfl, rfl, rfl⟩
      intro e1
      rw [hinv.available, h.available]
      rcases eq_or_eq_peer e e1 with rfl | rfl
      · simp [halfClosed, chan_setChan_ne, availR]
      · simp [halfClosed, availR, dataBeforeEOS_append_none]
  · rw [Close_full s e _ (h.1 e).2 hlen] at hw
    cases hw

/-! ## Read, one call -/

theorem mapState_eq_ret {σ τ α : Type} {f : σ → τ} {res : Res σ α} {s1 : τ} {v : α}
    (h : res.mapState f = .ret s1 v) : ∃ s0, res = .ret s0 v ∧ f s0 = s1 := by
  cases res with
  | ret s0 v0 =>
    simp only [Res.mapState, Res.ret.injEq] at h
    exact ⟨s0, by rw [h.2], h.1⟩
  | block s0 => simp [Res.mapState] at h
  | nilDeref => simp [Res.mapState] at h
  | outOfFuel => simp [Res.mapState] at h

theorem mapState_eq_block {σ τ α : Type} {f : σ → τ} {res : Res σ α} {s1 : τ}
    (h : res.mapState f = .block s1) : ∃ s0, res = .block s0 ∧ f s0 = s1 := by
  cases res with
  | ret s0 v0 => simp [Res.mapState] at h
  | block s0 =>
    simp only [Res.mapState, Res.block.injEq] at h
    exact ⟨s0, rfl, h⟩
  | nilDeref => simp [Res.mapState] at h
  | outOfFuel => simp [Res.mapState] at h

theorem putRead_some (s : pipeConns) (e : Side) (ref : ChanRef) (cq : pipeConn × List BufPtr)
    (hr : (s.conn e).r = some ref) : s.putRead e cq = (s.setConn e cq.1).setChan ref cq.2 := by
  simp [pipeConns.putRead, hr]

theorem recvQueue_some (s : pipeConns) (e : Side) (ref : ChanRef)
    (hr : (s.conn e).r = some ref) : recvQueue s e = s.chan ref := by
  simp [recvQueue, hr, pipeConns.deref]

theorem Read_loop_post (s : pipeConns) (e : Side) (p : List Byte) :
    ReadPost (s.conn e) (recvQueue s e) [] p 0 true
      (ReadLoop (p.length + (recvQueue s e).length + 1) (s.conn e) (recvQueue s e) [] p 0 true) :=
  ReadLoop_post _ _ _ _ _ _ _ (by omega)

/-- What a returning `Read` on endpoint `e` does, in every state. -/
theorem Read_ret {s s1 : pipeConns} {e : Side} {p d : List Byte} {n : Nat}
    {err : Option GoError} (h : Read s e p = .ret s1 (n, err, d)) :
    ∃ c1 q1, s1 = s.putRead e (c1, q1) ∧
      ReadPost (s.conn e) (recvQueue s e) [] p 0 true (.ret (c1, q1) (n, err, d)) := by
  have hpost := Read_loop_post s e p
  obtain ⟨⟨c1, q1⟩, h0, h1⟩ := mapState_eq_ret h
  simp only [recvQueue] at hpost
  rw [h0] at hpost
  exact ⟨c1, q1, h1.symm, hpost⟩

theorem Read_block {s s1 : pipeConns} {e : Side} {p : List Byte}
    (h : Read s e p = .block s1) :
    0 < p.length ∧ (s.conn e).bb = [] ∧ (s.conn e).rclosed = false ∧ recvQueue s e = [] ∧
      s1 = s.setConn e { s.conn e with b := none } := by
  have hpost := Read_loop_post s e p
  obtain ⟨⟨c1, q1⟩, h0, h⟩ := mapState_eq_block h
  simp only [recvQueue] at hpost
  rw [h0] at hpost
  obtain ⟨_, h1, h2, h3, h4, h5, h6⟩ := hpost
  refine ⟨h1, h2, h3, h4, ?_⟩
  rw [← h, h5, h6]
  rcases Option.eq_none_or_eq_some (s.conn e).r with hr | ⟨ref, hr⟩
  · simp only [pipeConns.putRead, hr]
  · have hch : ∀ c, (s.setConn e c).chan ref = [] := by
      intro c; rw [chan_setConn]; simpa [pipeConns.deref, hr] using h4
    simp only [pipeConns.putRead, hr]
    exact setChan_eq_self _ _ _ (hch _)

theorem Read_total (s : pipeConns) (e : Side) (p : List Byte) :
    (∃ s1 n err d, Read s e p = .ret s1 (n, err, d)) ∨ (∃ s1, Read s e p = .block s1) ∨
      (Read s e p = .nilDeref ∧ (s.conn e).r = none) := by
  have hpost := Read_loop_post s e p
  simp only [recvQueue] at hpost
  simp only [Read]
  revert hpost
  generalize ReadLoop _ (s.conn e) _ [] p 0 true = res
  intro hpost
  cases res with
  | ret s0 v => exact Or.inl ⟨_, v.1, v.2.1, v.2.2, rfl⟩
  | block s0 => exact Or.inr (Or.inl ⟨_, rfl⟩)
  | nilDeref => exact Or.inr (Or.inr ⟨rfl, hpost⟩)
  | outOfFuel => exact hpost.elim

theorem Read_inv {s s1 : pipeConns} {e : Side} {p d : List Byte} {n : Nat}
    {err : Option GoError} (h : Inv s) (hw : Read s e p = .ret s1 (n, err, d)) :
    Inv s1 ∧ available s e = d.take n ++ available s1 e ∧
      available s1 e.peer = available s e.peer := by
  obtain ⟨c1, q1, hs1, taken, hn, hd, hlen, hav, hfr, hend⟩ := Read_ret hw
  rw [putRead_some s e _ _ (h.1 e).1] at hs1
  rw [recvQueue_some s e _ (h.1 e).1] at hav hfr
  simp only at hs1
  subst hs1
  obtain ⟨f1, f2, f3, front, hfront, f5⟩ := hfr
  have hq := h.2.2.2 e
  have hinv : Inv ((s.setConn e c1).setChan (recvRef e) q1) := by
    refine ⟨?_, ?_, ?_, ?_⟩
    · intro e1
      rcases eq_or_eq_peer e e1 with rfl | rfl
      · simpa [f1, f2] using h.1 e1
      · simpa using h.1 e.peer
    · simpa using h.2.1
    · intro e1
      rcases eq_or_eq_peer e e1 with rfl | rfl
      · simpa [f3] using h.2.2.1 e1
      · simpa [f3] using h.2.2.1 e.peer
    · intro e1
      rcases eq_or_eq_peer e e1 with rfl | rfl
      · simp only [chan_setChan_same, conn_setChan, conn_setConn_same, conn_setConn_peer]
        have hsub : ∀ x, x ∈ q1 → x ∈ s.chan (recvRef e1) := by
          intro x hx; rw [hfront]; exact List.mem_append.mpr (Or.inr hx)
        refine ⟨?_, ?_, ?_, ?_⟩
        · have := hq.1
          rw [hfront, List.length_append] at this
          omega
        · intro hpw
          obtain ⟨g1, g2⟩ := hq.2.1 hpw
          refine ⟨?_, fun hx => g2 (hsub _ hx)⟩
          cases hrc : c1.rclosed with
          | false => rfl
          | true =>
            rcases f5.mp hrc with h5 | h5
            · rw [g1] at h5; cases h5
            · exact absurd (by rw [hfront]; exact List.mem_append.mpr (Or.inl h5)) g2
        · intro hrc x hx
          rcases f5.mp hrc with h5 | h5
          · exact hq.2.2.1 h5 x (hsub x hx)
          · exact hq.2.2.2 front q1 hfront h5 x hx
        · exact eosTail_suffix (f := front) (by rw [← hfront]; exact hq.2.2.2)
      · have := h.2.2.2 e.peer
        simpa [chan_setChan_ne, f3] using this
  refine ⟨hinv, ?_, ?_⟩
  · rw [hinv.available, h.available]
    simp only [conn_setChan, conn_setConn_same, chan_setChan_same]
    rw [hav, hd, hn]
    simp
  · rw [hinv.available, h.available]
    simp [chan_setChan_ne]

/-! ## Sequential traces -/

theorem mapVal_eq_ret {σ α β : Type} {f : α → β} {res : Res σ α} {s1 : σ} {o : β}
    (h : res.mapVal f = .ret s1 o) : ∃ v, res = .ret s1 v ∧ f v = o := by
  cases res with
  | ret s0 v0 =>
    simp only [Res.mapVal, Res.ret.injEq] at h
    exact ⟨v0, by rw [h.1], h.2⟩
  | block s0 => simp [Res.mapVal] at h
  | nilDeref => simp [Res.mapVal] at h
  | outOfFuel => simp [Res.mapVal] at h

theorem run_cons {s s2 : pipeConns} {c : Call} {cs : List Call} {log : List (Call × Out)}
    (h : run s (c :: cs) = some (s2, log)) :
    ∃ s1 o log1, exec s c = .ret s1 o ∧ run s1 cs = some (s2, log1) ∧ log = (c, o) :: log1 := by
  simp only [run] at h
  cases hx : exec s c with
  | ret s1 o =>
    rw [hx] at h
    simp only at h
    cases hr : run s1 cs with
    | none => rw [hr] at h; simp at h
    | some v =>
      obtain ⟨s3, log1⟩ := v
      rw [hr] at h
      simp only [Option.some.injEq, Prod.mk.injEq] at h
      exact ⟨s1, o, log1, rfl, by rw [hr, h.1], h.2.symm⟩
  | block s1 => rw [hx] at h; simp at h
  | nilDeref => rw [hx] at h; simp at h
  | outOfFuel => rw [hx] at h; simp at h

theorem exec_inv {s s1 : pipeConns} {c : Call} {o : Out} (h : Inv s)
    (hx : exec s c = .ret s1 o) :
    Inv s1 ∧ ∀ e, available s e ++ written e.peer [(c, o)] =
      delivered e [(c, o)] ++ available s1 e := by
  cases c with
  | Write e0 p =>
    obtain ⟨⟨n, err⟩, hw, rfl⟩ := mapVal_eq_ret hx
    obtain ⟨hinv, h1, h2⟩ := Write_inv h hw
    refine ⟨hinv, fun e => ?_⟩
    rcases eq_or_eq_peer e0 e with rfl | rfl
    · simp [written, delivered, h2]
    · simp [written, delivered, h1]
  | Read e0 p =>
    obtain ⟨⟨n, err, d⟩, hw, rfl⟩ := mapVal_eq_ret hx
    obtain ⟨hinv, h1, h2⟩ := Read_inv h hw
    refine ⟨hinv, fun e => ?_⟩
    rcases eq_or_eq_peer e0 e with rfl | rfl
    · simp [written, delivered, h1]
    · simp [written, delivered, h2]
  | Close e0 =>
    obtain ⟨err, hw, rfl⟩ := mapVal_eq_ret hx
    obtain ⟨hinv, h1, _⟩ := Close_inv h hw
    exact ⟨hinv, fun e => by simp [written, delivered, h1]⟩

theorem written_cons (e : Side) (c : Call) (o : Out) (log : List (Call × Out)) :
    written e ((c, o) :: log) = written e [(c, o)] ++ written e log := by
  cases c <;> cases o <;> simp [written]
  split <;> simp

theorem delivered_cons (e : Side) (c : Call) (o : Out) (log : List (Call × Out)) :
    delivered e ((c, o) :: log) = delivered e [(c, o)] ++ delivered e log := by
  cases c <;> cases o <;> simp [delivered]
  split <;> simp

theorem run_inv (calls : List Call) : ∀ {s s1 : pipeConns} {log : List (Call × Out)}, Inv s →
    run s calls = some (s1, log) →
    Inv s1 ∧ ∀ e, available s e ++ written e.peer log = delivered e log ++ available s1 e := by
  induction calls with
  | nil =>
    intro s s1 log h hr
    simp only [run, Option.some.injEq, Prod.mk.injEq] at hr
    obtain ⟨rfl, rfl⟩ := hr
    exact ⟨h, fun e => by simp [written, delivered]⟩
  | cons c cs ih =>
    intro s s2 log h hr
    obtain ⟨s1, o, log1, hx, hr1, rfl⟩ := run_cons hr
    obtain ⟨hinv1, hstep⟩ := exec_inv h hx
    obtain ⟨hinv2, hrest⟩ := ih hinv1 hr1
    refine ⟨hinv2, fun e => ?_⟩
    rw [written_cons, delivered_cons, ← List.append_assoc, hstep e, List.append_assoc, hrest e,
      List.append_assoc]

theorem Reachable.inv {s : pipeConns} (h : Reachable s) : Inv s := by
  obtain ⟨calls, log, hr⟩ := h
  exact (run_inv calls Inv_new hr).1

/-! ## C1: round trip -/

theorem roundTrip_written (e : Side) (calls : List Call) : ∀ {s s1 : pipeConns}
    {log : List (Call × Out)}, Inv s → (s.conn e).wclosed = false →
    (∀ c ∈ calls, roundTripCall e c) → run s calls = some (s1, log) →
    written e log = payload e calls ∧ (s1.conn e).wclosed = false := by
  induction calls with
  | nil =>
    intro s s1 log _ hc _ hr
    simp only [run, Option.some.injEq, Prod.mk.injEq] at hr
    obtain ⟨rfl, rfl⟩ := hr
    exact ⟨rfl, hc⟩
  | cons c cs ih =>
    intro s s2 log h hc hcalls hr
    obtain ⟨s1, o, log1, hx, hr1, rfl⟩ := run_cons hr
    have hinv1 := (exec_inv h hx).1
    have hc0 := hcalls c (List.mem_cons_self _ _)
    have hcs : ∀ c ∈ cs, roundTripCall e c := fun c hm => hcalls c (List.mem_cons_of_mem _ hm)
    cases c with
    | Write e0 p =>
      simp only [roundTripCall] at hc0
      subst hc0
      obtain ⟨⟨n, err⟩, hw, rfl⟩ := mapVal_eq_ret hx
      by_cases hlen : (s.chan (recvRef e0.peer)).length < chanCap
      · rw [Write_open s e0 p _ hc (h.1 e0).2 hlen] at hw
        simp only [Res.ret.injEq, Prod.mk.injEq] at hw
        obtain ⟨rfl, rfl, rfl⟩ := hw
        obtain ⟨h1, h2⟩ := ih hinv1 (by simpa using hc) hcs hr1
        exact ⟨by simp [written, payload, h1], h2⟩
      · rw [Write_full s e0 p _ hc (h.1 e0).2 hlen] at hw
        cases hw
    | Read e0 p =>
      simp only [roundTripCall] at hc0
      obtain ⟨rfl, _⟩ := hc0
      obtain ⟨⟨n, err, d⟩, hw, rfl⟩ := mapVal_eq_ret hx
      obtain ⟨c1, q1, hs1, _⟩ := Read_ret hw
      rw [putRead_some s e.peer _ _ (h.1 e.peer).1] at hs1
      subst hs1
      obtain ⟨h1, h2⟩ := ih hinv1 (by simpa using hc) hcs hr1
      exact ⟨by simp [written, payload, h1], h2⟩
    | Close e0 => simp [roundTripCall] at hc0

/-- C1 (round trip).  In every sequential trace on a fresh pair that consists
of `Write` calls on one endpoint and `Read` calls with destinations of positive
length on the other, all of which return, the concatenation of the bytes
returned by the `Read` calls is a prefix of the concatenation of the written
byte sequences, equals it once as many bytes have been returned as were
written, and what has not been returned yet is still available to the reader
in the same order. -/
theorem C1_round_trip (e : Side) (calls : List Call) (s : pipeConns) (log : List (Call × Out))
    (hcalls : ∀ c ∈ calls, roundTripCall e c)
    (hrun : run newPipeConns calls = some (s, log)) :
    delivered e.peer log <+: payload e calls ∧
    ((delivered e.peer log).length = (payload e calls).length →
      delivered e.peer log = payload e calls) ∧
    payload e calls = delivered e.peer log ++ available s e.peer := by
  have hstream := (run_inv calls Inv_new hrun).2 e.peer
  have hw := (roundTrip_written e calls Inv_new (by cases e <;> rfl) hcalls hrun).1
  have h0 : available newPipeConns e.peer = [] := by cases e <;> rfl
  rw [peer_peer, hw, h0, List.nil_append] at hstream
  refine ⟨⟨_, hstream.symm⟩, ?_, hstream⟩
  intro hlen
  have := congrArg List.length hstream
  rw [List.length_append] at this
  have hnil : available s e.peer = [] := List.length_eq_zero.mp (by omega)
  rw [hstream, hnil, List.append_nil]

/-- Witness of C1: two writes and two reads that leave one byte undelivered. -/
theorem C1_round_trip_witness :
    (∀ c ∈ roundTripExample, roundTripCall .c1 c) ∧
    run newPipeConns roundTripExample = some (roundTripState, roundTripLog) ∧
    (delivered Side.c1.peer roundTripLog <+: payload .c1 roundTripExample ∧
    ((delivered Side.c1.peer roundTripLog).length = (payload .c1 roundTripExample).length →
      delivered Side.c1.peer roundTripLog = payload .c1 roundTripExample) ∧
    payload .c1 roundTripExample =
      delivered Side.c1.peer roundTripLog ++ available roundTripState Side.c1.peer) :=
  ⟨by decide, by decide,
    C1_round_trip .c1 roundTripExample roundTripState roundTripLog (by decide) (by decide)⟩

/-! ## C3, C4: Write -/

/-- C3 (write after close).  On an endpoint whose `wclosed` flag is set, `Write`
of any byte slice, also the empty one, returns 0 and the non-nil error
"connection closed for writing", and the state of the pair after the call is
the state before it: nothing is enqueued and no field of either endpoint
changes. -/
theorem C3_write_after_close (s : pipeConns) (e : Side) (p : List Byte)
    (h : (s.conn e).wclosed = true) :
    Write s e p = .ret s (0, some .closedForWriting) :=
  Write_closed s e p h

/-- Witness of C3: the empty slice written on `c1` after `c1` was closed. -/
theorem C3_write_after_close_witness :
    ((halfClosed newPipeConns .c1 .ch2).conn .c1).wclosed = true ∧
    Write (halfClosed newPipeConns .c1 .ch2) .c1 [] =
      .ret (halfClosed newPipeConns .c1 .ch2) (0, some .closedForWriting) :=
  ⟨by decide, C3_write_after_close (halfClosed newPipeConns .c1 .ch2) .c1 [] (by decide)⟩

/-- C4 (writes are never partial).  On an endpoint with `wclosed = false` whose
send queue `ref`, which is the receive queue of the peer, holds fewer than 4
entries, `Write(p)` returns `(len(p), nil)`; afterwards the peer's receive
queue is the old one followed by exactly one buffer with content `p`, and both
endpoints, the other queue and the pool log are unchanged. -/
theorem C4_write_whole (s : pipeConns) (e : Side) (p : List Byte) (ref : ChanRef)
    (hc : (s.conn e).wclosed = false) (hw : (s.conn e).w = some ref)
    (hr : (s.conn e.peer).r = some ref) (hlen : (sendQueue s e).length < 4) :
    Write s e p = .ret (s.setChan ref (s.chan ref ++ [some { b := p }])) (p.length, none) ∧
      recvQueue (s.setChan ref (s.chan ref ++ [some { b := p }])) e.peer =
        recvQueue s e.peer ++ [some { b := p }] ∧
      (∀ e1, (s.setChan ref (s.chan ref ++ [some { b := p }])).conn e1 = s.conn e1) ∧
      (∀ ref1, ref1 ≠ ref →
        (s.setChan ref (s.chan ref ++ [some { b := p }])).chan ref1 = s.chan ref1) ∧
      (s.setChan ref (s.chan ref ++ [some { b := p }])).pooled = s.pooled := by
  have hlen' : (s.chan ref).length < chanCap := by
    simpa [sendQueue, hw, pipeConns.deref] using hlen
  refine ⟨Write_open s e p ref hc hw hlen', ?_, ?_, ?_, ?_⟩
  · simp [recvQueue, hr, pipeConns.deref]
  · intro e1; simp
  · intro ref1 h1; exact chan_setChan_ne _ _ h1
  · simp

/-- Witness of C4: a write on `c1` of a fresh pair. -/
theorem C4_write_whole_witness :
    (newPipeConns.conn .c1).wclosed = false ∧ (newPipeConns.conn .c1).w = some .ch2 ∧
    (newPipeConns.conn Side.c1.peer).r = some .ch2 ∧ (sendQueue newPipeConns .c1).length < 4 ∧
    Write newPipeConns .c1 [7, 8] =
      .ret (newPipeConns.setChan .ch2 (newPipeConns.chan .ch2 ++ [some { b := [7, 8] }]))
        ([7, 8].length, none) :=
  ⟨by decide, by decide, by decide, by decide,
    (C4_write_whole newPipeConns .c1 [7, 8] .ch2 (by decide) (by decide) (by decide)
      (by decide)).1⟩

/-! ## Read: what a returning call reports -/

theorem conn_putRead (s : pipeConns) (e : Side) (cq : pipeConn × List BufPtr) :
    (s.putRead e cq).conn e = cq.1 := by
  rcases Option.eq_none_or_eq_some (s.conn e).r with hr | ⟨ref, hr⟩
  · simp [pipeConns.putRead, hr]
  · simp [pipeConns.putRead, hr]

/-- The three ways a `Read` ends, in every state: the destination is full; end
of stream was met; or the non-blocking fetch found the queue empty. -/
theorem Read_ret_end {s s1 : pipeConns} {e : Side} {p d : List Byte} {n : Nat}
    {err : Option GoError} (h : Read s e p = .ret s1 (n, err, d)) :
    (d.take n).length = n ∧ d = d.take n ++ p.drop n ∧
    ((err = none ∧ n = p.length) ∨
     (err = some .EOF ∧ n < p.length ∧ (s1.conn e).rclosed = true ∧ (s1.conn e).bb = []) ∨
     (err = none ∧ n < p.length ∧ (s1.conn e).rclosed = false ∧ (s1.conn e).bb = [])) := by
  obtain ⟨c1, q1, hs1, taken, hn, hd, hlen, hav, hfr, hend⟩ := Read_ret h
  have hc1 : s1.conn e = c1 := by rw [hs1, conn_putRead]
  simp only [List.nil_append, Nat.zero_add] at hd hn
  have ht : d.take n = taken := by rw [hd, hn, List.take_left' rfl]
  refine ⟨by rw [ht, hn], ?_, ?_⟩
  · rw [ht, hn]; exact hd
  · rw [hc1, hn]
    rcases hend with ⟨e1, e2⟩ | ⟨e1, e2, e3, e4⟩ | ⟨e1, e2, e3, e4, _⟩
    · exact Or.inl ⟨e1, e2⟩
    · exact Or.inr (Or.inl ⟨e1, e2, e3, e4⟩)
    · exact Or.inr (Or.inr ⟨e1, e2, e3, e4⟩)

theorem Read_spec {s s1 : pipeConns} {e : Side} {p d : List Byte} {n : Nat}
    {err : Option GoError} (h : Inv s) (hw : Read s e p = .ret s1 (n, err, d)) :
    Inv s1 ∧ available s e = d.take n ++ available s1 e ∧ (d.take n).length = n ∧
    ((err = none ∧ n = p.length) ∨
     (err = some .EOF ∧ n < p.length ∧ (s1.conn e).rclosed = true ∧ available s1 e = []) ∨
     (err = none ∧ n < p.length ∧ available s1 e = [] ∧ ¬ eosPending s e)) ∧
    (eosPending s e → eosPending s1 e) ∧ (∀ e1, (s1.conn e1).wclosed = (s.conn e1).wclosed) := by
  obtain ⟨hinv, hav, _⟩ := Read_inv h hw
  obtain ⟨c1, q1, hs1, taken, hn, hd, hlen, hav1, hfr, hend⟩ := Read_ret hw
  rw [putRead_some s e _ _ (h.1 e).1] at hs1
  rw [recvQueue_some s e _ (h.1 e).1] at hav1 hfr
  simp only at hs1
  simp only [List.nil_append, Nat.zero_add] at hd hn
  have ht : d.take n = taken := by rw [hd, hn, List.take_left' rfl]
  obtain ⟨f1, f2, f3, front, hfront, f5⟩ := hfr
  have hc1 : s1.conn e = c1 := by rw [hs1]; simp
  have hq1 : s1.chan (recvRef e) = q1 := by rw [hs1]; simp
  have hrq : recvQueue s e = s.chan (recvRef e) := h.recvQueue e
  have hrq1 : recvQueue s1 e = q1 := by rw [hinv.recvQueue e, hq1]
  have hav2 : available s1 e = availR c1 q1 := by rw [hinv.available, hc1, hq1]
  refine ⟨hinv, hav, by rw [ht, hn], ?_, ?_, ?_⟩
  · rw [hn, hav2, hc1]
    rcases hend with ⟨e1, e2⟩ | ⟨e1, e2, e3, e4⟩ | ⟨e1, e2, e3, e4, e5⟩
    · exact Or.inl ⟨e1, e2⟩
    · exact Or.inr (Or.inl ⟨e1, e2, e3, by simp [availR, e3, e4]⟩)
    · refine Or.inr (Or.inr ⟨e1, e2, by simp [availR, e4, e5, dataBeforeEOS], ?_⟩)
      intro hp
      have hno : ¬ (c1.rclosed = true) := by simp [e3]
      apply hno
      rw [f5]
      rcases hp with hp | hp
      · exact Or.inl hp
      · rw [hrq, hfront, e5, List.append_nil] at hp
        exact Or.inr hp
  · intro hp
    rcases hp with hp | hp
    · exact Or.inl (by rw [hc1, f5]; exact Or.inl hp)
    · rw [hrq, hfront] at hp
      rcases List.mem_append.mp hp with hp | hp
      · exact Or.inl (by rw [hc1, f5]; exact Or.inr hp)
      · exact Or.inr (by rw [hrq1]; exact hp)
  · intro e1
    rw [hs1]
    rcases eq_or_eq_peer e e1 with rfl | rfl
    · simp [f3]
    · simp

/-! ## C5, C6, C7: Read -/

/-- C5, counterexample.  After `c1.Write([7])` and `c1.Close()` on a fresh pair,
`c2.Read` with a destination of length 2 returns 1 byte together with `io.EOF`:
the claim that a `Read` returning `io.EOF` returns 0 bytes is false. -/
theorem C5_counterexample :
    run newPipeConns [.Write .c1 [7], .Close .c1] =
      some (eofExample, [(.Write .c1 [7], .wrote 1 none), (.Close .c1, .closed none)]) ∧
    Read eofExample .c2 [0, 0] = .ret eofExampleRead (1, some .EOF, [7, 0]) ∧
    ¬ (∀ (s s1 : pipeConns) (e : Side) (p d : List Byte) (n : Nat) (err : Option GoError),
        Read s e p = .ret s1 (n, err, d) → err = some .EOF → n = 0) := by
  refine ⟨by decide, by decide, fun h => ?_⟩
  have h1 : Read eofExample .c2 [0, 0] = .ret eofExampleRead (1, some .EOF, [7, 0]) := by decide
  exact absurd (h _ _ _ _ _ _ _ h1 rfl) (by decide)

/-- C5, amended.  In every state and for every destination, a `Read` that
returns reports `io.EOF` exactly when it ended at end of stream before the
destination was full: the error is `io.EOF` if and only if afterwards the
endpoint's `rclosed` flag is set and the count is smaller than the length of
the destination; otherwise the error is nil.  The count returned with `io.EOF`
is the number of bytes copied before end of stream was met and need not be 0. -/
theorem C5_read_eof (s s1 : pipeConns) (e : Side) (p d : List Byte) (n : Nat)
    (err : Option GoError) (h : Read s e p = .ret s1 (n, err, d)) :
    (err = some .EOF ↔ ((s1.conn e).rclosed = true ∧ n < p.length)) ∧
    (err ≠ some .EOF → err = none) ∧ n ≤ p.length := by
  obtain ⟨_, _, hend⟩ := Read_ret_end h
  rcases hend with ⟨e1, e2⟩ | ⟨e1, e2, e3, _⟩ | ⟨e1, e2, e3, _⟩
  · subst e1
    exact ⟨⟨(fun h => by cases h), (fun h => by omega)⟩, fun _ => rfl, by omega⟩
  · subst e1
    exact ⟨⟨fun _ => ⟨e3, e2⟩, fun _ => rfl⟩, fun h => absurd rfl h, by omega⟩
  · subst e1
    exact ⟨⟨(fun h => by cases h), (fun h => by rw [e3] at h; cases h.1)⟩, fun _ => rfl,
      by omega⟩

/-- Witness of C5 (amended): the read of the counterexample. -/
theorem C5_read_eof_witness :
    Read eofExample .c2 [0, 0] = .ret eofExampleRead (1, some .EOF, [7, 0]) ∧
    (((some GoError.EOF : Option GoError) = some .EOF ↔
      ((eofExampleRead.conn .c2).rclosed = true ∧ 1 < [0, 0].length)) ∧
    ((some GoError.EOF : Option GoError) ≠ some .EOF → (some GoError.EOF : Option GoError) = none) ∧
    1 ≤ [0, 0].length) :=
  ⟨by decide, C5_read_eof eofExample eofExampleRead .c2 [0, 0] [7, 0] 1 (some .EOF) (by decide)⟩

/-- C6 (short read).  In every state between the calls of a sequential trace
on a fresh pair, with `m ≥ 1` available bytes on an endpoint (its pending bytes
followed by the contents of the buffers queued before the first sentinel), a
`Read` with a destination of length `L` does not block: it returns exactly
`min(L, m)` bytes, these are the first available bytes in order, the rest of
the destination is untouched, and the bytes not returned stay available.  This
holds for every `L`, in particular for `L > 0`. -/
theorem C6_short_read (s : pipeConns) (e : Side) (p : List Byte) (hs : Reachable s)
    (hm : 1 ≤ (available s e).length) :
    ∃ s1 err d, Read s e p = .ret s1 (min p.length (available s e).length, err, d) ∧
      d.take (min p.length (available s e).length) =
        (available s e).take (min p.length (available s e).length) ∧
      d.drop (min p.length (available s e).length) =
        p.drop (min p.length (available s e).length) ∧
      available s1 e = (available s e).drop (min p.length (available s e).length) := by
  have h := hs.inv
  rcases Read_total s e p with ⟨s1, n, err, d, hr⟩ | ⟨s1, hr⟩ | ⟨_, hr⟩
  · obtain ⟨_, hav, hl, hend⟩ := Read_spec h hr
    obtain ⟨_, hd, _⟩ := Read_ret_end hr
    have hlen := congrArg List.length hav
    rw [List.length_append, hl] at hlen
    have hn : n = min p.length (available s e).length := by
      rcases hend.1 with ⟨_, e2⟩ | ⟨_, e2, _, e4⟩ | ⟨_, e2, e4, _⟩
      · omega
      · rw [e4] at hlen; simp at hlen; omega
      · rw [e4] at hlen; simp at hlen; omega
    rw [← hn]
    refine ⟨s1, err, d, hr, ?_, ?_, ?_⟩
    · rw [hav, List.take_left' hl]
    · conv_lhs => rw [hd]
      rw [List.drop_left' hl]
    · rw [hav, List.drop_left' hl]
  · obtain ⟨_, h2, _, h4, _⟩ := Read_block hr
    simp [available, h2, h4, dataBeforeEOS] at hm
  · rw [(h.1 e).1] at hr
    cases hr

/-- Witness of C6: three bytes are available, the destination has length 5. -/
theorem C6_short_read_witness :
    Reachable shortExample ∧
    1 ≤ (available shortExample .c2).length ∧
    ∃ s1 err d, Read shortExample .c2 [0, 0, 0, 0, 0] =
        .ret s1 (min [0, 0, 0, 0, 0].length (available shortExample .c2).length, err, d) ∧
      d.take (min [0, 0, 0, 0, 0].length (available shortExample .c2).length) =
        (available shortExample .c2).take
          (min [0, 0, 0, 0, 0].length (available shortExample .c2).length) ∧
      d.drop (min [0, 0, 0, 0, 0].length (available shortExample .c2).length) =
        [0, 0, 0, 0, 0].drop (min [0, 0, 0, 0, 0].length (available shortExample .c2).length) ∧
      available s1 .c2 =
        (available shortExample .c2).drop
          (min [0, 0, 0, 0, 0].length (available shortExample .c2).length) :=
  have hr : Reachable shortExample :=
    ⟨[.Write .c1 [1, 2, 3]], [(.Write .c1 [1, 2, 3], .wrote 3 none)], by decide⟩
  ⟨hr, by decide, C6_short_read shortExample .c2 [0, 0, 0, 0, 0] hr (by decide)⟩

/-- C7 (would-block stays inside).  In every state and for every destination,
the error a `Read` returns is nil or `io.EOF`, never `errWouldBlock`.  In the
loop of `Read`, when the inner fetch is non-blocking and finds the queue empty
(no pending bytes, `rclosed` not set, the receive channel empty), `read`
reports `errWouldBlock` and the loop returns the count copied so far with a
nil error. -/
theorem C7_would_block_internal :
    (∀ (s s1 : pipeConns) (e : Side) (p d : List Byte) (n : Nat) (err : Option GoError),
      Read s e p = .ret s1 (n, err, d) →
        (err = none ∨ err = some .EOF) ∧ err ≠ some .errWouldBlock) ∧
    (∀ (fuel : Nat) (c : pipeConn) (pre p : List Byte) (nn : Nat),
      0 < p.length → c.bb = [] → c.rclosed = false → c.r ≠ none →
        pipeConn.read c [] p false = .ret ({ c with b := none }, []) (0, some .errWouldBlock, p) ∧
        ReadLoop (fuel + 1) c [] pre p nn false =
          .ret ({ c with b := none }, []) (nn, none, pre ++ p)) := by
  constructor
  · intro s s1 e p d n err h
    obtain ⟨_, _, hend⟩ := Read_ret_end h
    rcases hend with ⟨e1, _⟩ | ⟨e1, _⟩ | ⟨e1, _⟩ <;> subst e1 <;> simp
  · intro fuel c pre p nn hp hbb hrc hr
    obtain ⟨ref, href⟩ := Option.ne_none_iff_exists'.mp hr
    have h1 : pipeConn.read c [] p false =
        .ret ({ c with b := none }, []) (0, some .errWouldBlock, p) := by
      simp [pipeConn.read, hbb, hrc, href]
    refine ⟨h1, ?_⟩
    rw [ReadLoop, if_pos hp, h1]
    rfl

/-- Witness of C7: on a fresh pair, the loop of `Read` on `c2` in its second
iteration, after 3 bytes were copied, with an empty receive channel. -/
theorem C7_would_block_internal_witness :
    0 < [0, 0].length ∧ newPipeConns.c2.bb = [] ∧ newPipeConns.c2.rclosed = false ∧
    newPipeConns.c2.r ≠ none ∧
    ReadLoop (0 + 1) newPipeConns.c2 [] [1, 2, 3] [0, 0] 3 false =
      .ret ({ newPipeConns.c2 with b := none }, []) (3, none, [1, 2, 3] ++ [0, 0]) ∧
    ((none : Option GoError) = none ∨ (none : Option GoError) = some .EOF) ∧
    Read shortExample .c2 [0, 0, 0, 0, 0] = .ret newPipeConns (3, none, [1, 2, 3, 0, 0]) :=
  ⟨by decide, by decide, by decide, by decide,
    (C7_would_block_internal.2 0 newPipeConns.c2 [1, 2, 3] [0, 0] 3 (by decide) (by decide)
      (by decide) (by decide)).2,
    (C7_would_block_internal.1 shortExample newPipeConns .c2 [0, 0, 0, 0, 0] [1, 2, 3, 0, 0] 3
      none (by decide)).1,
    by decide⟩

/-! ## C8: backpressure -/

theorem Inv.chan_le {s : pipeConns} (h : Inv s) (ref : ChanRef) : (s.chan ref).length ≤ 4 := by
  cases ref
  · exact (h.2.2.2 .c1).1
  · exact (h.2.2.2 .c2).1

/-- The state a call is blocked in satisfies the queue bound as well. -/
theorem exec_block_le {s s1 : pipeConns} {c : Call} (h : Inv s) (hx : exec s c = .block s1)
    (ref : ChanRef) : (s1.chan ref).length ≤ 4 := by
  have hle := h.chan_le
  cases c with
  | Write e p =>
    have hw : Write s e p = .block s1 := by
      cases hres : Write s e p <;> simp [exec, hres, Res.mapVal] at hx
      rw [hx]
    cases hc : (s.conn e).wclosed with
    | true => rw [Write_closed s e p hc] at hw; cases hw
    | false =>
      by_cases hlen : (s.chan (recvRef e.peer)).length < chanCap
      · rw [Write_open s e p _ hc (h.1 e).2 hlen] at hw; cases hw
      · rw [Write_full s e p _ hc (h.1 e).2 hlen] at hw
        cases hw
        exact hle ref
  | Read e p =>
    have hw : Read s e p = .block s1 := by
      cases hres : Read s e p <;> simp [exec, hres, Res.mapVal] at hx
      rw [hx]
    obtain ⟨_, _, _, _, rfl⟩ := Read_block hw
    simpa using hle ref
  | Close e =>
    have hw : Close s e = .block s1 := by
      cases hres : Close s e <;> simp [exec, hres, Res.mapVal] at hx
      rw [hx]
    by_cases hlen : (s.chan (recvRef e.peer)).length < chanCap
    · cases hp : (s.conn e.peer).wclosed with
      | true =>
        rw [Close_joint s e _ _ hp (h.1 e).2 (h.1 .c1).1 hlen] at hw
        simp only [Res.block.injEq] at hw
        subst hw
        have h4 : chanCap = 4 := rfl
        cases e <;> cases ref <;>
          simp [halfClosed, recvRef, Side.peer, pipeConns.setChan, pipeConns.setConn,
            pipeConns.chan] at hlen ⊢ <;> first | omega | exact hle .ch1 | exact hle .ch2
      | false =>
        rw [Close_half s e _ hp (h.1 e).2 hlen] at hw; cases hw
    · rw [Close_full s e _ (h.1 e).2 hlen] at hw
      cases hw
      simpa using hle ref

/-- A `Read` on an endpoint without pending bytes and with a non-empty receive
queue, that has not seen end of stream, returns and leaves the queue shorter. -/
theorem Read_dequeues {s : pipeConns} {e : Side} {p : List Byte} (h : Inv s)
    (hbb : (s.conn e).bb = []) (hrc0 : (s.conn e).rclosed = false) (hq : recvQueue s e ≠ [])
    (hp : 0 < p.length) :
    ∃ s1 n err d, Read s e p = .ret s1 (n, err, d) ∧ Inv s1 ∧
      (recvQueue s1 e).length < (recvQueue s e).length ∧
      (∀ e1, (s1.conn e1).wclosed = (s.conn e1).wclosed) := by
  rcases Read_total s e p with ⟨s1, n, err, d, hr⟩ | ⟨s1, hr⟩ | ⟨_, hr⟩
  · obtain ⟨hinv, _, _, _, _, hwc⟩ := Read_spec h hr
    refine ⟨s1, n, err, d, hr, hinv, ?_, hwc⟩
    obtain ⟨c1, q1, hs1, taken, hn, hd, hlen, hav, hfr, hend⟩ := Read_ret hr
    rw [putRead_some s e _ _ (h.1 e).1] at hs1
    simp only at hs1
    obtain ⟨f1, f2, f3, front, hfront, f5⟩ := hfr
    have hq1 : recvQueue s1 e = q1 := by rw [hinv.recvQueue e, hs1]; simp
    rw [hq1, hfront, List.length_append]
    suffices hne : front ≠ [] by
      have := List.length_pos.mpr hne
      omega
    intro hnil
    subst hnil
    simp only [List.nil_append] at hfront
    simp only [List.not_mem_nil, or_false] at f5
    have hlen2 := congrArg List.length hav
    simp only [availR, hbb, List.nil_append, List.length_append, hfront] at hlen2
    have hrc : c1.rclosed = (s.conn e).rclosed := by
      cases h1 : c1.rclosed <;> cases h2 : (s.conn e).rclosed <;> simp_all
    rw [hrc] at hlen2
    have ht : taken.length = 0 := by omega
    have hc1bb : c1.bb.length = 0 := by omega
    rcases hend with ⟨_, e2⟩ | ⟨_, _, e3, _⟩ | ⟨_, _, _, _, e5⟩
    · omega
    · rw [f5.mp e3] at hrc0; cases hrc0
    · rw [hfront] at hq; exact hq e5
  · obtain ⟨_, _, _, h4, _⟩ := Read_block hr
    exact absurd h4 hq
  · rw [(h.1 e).1] at hr
    cases hr

/-- The state of a fresh pair after four writes on endpoint `e`. -/
theorem run_four_writes (e : Side) (p1 p2 p3 p4 : List Byte) :
    run newPipeConns [.Write e p1, .Write e p2, .Write e p3, .Write e p4] =
      some (newPipeConns.setChan (recvRef e.peer)
          [some { b := p1 }, some { b := p2 }, some { b := p3 }, some { b := p4 }],
        [(.Write e p1, .wrote p1.length none), (.Write e p2, .wrote p2.length none),
         (.Write e p3, .wrote p3.length none), (.Write e p4, .wrote p4.length none)]) := by
  cases e <;> rfl

/-- C8 (backpressure, capacity 4).  In every state between the calls of a
sequential trace on a fresh pair, and in every state a call of such a trace is
blocked in, each queue holds at most 4 entries; a `Write` on an endpoint with
`wclosed = false` returns if and only if the peer's receive queue holds fewer
than 4 entries, and blocks otherwise.  On a fresh pair four successive writes
on one endpoint return, a fifth blocks, and after any `Read` of the peer with a
non-empty destination, which returns and dequeues a buffer, it returns. -/
theorem C8_backpressure :
    (∀ s, Reachable s → (∀ ref, (s.chan ref).length ≤ 4) ∧
      ∀ c s1, exec s c = .block s1 → ∀ ref, (s1.chan ref).length ≤ 4) ∧
    (∀ s, Reachable s → ∀ e p, (s.conn e).wclosed = false →
      ((∃ s1, Write s e p = .ret s1 (p.length, none)) ↔ (recvQueue s e.peer).length < 4) ∧
      (¬ (recvQueue s e.peer).length < 4 → Write s e p = .block s)) ∧
    (∀ (e : Side) (p1 p2 p3 p4 p5 dst : List Byte), 0 < dst.length →
      ∃ s4 log, run newPipeConns [.Write e p1, .Write e p2, .Write e p3, .Write e p4] =
          some (s4, log) ∧
        Write s4 e p5 = .block s4 ∧
        ∃ s5 n err d, Read s4 e.peer dst = .ret s5 (n, err, d) ∧
          (recvQueue s5 e.peer).length < (recvQueue s4 e.peer).length ∧
          ∃ s6, Write s5 e p5 = .ret s6 (p5.length, none)) := by
  refine ⟨?_, ?_, ?_⟩
  · intro s hs
    exact ⟨hs.inv.chan_le, fun c s1 hx => exec_block_le hs.inv hx⟩
  · intro s hs e p hc
    have h := hs.inv
    rw [h.recvQueue e.peer]
    by_cases hlen : (s.chan (recvRef e.peer)).length < 4
    · exact ⟨⟨fun _ => hlen, fun _ => ⟨_, Write_open s e p _ hc (h.1 e).2 hlen⟩⟩,
        fun hn => absurd hlen hn⟩
    · refine ⟨⟨fun hex => ?_, fun hl => absurd hl hlen⟩, fun _ => Write_full s e p _ hc (h.1 e).2 hlen⟩
      obtain ⟨s1, hw⟩ := hex
      rw [Write_full s e p _ hc (h.1 e).2 hlen] at hw
      cases hw
  · intro e p1 p2 p3 p4 p5 dst hdst
    have hrun := run_four_writes e p1 p2 p3 p4
    have h4 : Inv _ := (run_inv _ Inv_new hrun).1
    refine ⟨_, _, hrun, ?_, ?_⟩
    · apply Write_full _ e p5 (recvRef e.peer)
      · cases e <;> rfl
      · cases e <;> rfl
      · simp [chanCap]
    · obtain ⟨s5, n, err, d, hr, hinv5, hlt, hwc⟩ := Read_dequeues (e := e.peer) (p := dst) h4
        (by cases e <;> rfl) (by cases e <;> rfl) (by cases e <;> simp [recvQueue, newPipeConns,
          pipeConns.setChan, pipeConns.conn, pipeConns.deref, pipeConns.chan, recvRef, Side.peer])
        hdst
      refine ⟨s5, n, err, d, hr, hlt, _, Write_open s5 e p5 _ ?_ (hinv5.1 e).2 ?_⟩
      · rw [hwc e]; cases e <;> rfl
      · have h5 := hlt
        rw [hinv5.recvQueue, h4.recvQueue] at h5
        have := h4.chan_le (recvRef e.peer)
        show _ < 4
        omega

/-- Witness of C8: the state after one write is reachable and `c1` is open
there, so a `Write` returns exactly when fewer than 4 entries are queued; and
the five writes on `c1` with a `Read` of one byte on `c2`. -/
theorem C8_backpressure_witness :
    Reachable shortExample ∧ (shortExample.conn .c1).wclosed = false ∧
    ((∃ s1, Write shortExample .c1 [9] = .ret s1 ([9].length, none)) ↔
      (recvQueue shortExample Side.c1.peer).length < 4) ∧
    (recvQueue shortExample Side.c1.peer).length < 4 ∧
    0 < [0].length ∧
    ∃ s4 log, run newPipeConns [.Write .c1 [1], .Write .c1 [2], .Write .c1 [3], .Write .c1 [4]] =
        some (s4, log) ∧
      Write s4 .c1 [5] = .block s4 ∧
      ∃ s5 n err d, Read s4 Side.c1.peer [0] = .ret s5 (n, err, d) ∧
        (recvQueue s5 Side.c1.peer).length < (recvQueue s4 Side.c1.peer).length ∧
        ∃ s6, Write s5 .c1 [5] = .ret s6 ([5].length, none) :=
  have hr : Reachable shortExample :=
    ⟨[.Write .c1 [1, 2, 3]], [(.Write .c1 [1, 2, 3], .wrote 3 none)], by decide⟩
  ⟨hr, by decide, (C8_backpressure.2.1 shortExample hr .c1 [9] (by decide)).1, by decide,
    by decide, C8_backpressure.2.2 .c1 [1] [2] [3] [4] [5] [0] (by decide)⟩

/-! ## C9: half-close -/

theorem read_wclosed (c : pipeConn) (q : List BufPtr) (p : List Byte) (mb : Bool) :
    pipeConn.read { c with wclosed := true } q p mb =
      (pipeConn.read c q p mb).mapState (fun cq => ({ cq.1 with wclosed := true }, cq.2)) := by
  obtain ⟨r, w, b, bb, rc, wc⟩ := c
  unfold pipeConn.read
  match bb, rc, r, q, mb with
  | [], true, _, _, _ => rfl
  | [], false, none, _, _ => rfl
  | [], false, some _, [], true => rfl
  | [], false, some _, [], false => rfl
  | [], false, some _, none :: _, _ => rfl
  | [], false, some _, some _ :: _, _ => rfl
  | _ :: _, _, _, _, _ => rfl

theorem ReadLoop_wclosed (fuel : Nat) : ∀ (c : pipeConn) (q : List BufPtr) (pre p : List Byte)
    (nn : Nat) (mb : Bool),
    ReadLoop fuel { c with wclosed := true } q pre p nn mb =
      (ReadLoop fuel c q pre p nn mb).mapState
        (fun cq => ({ cq.1 with wclosed := true }, cq.2)) := by
  induction fuel with
  | zero => intro c q pre p nn mb; rfl
  | succ fuel ih =>
    intro c q pre p nn mb
    unfold ReadLoop
    by_cases hp : p.length > 0
    · simp only [hp, if_true]
      rw [read_wclosed]
      cases hres : pipeConn.read c q p mb with
      | ret cq v =>
        obtain ⟨c1, q1⟩ := cq
        obtain ⟨n, err, p1⟩ := v
        cases err with
        | none => simp only [Res.mapState]; exact ih _ _ _ _ _ _
        | some err =>
          simp only [Res.mapState]
          split <;> rfl
      | block cq => rfl
      | nilDeref => rfl
      | outOfFuel => rfl
    · simp only [hp, if_false]
      rfl

theorem mapState_mapState {σ τ υ α : Type} (f : σ → τ) (g : τ → υ) (res : Res σ α) :
    (res.mapState f).mapState g = res.mapState (fun x => g (f x)) := by
  cases res <;> rfl

theorem mapState_mapVal {σ τ α β : Type} (f : σ → τ) (g : α → β) (res : Res σ α) :
    (res.mapState f).mapVal g = (res.mapVal g).mapState f := by
  cases res <;> rfl

theorem Read_halfClosed {s : pipeConns} (h : Inv s) (e : Side) (p : List Byte) :
    Read (halfClosed s e (recvRef e.peer)) e p =
      (Read s e p).mapState (fun s1 => halfClosed s1 e (recvRef e.peer)) := by
  have hr := (h.1 e).1
  have hc : (halfClosed s e (recvRef e.peer)).conn e = { s.conn e with wclosed := true } := by
    simp [halfClosed]
  have hq : (halfClosed s e (recvRef e.peer)).deref ((halfClosed s e (recvRef e.peer)).conn e).r =
      s.deref (s.conn e).r := by
    rw [hc]
    simp [hr, pipeConns.deref, halfClosed, chan_setChan_ne]
  simp only [Read]
  rw [hq, hc, ReadLoop_wclosed, mapState_mapState, mapState_mapState]
  congr 1
  funext cq
  obtain ⟨c1, q1⟩ := cq
  cases e <;>
    simp_all [halfClosed, pipeConns.putRead, pipeConns.setConn, pipeConns.setChan, pipeConns.conn,
      pipeConns.chan, recvRef, Side.peer]

theorem Write_halfClosed {s : pipeConns} (h : Inv s) (e : Side) (p : List Byte) :
    Write (halfClosed s e (recvRef e.peer)) e.peer p =
      (Write s e.peer p).mapState (fun s1 => halfClosed s1 e (recvRef e.peer)) := by
  have hw := (h.1 e.peer).2
  simp only [peer_peer] at hw
  cases hc : (s.conn e.peer).wclosed with
  | true =>
    rw [Write_closed s e.peer p hc, Write_closed _ e.peer p (by simpa [halfClosed] using hc)]
    rfl
  | false =>
    by_cases hlen : (s.chan (recvRef e)).length < chanCap
    · rw [Write_open s e.peer p _ hc hw hlen,
        Write_open _ e.peer p (recvRef e) (by simpa [halfClosed] using hc)
          (by simpa [halfClosed] using hw) (by simpa [halfClosed, chan_setChan_ne] using hlen)]
      simp only [Res.mapState]
      congr 1
      cases e <;>
        simp [halfClosed, pipeConns.setConn, pipeConns.setChan, pipeConns.conn,
          pipeConns.chan, recvRef, Side.peer]
    · rw [Write_full s e.peer p _ hc hw hlen,
        Write_full _ e.peer p (recvRef e) (by simpa [halfClosed] using hc)
          (by simpa [halfClosed] using hw) (by simpa [halfClosed, chan_setChan_ne] using hlen)]
      rfl

theorem exec_halfClosed {s : pipeConns} (h : Inv s) (e : Side) (c : Call)
    (hc : otherDirectionCall e c) :
    exec (halfClosed s e (recvRef e.peer)) c =
      (exec s c).mapState (fun s1 => halfClosed s1 e (recvRef e.peer)) := by
  cases c with
  | Write e1 p =>
    simp only [otherDirectionCall] at hc
    subst hc
    simp only [exec]
    rw [Write_halfClosed h, mapState_mapVal]
  | Read e1 p =>
    simp only [otherDirectionCall] at hc
    subst hc
    simp only [exec]
    rw [Read_halfClosed h, mapState_mapVal]
  | Close e1 => simp [otherDirectionCall] at hc

theorem run_halfClosed (e : Side) (calls : List Call) : ∀ {s : pipeConns}, Inv s →
    (∀ c ∈ calls, otherDirectionCall e c) →
    run (halfClosed s e (recvRef e.peer)) calls =
      (run s calls).map (fun r => (halfClosed r.1 e (recvRef e.peer), r.2)) := by
  induction calls with
  | nil => intro s _ _; rfl
  | cons c cs ih =>
    intro s h hcalls
    have hc0 := hcalls c (List.mem_cons_self _ _)
    have hcs : ∀ c ∈ cs, otherDirectionCall e c := fun c hm => hcalls c (List.mem_cons_of_mem _ hm)
    simp only [run]
    rw [exec_halfClosed h e c hc0]
    cases hx : exec s c with
    | ret s1 o =>
      simp only [Res.mapState]
      rw [ih (exec_inv h hx).1 hcs]
      cases run s1 cs with
      | none => rfl
      | some r => rfl
    | block s1 => rfl
    | nilDeref => rfl
    | outOfFuel => rfl

/-- C9 (half-close).  Let `Close` run on endpoint `e` in a state between the
calls of a sequential trace on a fresh pair, with `wclosed = false` on the
peer.  Then `pipeConns.release` releases nothing; with a free slot in the send
queue the call returns nil and the state after it differs from the state
before it only in `wclosed` of `e`, now true, and in one sentinel appended to
the peer's receive queue; with a full send queue the call is blocked on the
send, with only `wclosed` of `e` changed.  The receive queue, pending buffer and
pending bytes of `e` are unchanged, nothing is put into the pool, and every
later trace of `Read` calls on `e` and `Write` calls on the peer behaves as it
would without the `Close`: the same calls return, with the same results. -/
theorem C9_half_close (s : pipeConns) (e : Side) (hs : Reachable s)
    (hp : (s.conn e.peer).wclosed = false) :
    pipeConns.release (halfClosed s e (recvRef e.peer)) =
      .ret (halfClosed s e (recvRef e.peer)) () ∧
    ((sendQueue s e).length < 4 → Close s e = .ret (halfClosed s e (recvRef e.peer)) none) ∧
    (¬ (sendQueue s e).length < 4 →
      Close s e = .block (s.setConn e { s.conn e with wclosed := true })) ∧
    (halfClosed s e (recvRef e.peer)).conn e = { s.conn e with wclosed := true } ∧
    (halfClosed s e (recvRef e.peer)).conn e.peer = s.conn e.peer ∧
    recvQueue (halfClosed s e (recvRef e.peer)) e.peer = recvQueue s e.peer ++ [none] ∧
    recvQueue (halfClosed s e (recvRef e.peer)) e = recvQueue s e ∧
    (halfClosed s e (recvRef e.peer)).pooled = [] ∧
    available (halfClosed s e (recvRef e.peer)) e = available s e ∧
    ∀ calls, (∀ c ∈ calls, otherDirectionCall e c) →
      run (halfClosed s e (recvRef e.peer)) calls =
        (run s calls).map (fun r => (halfClosed r.1 e (recvRef e.peer), r.2)) := by
  have h := hs.inv
  have hw := (h.1 e).2
  have hsq : sendQueue s e = s.chan (recvRef e.peer) := h.sendQueue e
  have hrq : ∀ e1, (halfClosed s e (recvRef e.peer)).conn e1 = s.conn e1 ∨ e1 = e := by
    intro e1
    rcases eq_or_eq_peer e e1 with rfl | rfl
    · exact Or.inr rfl
    · exact Or.inl (by simp [halfClosed])
  refine ⟨?_, ?_, ?_, by simp [halfClosed], by simp [halfClosed], ?_, ?_, ?_, ?_, ?_⟩
  · apply release_open
    cases e <;>
      simp_all [halfClosed, pipeConns.setConn, pipeConns.setChan, pipeConns.conn, Side.peer,
        recvRef]
  · intro hlen
    rw [hsq] at hlen
    exact Close_half s e _ hp hw hlen
  · intro hlen
    rw [hsq] at hlen
    exact Close_full s e _ hw hlen
  · simp [recvQueue, halfClosed, (h.1 e.peer).1, pipeConns.deref]
  · simp [recvQueue, halfClosed, (h.1 e).1, pipeConns.deref, chan_setChan_ne]
  · simpa [halfClosed] using h.2.1
  · simp [available, recvQueue, halfClosed, (h.1 e).1, pipeConns.deref, chan_setChan_ne]
  · intro calls hcalls
    exact run_halfClosed e calls h hcalls

/-- Witness of C9: `c2` closes after `c1` wrote three bytes, and then reads them. -/
theorem C9_half_close_witness :
    Reachable shortExample ∧ (shortExample.conn Side.c2.peer).wclosed = false ∧
    Close shortExample .c2 = .ret (halfClosed shortExample .c2 (recvRef Side.c2.peer)) none ∧
    run (halfClosed shortExample .c2 (recvRef Side.c2.peer)) [.Read .c2 [0, 0, 0, 0, 0]] =
      (run shortExample [.Read .c2 [0, 0, 0, 0, 0]]).map
        (fun r => (halfClosed r.1 .c2 (recvRef Side.c2.peer), r.2)) ∧
    run shortExample [.Read .c2 [0, 0, 0, 0, 0]] =
      some (newPipeConns, [(.Read .c2 [0, 0, 0, 0, 0], .read 3 none [1, 2, 3, 0, 0])]) :=
  have hr : Reachable shortExample :=
    ⟨[.Write .c1 [1, 2, 3]], [(.Write .c1 [1, 2, 3], .wrote 3 none)], by decide⟩
  ⟨hr, by decide,
    (C9_half_close shortExample .c2 hr (by decide)).2.1 (by decide),
    (C9_half_close shortExample .c2 hr (by decide)).2.2.2.2.2.2.2.2.2 _ (by decide),
    by decide⟩

/-! ## C10: pooling -/

theorem exec_block_pooled {s s1 : pipeConns} {c : Call} (h : Inv s) (hx : exec s c = .block s1) :
    s1.pooled = [] := by
  have hpl := h.2.1
  cases c with
  | Write e p =>
    have hw : Write s e p = .block s1 := by
      cases hres : Write s e p <;> simp [exec, hres, Res.mapVal] at hx
      rw [hx]
    cases hc : (s.conn e).wclosed with
    | true => rw [Write_closed s e p hc] at hw; cases hw
    | false =>
      by_cases hlen : (s.chan (recvRef e.peer)).length < chanCap
      · rw [Write_open s e p _ hc (h.1 e).2 hlen] at hw; cases hw
      · rw [Write_full s e p _ hc (h.1 e).2 hlen] at hw
        cases hw
        exact hpl
  | Read e p =>
    have hw : Read s e p = .block s1 := by
      cases hres : Read s e p <;> simp [exec, hres, Res.mapVal] at hx
      rw [hx]
    obtain ⟨_, _, _, _, rfl⟩ := Read_block hw
    simpa using hpl
  | Close e =>
    have hw : Close s e = .block s1 := by
      cases hres : Close s e <;> simp [exec, hres, Res.mapVal] at hx
      rw [hx]
    by_cases hlen : (s.chan (recvRef e.peer)).length < chanCap
    · cases hp : (s.conn e.peer).wclosed with
      | true =>
        rw [Close_joint s e _ _ hp (h.1 e).2 (h.1 .c1).1 hlen] at hw
        simp only [Res.block.injEq] at hw
        subst hw
        simpa [halfClosed] using hpl
      | false =>
        rw [Close_half s e _ hp (h.1 e).2 hlen] at hw; cases hw
    · rw [Close_full s e _ (h.1 e).2 hlen] at hw
      cases hw
      simpa using hpl

/-- C10, the code at the failing input.  On a fresh pair `c1.Close()` returns;
then `c2.Close()`, the call that makes both `wclosed` flags true, does not
return: it is blocked in the `range` loop of `releasePipeChan` after draining
`ch1`, and no queue has been put into the pool.  In general no state of a
sequential trace, nor any state a call is blocked in, has a queue in the pool,
and every `Close` on an endpoint whose peer is closed for writing blocks. -/
theorem C10_joint_close_never_pools :
    run newPipeConns [.Close .c1] =
      some (halfClosed newPipeConns .c1 .ch2, [(.Close .c1, .closed none)]) ∧
    Close (halfClosed newPipeConns .c1 .ch2) .c2 = .block jointCloseBlocked ∧
    jointCloseBlocked.pooled = [] ∧
    run newPipeConns [.Close .c1, .Close .c2] = none ∧
    (∀ s, Reachable s → s.pooled = [] ∧ ∀ c s1, exec s c = .block s1 → s1.pooled = []) ∧
    (∀ s, Reachable s → ∀ e, (s.conn e.peer).wclosed = true →
      ∃ s1, Close s e = .block s1 ∧ s1.pooled = []) := by
  refine ⟨by decide, by decide, by decide, by decide, ?_, ?_⟩
  · intro s hs
    exact ⟨hs.inv.2.1, fun c s1 hx => exec_block_pooled hs.inv hx⟩
  · intro s hs e hp
    have h := hs.inv
    by_cases hlen : (s.chan (recvRef e.peer)).length < chanCap
    · exact ⟨_, Close_joint s e _ _ hp (h.1 e).2 (h.1 .c1).1 hlen, by simpa [halfClosed] using h.2.1⟩
    · exact ⟨_, Close_full s e _ (h.1 e).2 hlen, by simpa using h.2.1⟩

/-! ## C2: end of stream -/

theorem run_append (cs1 : List Call) : ∀ {s s2 : pipeConns} {cs2 : List Call}
    {log : List (Call × Out)}, run s (cs1 ++ cs2) = some (s2, log) →
    ∃ s1 log1 log2, run s cs1 = some (s1, log1) ∧ run s1 cs2 = some (s2, log2) ∧
      log = log1 ++ log2 := by
  induction cs1 with
  | nil => intro s s2 cs2 log h; exact ⟨s, [], log, rfl, h, rfl⟩
  | cons c cs ih =>
    intro s s2 cs2 log h
    obtain ⟨s1, o, log1, hx, hr, rfl⟩ := run_cons h
    obtain ⟨s3, l1, l2, h1, h2, rfl⟩ := ih hr
    refine ⟨s3, (c, o) :: l1, l2, ?_, h2, rfl⟩
    simp [run, hx, h1]

theorem run_log_calls (cs : List Call) : ∀ {s s1 : pipeConns} {log : List (Call × Out)},
    run s cs = some (s1, log) → log.map Prod.fst = cs := by
  induction cs with
  | nil =>
    intro s s1 log h
    simp only [run, Option.some.injEq, Prod.mk.injEq] at h
    rw [← h.2]; rfl
  | cons c cs ih =>
    intro s s2 log h
    obtain ⟨s1, o, log1, _, hr, rfl⟩ := run_cons h
    simp [ih hr]

theorem delivered_append (e : Side) (l1 l2 : List (Call × Out)) :
    delivered e (l1 ++ l2) = delivered e l1 ++ delivered e l2 := by
  induction l1 with
  | nil => rfl
  | cons x l1 ih =>
    obtain ⟨c, o⟩ := x
    rw [List.cons_append, delivered_cons, delivered_cons e c o l1, ih, List.append_assoc]

/-- Before the writer closes, no `Read` of the reader reports end of stream. -/
theorem roundTrip_noEOF (e : Side) (calls : List Call) : ∀ {s s1 : pipeConns}
    {log : List (Call × Out)}, Inv s → (s.conn e).wclosed = false →
    (∀ c ∈ calls, roundTripCall e c) → run s calls = some (s1, log) → noEOF log := by
  induction calls with
  | nil =>
    intro s s1 log _ _ _ hr
    simp only [run, Option.some.injEq, Prod.mk.injEq] at hr
    rw [← hr.2]
    intro c n d hm
    cases hm
  | cons c cs ih =>
    intro s s2 log h hc hcalls hr
    obtain ⟨s1, o, log1, hx, hr1, rfl⟩ := run_cons hr
    have hinv1 := (exec_inv h hx).1
    have hc0 := hcalls c (List.mem_cons_self _ _)
    have hcs : ∀ c ∈ cs, roundTripCall e c := fun c hm => hcalls c (List.mem_cons_of_mem _ hm)
    have hrest := (roundTrip_written e [c] h hc (by simpa using hc0)
      (by simp [run, hx] : run s [c] = some (s1, [(c, o)]))).2
    have hno := ih hinv1 hrest hcs hr1
    intro c' n d hm
    rcases List.mem_cons.mp hm with hm | hm
    · simp only [Prod.mk.injEq] at hm
      obtain ⟨rfl, rfl⟩ := hm
      cases c' with
      | Write e0 p =>
        obtain ⟨v, _, hv⟩ := mapVal_eq_ret hx
        cases hv
      | Read e0 p =>
        simp only [roundTripCall] at hc0
        obtain ⟨rfl, _⟩ := hc0
        obtain ⟨⟨n1, err1, d1⟩, hw, hv⟩ := mapVal_eq_ret hx
        simp only [Out.read.injEq] at hv
        obtain ⟨rfl, rfl, rfl⟩ := hv
        obtain ⟨_, _, _, hend, _⟩ := Read_spec h hw
        rcases hend with ⟨e1, _⟩ | ⟨_, _, e3, _⟩ | ⟨e1, _⟩
        · cases e1
        · have := ((hinv1.2.2.2 e.peer).2.1 (by simpa using hrest)).1
          rw [this] at e3; cases e3
        · cases e1
      | Close e0 => simp [roundTripCall] at hc0
    · exact hno c' n d hm

/-- After the writer has closed, the `Read` calls of the reader return the
remaining bytes in order and then end of stream, and never block. -/
theorem reads_after_close (e : Side) (calls : List Call) : ∀ {s s1 : pipeConns}
    {log : List (Call × Out)}, Inv s → eosPending s e →
    (∀ c ∈ calls, readCall e c) → run s calls = some (s1, log) →
    readsAfterClose (available s e) log ∧ Inv s1 ∧ eosPending s1 e ∧
      available s e = delivered e log ++ available s1 e := by
  induction calls with
  | nil =>
    intro s s1 log h hp _ hr
    simp only [run, Option.some.injEq, Prod.mk.injEq] at hr
    obtain ⟨rfl, rfl⟩ := hr
    exact ⟨trivial, h, hp, by simp [delivered]⟩
  | cons c cs ih =>
    intro s s2 log h hp hcalls hr
    obtain ⟨s1, o, log1, hx, hr1, rfl⟩ := run_cons hr
    have hc0 := hcalls c (List.mem_cons_self _ _)
    have hcs : ∀ c ∈ cs, readCall e c := fun c hm => hcalls c (List.mem_cons_of_mem _ hm)
    cases c with
    | Write e0 p => simp [readCall] at hc0
    | Close e0 => simp [readCall] at hc0
    | Read e0 p =>
      simp only [readCall] at hc0
      obtain ⟨rfl, _⟩ := hc0
      obtain ⟨⟨n, err, d⟩, hw, rfl⟩ := mapVal_eq_ret hx
      obtain ⟨hinv1, hav, hl, hend, hpend, _⟩ := Read_spec h hw
      obtain ⟨h1, h2, h3, h4⟩ := ih hinv1 (hpend hp) hcs hr1
      have hlen := congrArg List.length hav
      rw [List.length_append, hl] at hlen
      have hdrop : available s1 e0 = (available s e0).drop n := by
        conv_rhs => rw [hav]
        rw [List.drop_left' hl]
      have htake : d.take n = (available s e0).take n := by
        conv_rhs => rw [hav]
        rw [List.take_left' hl]
      refine ⟨⟨?_, htake, ?_, by rw [← hdrop]; exact h1⟩, h2, h3, ?_⟩
      · rcases hend with ⟨_, e2⟩ | ⟨_, e2, _, e4⟩ | ⟨_, _, _, e4⟩
        · omega
        · rw [e4] at hlen; simp at hlen; omega
        · exact absurd hp e4
      · rcases hend with ⟨e1, e2⟩ | ⟨e1, e2, _, e4⟩ | ⟨_, _, _, e4⟩
        · rw [e1, if_neg (by omega)]
        · rw [e4] at hlen
          simp at hlen
          rw [e1, if_pos (by omega)]
        · exact absurd hp e4
      · simp only [delivered, if_true]
        rw [List.append_assoc, ← h4]
        exact hav

/-- Once as many bytes have been returned as remained at the `Close`, the next
`Read` after the `Close` returns 0 bytes and `io.EOF`. -/
theorem readsAfterClose_done (e1 : Side) (c : Call) (n : Nat) (err : Option GoError)
    (d : List Byte) (l2 : List (Call × Out)) : ∀ (l1 : List (Call × Out)) (rem : List Byte),
    (∀ x ∈ l1 ++ (c, Out.read n err d) :: l2, readCall e1 x.1) →
    readsAfterClose rem (l1 ++ (c, Out.read n err d) :: l2) →
    (delivered e1 l1).length = rem.length → n = 0 ∧ err = some .EOF := by
  intro l1
  induction l1 with
  | nil =>
    intro rem hall hreads hlen
    have hc := hall (c, Out.read n err d) (by simp)
    cases c with
    | Write e0 p => simp [readCall] at hc
    | Close e0 => simp [readCall] at hc
    | Read e0 p =>
      simp only [readCall] at hc
      simp only [List.nil_append, readsAfterClose] at hreads
      simp only [delivered, List.length_nil] at hlen
      obtain ⟨h1, _, h3, _⟩ := hreads
      rw [← hlen] at h1 h3
      exact ⟨by omega, by rw [h3, if_pos hc.2]⟩
  | cons x l1 ih =>
    intro rem hall hreads hlen
    obtain ⟨c0, o0⟩ := x
    have hc0 := hall (c0, o0) (by simp)
    cases c0 with
    | Write e0 p => simp [readCall] at hc0
    | Close e0 => simp [readCall] at hc0
    | Read e0 p =>
      simp only [readCall] at hc0
      cases o0 with
      | wrote k er => simp [readsAfterClose] at hreads
      | closed er => simp [readsAfterClose] at hreads
      | read n0 err0 d0 =>
        simp only [List.cons_append, readsAfterClose] at hreads
        obtain ⟨h1, h2, _, h4⟩ := hreads
        simp only [delivered, hc0.1, if_true, List.length_append] at hlen
        have hl0 : (d0.take n0).length = n0 := by
          rw [h2, List.length_take]; omega
        apply ih (rem.drop n0) (fun x hx => hall x (List.mem_cons_of_mem _ hx)) h4
        rw [List.length_drop]
        omega

/-- A `Read` after the `Close` that reports `io.EOF` has returned the last of
the bytes that remained at the `Close`. -/
theorem readsAfterClose_eof (e1 : Side) (c : Call) (n : Nat) (d : List Byte)
    (l2 : List (Call × Out)) : ∀ (l1 : List (Call × Out)) (rem : List Byte),
    (∀ x ∈ l1 ++ (c, Out.read n (some .EOF) d) :: l2, readCall e1 x.1) →
    readsAfterClose rem (l1 ++ (c, Out.read n (some .EOF) d) :: l2) →
    delivered e1 (l1 ++ [(c, Out.read n (some .EOF) d)]) = rem := by
  intro l1
  induction l1 with
  | nil =>
    intro rem hall hreads
    have hc := hall (c, Out.read n (some .EOF) d) (by simp)
    cases c with
    | Write e0 p => simp [readCall] at hc
    | Close e0 => simp [readCall] at hc
    | Read e0 p =>
      simp only [readCall] at hc
      simp only [List.nil_append, readsAfterClose] at hreads
      obtain ⟨h1, h2, h3, _⟩ := hreads
      have hlt : rem.length < p.length := by
        by_contra hn
        rw [if_neg hn] at h3
        cases h3
      simp only [List.nil_append, delivered, hc.1, if_true, List.append_nil]
      rw [h2, h1, List.take_of_length_le (by omega)]
  | cons x l1 ih =>
    intro rem hall hreads
    obtain ⟨c0, o0⟩ := x
    have hc0 := hall (c0, o0) (by simp)
    cases c0 with
    | Write e0 p => simp [readCall] at hc0
    | Close e0 => simp [readCall] at hc0
    | Read e0 p =>
      simp only [readCall] at hc0
      cases o0 with
      | wrote k er => simp [readsAfterClose] at hreads
      | closed er => simp [readsAfterClose] at hreads
      | read n0 err0 d0 =>
        simp only [List.cons_append, readsAfterClose] at hreads
        obtain ⟨_, h2, _, h4⟩ := hreads
        have h7 := ih (rem.drop n0) (fun x hx => hall x (List.mem_cons_of_mem _ hx)) h4
        show delivered e1 ((Call.Read e0 p, Out.read n0 err0 d0) ::
          (l1 ++ [(c, Out.read n (some .EOF) d)])) = rem
        simp only [delivered, hc0.1, if_true]
        rw [h7, h2, List.take_append_drop]

/-- C2 (end of stream).  Take a sequential trace on a fresh pair in which
endpoint `e` performs `Write` calls and then one `Close` with no further
writes, and its peer performs `Read` calls with non-empty destinations, before
and after the `Close`, all calls returning.  The reads return the written
bytes in order: what they have returned is a prefix of the concatenation of
the written sequences.  After the `Close` no `Read` of the peer blocks, and
each returns the next `min(len(p), len(rem))` of the bytes `rem` not returned
so far, so the reads return all written bytes.  Once all bytes have been
returned, every subsequent `Read` after the `Close` returns 0 bytes and
`io.EOF`.  End of stream is never reported before every written byte has been
delivered: no `Read` before the `Close` reports `io.EOF`, and when a `Read`
reports it, all written bytes have been returned by then. -/
theorem C2_end_of_stream (e : Side) (pre post : List Call) (s : pipeConns)
    (log : List (Call × Out))
    (hpre : ∀ c ∈ pre, roundTripCall e c) (hpost : ∀ c ∈ post, readCall e.peer c)
    (hrun : run newPipeConns (pre ++ .Close e :: post) = some (s, log)) :
    ∃ logPre logPost, log = logPre ++ (.Close e, .closed none) :: logPost ∧
      logPre.map Prod.fst = pre ∧ logPost.map Prod.fst = post ∧
      delivered e.peer log <+: payload e pre ∧
      noEOF logPre ∧
      readsAfterClose ((payload e pre).drop (delivered e.peer logPre).length) logPost ∧
      payload e pre = delivered e.peer log ++ available s e.peer ∧
      (∀ p, ∃ s1 n err d, Read s e.peer p = .ret s1 (n, err, d)) ∧
      (∀ l1 c n err d l2, logPost = l1 ++ (c, Out.read n err d) :: l2 →
        delivered e.peer (logPre ++ (.Close e, .closed none) :: l1) = payload e pre →
        n = 0 ∧ err = some .EOF) ∧
      (∀ l1 c n d l2, log = l1 ++ (c, Out.read n (some .EOF) d) :: l2 →
        delivered e.peer (l1 ++ [(c, Out.read n (some .EOF) d)]) = payload e pre) ∧
      (∀ p, 0 < p.length → ∃ s1 err d,
        Read s e.peer p = .ret s1 (min p.length (available s e.peer).length, err, d) ∧
        d.take (min p.length (available s e.peer).length) =
          (available s e.peer).take (min p.length (available s e.peer).length) ∧
        err = (if (available s e.peer).length < p.length then some .EOF else none)) := by
  obtain ⟨s1, logPre, log2, hr1, hr2, rfl⟩ := run_append pre hrun
  obtain ⟨s2, o, logPost, hx, hr3, rfl⟩ := run_cons hr2
  obtain ⟨err, hcl, rfl⟩ := mapVal_eq_ret hx
  have hwc0 : (newPipeConns.conn e).wclosed = false := by cases e <;> rfl
  obtain ⟨hinv1, hstream⟩ := run_inv pre Inv_new hr1
  have hwr := (roundTrip_written e pre Inv_new hwc0 hpre hr1).1
  have hno := roundTrip_noEOF e pre Inv_new hwc0 hpre hr1
  obtain ⟨hinv2, hav2, rfl, _, hs2⟩ := Close_inv hinv1 hcl
  have hpend : eosPending s2 e.peer := by
    right
    rw [hinv2.recvQueue, hs2]
    simp [halfClosed]
  obtain ⟨hreads, hinv3, hpend3, hav3⟩ := reads_after_close e.peer post hinv2 hpend hpost hr3
  have h0 : available newPipeConns e.peer = [] := by cases e <;> rfl
  have hs := hstream e.peer
  rw [peer_peer, hwr, h0, List.nil_append] at hs
  have hrem : available s2 e.peer = (payload e pre).drop (delivered e.peer logPre).length := by
    rw [hs, List.drop_left, hav2]
  have hall : payload e pre =
      delivered e.peer (logPre ++ (.Close e, .closed none) :: logPost) ++ available s e.peer := by
    rw [delivered_append, delivered_cons]
    simp only [delivered, List.nil_append]
    rw [List.append_assoc, ← hav3, hav2]
    exact hs
  have hpostlog : ∀ x ∈ logPost, readCall e.peer x.1 := by
    intro x hx
    apply hpost
    rw [← run_log_calls post hr3]
    exact List.mem_map_of_mem _ hx
  have hdclose : ∀ l, delivered e.peer (logPre ++ (.Close e, .closed none) :: l) =
      delivered e.peer logPre ++ delivered e.peer l := by
    intro l
    rw [delivered_append, delivered_cons]
    simp only [delivered, List.nil_append]
  refine ⟨logPre, logPost, rfl, run_log_calls pre hr1, run_log_calls post hr3, ⟨_, hall.symm⟩,
    hno, by rw [← hrem]; exact hreads, hall, ?_, ?_, ?_, ?_⟩
  · intro p
    rcases Read_total s e.peer p with hret | ⟨sb, hb⟩ | ⟨_, hnil⟩
    · exact hret
    · obtain ⟨_, _, h3, h4, _⟩ := Read_block hb
      rcases hpend3 with hp | hp
      · rw [h3] at hp; cases hp
      · rw [h4] at hp; cases hp
    · rw [(hinv3.1 e.peer).1] at hnil
      cases hnil
  · intro l1 c n err d l2 hsplit hdone
    rw [hsplit] at hreads hpostlog
    apply readsAfterClose_done e.peer c n err d l2 l1 _ hpostlog hreads
    rw [hdclose] at hdone
    have h5 := congrArg List.length hdone
    have h6 := congrArg List.length hs
    rw [List.length_append] at h5 h6
    rw [hav2]
    omega
  · intro l1 c n d l2 hsplit
    rcases List.append_eq_append_iff.mp hsplit with ⟨a, ha, hb⟩ | ⟨a, ha, hb⟩
    · -- the read lies after the `Close`
      cases a with
      | nil =>
        simp only [List.nil_append] at hb
        have := (List.cons.inj hb).1
        cases this
      | cons y a =>
        simp only [List.cons_append] at hb
        have h1 := (List.cons.inj hb).1
        have h2 := (List.cons.inj hb).2
        subst h1
        rw [h2] at hreads hpostlog
        have h7 := readsAfterClose_eof e.peer c n d l2 a _ hpostlog hreads
        rw [ha, List.append_assoc, List.cons_append, hdclose, h7, hav2]
        exact hs.symm
    · -- the read lies in `logPre`
      cases a with
      | nil =>
        simp only [List.nil_append] at hb
        have := (List.cons.inj hb).1
        cases this
      | cons y a =>
        simp only [List.cons_append] at hb
        have h1 := (List.cons.inj hb).1
        have h2 := (List.cons.inj hb).2
        subst h1
        exfalso
        apply hno c n d
        rw [ha]
        simp
  · intro p hp
    rcases Read_total s e.peer p with ⟨s3, n, err3, d, hret⟩ | ⟨sb, hb⟩ | ⟨_, hnil⟩
    · have hrun1 : run s [.Read e.peer p] = some (s3, [(.Read e.peer p, .read n err3 d)]) := by
        simp [run, exec, hret, Res.mapVal]
      obtain ⟨hr4, _⟩ := reads_after_close e.peer [.Read e.peer p] hinv3 hpend3
        (by simp [readCall, hp]) hrun1
      simp only [readsAfterClose] at hr4
      obtain ⟨g1, g2, g3, _⟩ := hr4
      subst g1
      exact ⟨s3, err3, d, hret, g2, g3⟩
    · obtain ⟨_, _, h3, h4, _⟩ := Read_block hb
      rcases hpend3 with hp3 | hp3
      · rw [h3] at hp3; cases hp3
      · rw [h4] at hp3; cases hp3
    · rw [(hinv3.1 e.peer).1] at hnil
      cases hnil

/-- Witness of C2: `c1` writes `[1, 2, 3]` and closes; `c2` reads with
destinations of length 2 once before the `Close` and twice after it.  The
reads return `[1, 2]`, then `[3]` with `io.EOF`, then 0 bytes with `io.EOF`. -/
theorem C2_end_of_stream_witness :
    (∀ c ∈ [Call.Write .c1 [1, 2, 3], .Read .c2 [0, 0]], roundTripCall .c1 c) ∧
    (∀ c ∈ [Call.Read .c2 [0, 0], .Read .c2 [0, 0]], readCall Side.c1.peer c) ∧
    run newPipeConns
        ([Call.Write .c1 [1, 2, 3], .Read .c2 [0, 0]] ++ .Close .c1 ::
          [Call.Read .c2 [0, 0], .Read .c2 [0, 0]]) =
      some (eofExampleRead,
        [(Call.Write .c1 [1, 2, 3], Out.wrote 3 none), (.Read .c2 [0, 0], .read 2 none [1, 2]),
         (.Close .c1, .closed none), (.Read .c2 [0, 0], .read 1 (some .EOF) [3, 0]),
         (.Read .c2 [0, 0], .read 0 (some .EOF) [0, 0])]) ∧
    ∃ logPre logPost,
      [(Call.Write .c1 [1, 2, 3], Out.wrote 3 none), (.Read .c2 [0, 0], .read 2 none [1, 2]),
         (.Close .c1, .closed none), (.Read .c2 [0, 0], .read 1 (some .EOF) [3, 0]),
         (.Read .c2 [0, 0], .read 0 (some .EOF) [0, 0])] =
        logPre ++ (.Close .c1, .closed none) :: logPost ∧
      logPre.map Prod.fst = [Call.Write .c1 [1, 2, 3], .Read .c2 [0, 0]] ∧
      logPost.map Prod.fst = [Call.Read .c2 [0, 0], .Read .c2 [0, 0]] ∧
      delivered Side.c1.peer
        [(Call.Write .c1 [1, 2, 3], Out.wrote 3 none), (.Read .c2 [0, 0], .read 2 none [1, 2]),
         (.Close .c1, .closed none), (.Read .c2 [0, 0], .read 1 (some .EOF) [3, 0]),
         (.Read .c2 [0, 0], .read 0 (some .EOF) [0, 0])] <+:
        payload .c1 [Call.Write .c1 [1, 2, 3], .Read .c2 [0, 0]] ∧
      noEOF logPre ∧
      readsAfterClose ((payload .c1 [Call.Write .c1 [1, 2, 3], .Read .c2 [0, 0]]).drop
        (delivered Side.c1.peer logPre).length) logPost ∧
      payload .c1 [Call.Write .c1 [1, 2, 3], .Read .c2 [0, 0]] =
        delivered Side.c1.peer
          [(Call.Write .c1 [1, 2, 3], Out.wrote 3 none), (.Read .c2 [0, 0], .read 2 none [1, 2]),
         (.Close .c1, .closed none), (.Read .c2 [0, 0], .read 1 (some .EOF) [3, 0]),
         (.Read .c2 [0, 0], .read 0 (some .EOF) [0, 0])] ++
          available eofExampleRead Side.c1.peer ∧
      (∀ p, ∃ s1 n err d, Read eofExampleRead Side.c1.peer p = .ret s1 (n, err, d)) ∧
      (∀ l1 c n err d l2, logPost = l1 ++ (c, Out.read n err d) :: l2 →
        delivered Side.c1.peer (logPre ++ (.Close .c1, .closed none) :: l1) =
          payload .c1 [Call.Write .c1 [1, 2, 3], .Read .c2 [0, 0]] →
        n = 0 ∧ err = some .EOF) ∧
      (∀ l1 c n d l2,
        [(Call.Write .c1 [1, 2, 3], Out.wrote 3 none), (.Read .c2 [0, 0], .read 2 none [1, 2]),
         (.Close .c1, .closed none), (.Read .c2 [0, 0], .read 1 (some .EOF) [3, 0]),
         (.Read .c2 [0, 0], .read 0 (some .EOF) [0, 0])] =
          l1 ++ (c, Out.read n (some .EOF) d) :: l2 →
        delivered Side.c1.peer (l1 ++ [(c, Out.read n (some .EOF) d)]) =
          payload .c1 [Call.Write .c1 [1, 2, 3], .Read .c2 [0, 0]]) ∧
      (∀ p, 0 < p.length → ∃ s1 err d,
        Read eofExampleRead Side.c1.peer p =
          .ret s1 (min p.length (available eofExampleRead Side.c1.peer).length, err, d) ∧
        d.take (min p.length (available eofExampleRead Side.c1.peer).length) =
          (available eofExampleRead Side.c1.peer).take
            (min p.length (available eofExampleRead Side.c1.peer).length) ∧
        err = (if (available eofExampleRead Side.c1.peer).length < p.length then some .EOF
          else none)) :=
  ⟨by decide, by decide, by decide,
    C2_end_of_stream .c1 [.Write .c1 [1, 2, 3], .Read .c2 [0, 0]]
      [.Read .c2 [0, 0], .Read .c2 [0, 0]] eofExampleRead _ (by decide) (by decide) (by decide)⟩

/-! ## C11: end of stream only after the peer has closed -/

/-- C11 (end of stream only after the peer's close).  In every state between
the calls of a sequential trace on a fresh pair and for every endpoint: if its
`rclosed` flag is set, or its receive queue contains the sentinel, or a `Read`
on it returns `io.EOF`, then `wclosed` of the peer is true.  In every state,
`Write` never enqueues the sentinel: when it returns, every queue is unchanged
or has exactly one non-nil buffer holding the input appended, also for the
empty input, and when it blocks the state is unchanged. -/
theorem C11_eof_after_peer_close :
    (∀ s, Reachable s → ∀ e,
      ((s.conn e).rclosed = true → (s.conn e.peer).wclosed = true) ∧
      (none ∈ recvQueue s e → (s.conn e.peer).wclosed = true) ∧
      (∀ p s1 n d, Read s e p = .ret s1 (n, some .EOF, d) →
        (s.conn e.peer).wclosed = true ∧ (s1.conn e.peer).wclosed = true)) ∧
    (∀ s e p s1 v, Write s e p = .ret s1 v →
      ∀ ref, s1.chan ref = s.chan ref ∨ s1.chan ref = s.chan ref ++ [some { b := p }]) ∧
    (∀ s e p s1, Write s e p = .block s1 → s1 = s) := by
  have key : ∀ s, Inv s → ∀ e, ((s.conn e).rclosed = true → (s.conn e.peer).wclosed = true) ∧
      (none ∈ recvQueue s e → (s.conn e.peer).wclosed = true) := by
    intro s h e
    have hq := (h.2.2.2 e).2.1
    constructor
    · intro hrc
      cases hpw : (s.conn e.peer).wclosed with
      | true => rfl
      | false => rw [(hq hpw).1] at hrc; cases hrc
    · intro hmem
      rw [h.recvQueue] at hmem
      cases hpw : (s.conn e.peer).wclosed with
      | true => rfl
      | false => exact absurd hmem (hq hpw).2
  refine ⟨?_, ?_, ?_⟩
  · intro s hs e
    refine ⟨(key s hs.inv e).1, (key s hs.inv e).2, ?_⟩
    intro p s1 n d hr
    obtain ⟨hinv1, _, _, hend, _, hwc⟩ := Read_spec hs.inv hr
    have hrc : (s1.conn e).rclosed = true := by
      rcases hend with ⟨e1, _⟩ | ⟨_, _, e3, _⟩ | ⟨e1, _⟩
      · cases e1
      · exact e3
      · cases e1
    have h1 := (key s1 hinv1 e).1 hrc
    exact ⟨by rw [← hwc]; exact h1, h1⟩
  · intro s e p s1 v hw ref
    cases hc : (s.conn e).wclosed with
    | true =>
      rw [Write_closed s e p hc] at hw
      simp only [Res.ret.injEq] at hw
      rw [← hw.1]; exact Or.inl rfl
    | false =>
      rcases Option.eq_none_or_eq_some (s.conn e).w with hn | ⟨ref0, hsome⟩
      · simp [Write, hc, hn] at hw
      · by_cases hlen : (s.chan ref0).length < chanCap
        · rw [Write_open s e p ref0 hc hsome hlen] at hw
          simp only [Res.ret.injEq] at hw
          rw [← hw.1]
          by_cases href : ref = ref0
          · subst href; exact Or.inr (by simp)
          · exact Or.inl (chan_setChan_ne _ _ href)
        · rw [Write_full s e p ref0 hc hsome hlen] at hw; cases hw
  · intro s e p s1 hw
    cases hc : (s.conn e).wclosed with
    | true => rw [Write_closed s e p hc] at hw; cases hw
    | false =>
      rcases Option.eq_none_or_eq_some (s.conn e).w with hn | ⟨ref0, hsome⟩
      · simp [Write, hc, hn] at hw
      · by_cases hlen : (s.chan ref0).length < chanCap
        · rw [Write_open s e p ref0 hc hsome hlen] at hw; cases hw
        · rw [Write_full s e p ref0 hc hsome hlen] at hw
          simp only [Res.block.injEq] at hw
          exact hw.symm

/-- Witness of C11: after `c1.Write([7])` and `c1.Close()` the sentinel is queued
for `c2` and `c1` is closed for writing; a `Read` with a destination of length 2
returns `io.EOF`; and `Write` of the empty slice on a fresh pair enqueues a
non-nil buffer. -/
theorem C11_eof_after_peer_close_witness :
    Reachable eofExample ∧ none ∈ recvQueue eofExample .c2 ∧
    (eofExample.conn Side.c2.peer).wclosed = true ∧
    Read eofExample .c2 [0, 0] = .ret eofExampleRead (1, some .EOF, [7, 0]) ∧
    (eofExampleRead.conn Side.c2.peer).wclosed = true ∧
    Write newPipeConns .c1 [] =
      .ret (newPipeConns.setChan .ch2 [some { b := [] }]) (0, none) ∧
    ((newPipeConns.setChan .ch2 [some { b := [] }]).chan .ch2 = newPipeConns.chan .ch2 ∨
      (newPipeConns.setChan .ch2 [some { b := [] }]).chan .ch2 =
        newPipeConns.chan .ch2 ++ [some { b := [] }]) :=
  have hr : Reachable eofExample :=
    ⟨[.Write .c1 [7], .Close .c1],
      [(.Write .c1 [7], .wrote 1 none), (.Close .c1, .closed none)], by decide⟩
  ⟨hr, by decide, (C11_eof_after_peer_close.1 eofExample hr .c2).2.1 (by decide), by decide,
    ((C11_eof_after_peer_close.1 eofExample hr .c2).2.2 [0, 0] eofExampleRead 1 [7, 0]
      (by decide)).2,
    by decide,
    C11_eof_after_peer_close.2.1 newPipeConns .c1 [] _ (0, none) (by decide) .ch2⟩

/-! ## C13: deadlines -/

/-- C13 (deadlines are unsupported).  In every state, on every endpoint and for
every time value, `SetDeadline`, `SetReadDeadline` and `SetWriteDeadline`
return a non-nil error whose text is "deadline not supported", and the state
after the call is the state before it. -/
theorem C13_deadline_not_supported (s : pipeConns) (e : Side) (t : Time) :
    SetDeadline s e t = .ret s (some .deadlineNotSupported) ∧
    SetReadDeadline s e t = .ret s (some .deadlineNotSupported) ∧
    SetWriteDeadline s e t = .ret s (some .deadlineNotSupported) ∧
    GoError.deadlineNotSupported.Error = "deadline not supported" :=
  ⟨rfl, rfl, rfl, rfl⟩

/-! ## C14: when Read stops blocking -/

theorem dataBeforeEOS_eq_nil {q : List BufPtr} (hd : dataBeforeEOS q = []) (hn : none ∉ q) :
    ∀ x ∈ q, x = some { b := [] } := by
  induction q with
  | nil => intro x hx; cases hx
  | cons y q ih =>
    cases y with
    | none => simp at hn
    | some b =>
      simp only [dataBeforeEOS, List.append_eq_nil] at hd
      intro x hx
      rcases List.mem_cons.mp hx with hx | hx
      · rw [hx]
        cases b
        simp only at hd
        simp [hd.1]
      · exact ih hd.2 (fun h => hn (List.mem_cons_of_mem _ h)) x hx

/-- With nothing pending and an empty receive queue, a `Read` with a non-empty
destination does not return. -/
theorem Read_empty_not_ret {s : pipeConns} {e : Side} {p : List Byte}
    (hbb : (s.conn e).bb = []) (hrc : (s.conn e).rclosed = false) (hq : recvQueue s e = [])
    (hp : 0 < p.length) :
    ∀ s1 v, Read s e p ≠ .ret s1 v := by
  intro s1 v h
  simp only [recvQueue] at hq
  simp only [Read, hq, List.length_nil, Nat.add_zero] at h
  rw [ReadLoop, if_pos hp] at h
  rcases Option.eq_none_or_eq_some (s.conn e).r with hr | ⟨ref, hr⟩
  · simp [pipeConn.read, hbb, hrc, hr, Res.mapState] at h
  · simp [pipeConn.read, hbb, hrc, hr, Res.mapState] at h

/-- C14, counterexample.  After `c1.Write([])` on a fresh pair, `c2.Read` with a
destination of length 1 returns 0 bytes with a nil error: the claim that a
`Read` with a non-empty destination returning nil has copied a byte is false. -/
theorem C14_counterexample :
    run newPipeConns [.Write .c1 []] = some (emptyBufExample, [(.Write .c1 [], .wrote 0 none)]) ∧
    Read emptyBufExample .c2 [0] = .ret newPipeConns (0, none, [0]) ∧
    ¬ (∀ (s s1 : pipeConns) (e : Side) (p d : List Byte) (n : Nat),
        0 < p.length → Read s e p = .ret s1 (n, none, d) → 1 ≤ n) := by
  refine ⟨by decide, by decide, fun h => ?_⟩
  have h1 : Read emptyBufExample .c2 [0] = .ret newPipeConns (0, none, [0]) := by decide
  exact absurd (h _ _ _ _ _ _ (by decide) h1) (by decide)

/-- C14, amended.  The loop of `Read` switches from the blocking fetch to the
non-blocking poll as soon as one inner `read` has returned without error,
whether or not it copied a byte.  In every state and for every destination of
length > 0, a `Read` that returns a nil error has copied at least one byte, or
it has copied none and then nothing was pending, the receive queue was not
empty and held only empty non-nil buffers (written by `Write` of an empty
slice), all of which the call dequeued.  So a `Read` returning nil has copied a
byte whenever no empty buffer is queued. -/
theorem C14_read_nil_error (s s1 : pipeConns) (e : Side) (p d : List Byte) (n : Nat)
    (hp : 0 < p.length) (h : Read s e p = .ret s1 (n, none, d)) :
    (1 ≤ n ∨
      (n = 0 ∧ (s.conn e).bb = [] ∧ (s.conn e).rclosed = false ∧ recvQueue s e ≠ [] ∧
        (∀ x ∈ recvQueue s e, x = some { b := [] }) ∧ recvQueue s1 e = [])) ∧
    ((∀ x ∈ recvQueue s e, x ≠ some { b := [] }) → 1 ≤ n) ∧
    (∀ (fuel : Nat) (c c1 : pipeConn) (q q1 : List BufPtr) (pre dst dst1 : List Byte)
      (nn k : Nat) (mayBlock : Bool), 0 < dst.length →
      pipeConn.read c q dst mayBlock = .ret (c1, q1) (k, none, dst1) →
      ReadLoop (fuel + 1) c q pre dst nn mayBlock =
        ReadLoop fuel c1 q1 (pre ++ dst1.take k) (dst1.drop k) (nn + k) false) := by
  have main : 1 ≤ n ∨
      (n = 0 ∧ (s.conn e).bb = [] ∧ (s.conn e).rclosed = false ∧ recvQueue s e ≠ [] ∧
        (∀ x ∈ recvQueue s e, x = some { b := [] }) ∧ recvQueue s1 e = []) := by
    obtain ⟨c1, q1, hs1, taken, hn, hd, hlen, hav, hfr, hend⟩ := Read_ret h
    simp only [Nat.zero_add] at hn
    obtain ⟨f1, f2, f3, front, hfront, f5⟩ := hfr
    rcases hend with ⟨_, e2⟩ | ⟨e1, _⟩ | ⟨_, e2, e3, e4, e5⟩
    · left; omega
    · cases e1
    · by_cases hn0 : 1 ≤ n
      · exact Or.inl hn0
      · right
        have ht : taken = [] := List.length_eq_zero.mp (by omega)
        have hnf : ¬ ((s.conn e).rclosed = true ∨ none ∈ front) := by
          rw [← f5, e3]; simp
        have hrc : (s.conn e).rclosed = false := by
          cases hx : (s.conn e).rclosed with
          | false => rfl
          | true => exact absurd (Or.inl hx) hnf
        rw [e5, List.append_nil] at hfront
        have hnone : none ∉ recvQueue s e := by
          rw [hfront]; exact fun hm => hnf (Or.inr hm)
        simp only [availR, ht, e3, e4, e5, hrc, List.nil_append, dataBeforeEOS,
          Bool.false_eq_true, if_false, List.append_eq_nil] at hav
        have hq1 : recvQueue s1 e = [] := by
          rw [hs1]
          rcases Option.eq_none_or_eq_some (s.conn e).r with hr | ⟨ref, hr⟩
          · simp [recvQueue, pipeConns.putRead, hr, f1, pipeConns.deref]
          · simp [recvQueue, pipeConns.putRead, hr, f1, pipeConns.deref, e5]
        refine ⟨by omega, hav.1, hrc, ?_, dataBeforeEOS_eq_nil hav.2 hnone, hq1⟩
        intro hq
        exact Read_empty_not_ret hav.1 hrc hq hp _ _ h
  refine ⟨main, ?_, ?_⟩
  · intro hne
    rcases main with h1 | ⟨_, _, _, hq, hall, _⟩
    · exact h1
    · obtain ⟨x, hx⟩ := List.exists_mem_of_ne_nil _ hq
      exact absurd (hall x hx) (hne x hx)
  · intro fuel c c1 q q1 pre dst dst1 nn k mayBlock hdst hread
    rw [ReadLoop, if_pos hdst, hread]

/-- Witness of C14 (amended): the read of the counterexample, which dequeues
the empty buffer. -/
theorem C14_read_nil_error_witness :
    0 < [0].length ∧ Read emptyBufExample .c2 [0] = .ret newPipeConns (0, none, [0]) ∧
    (1 ≤ 0 ∨
      (0 = 0 ∧ (emptyBufExample.conn .c2).bb = [] ∧ (emptyBufExample.conn .c2).rclosed = false ∧
        recvQueue emptyBufExample .c2 ≠ [] ∧
        (∀ x ∈ recvQueue emptyBufExample .c2, x = some { b := [] }) ∧
        recvQueue newPipeConns .c2 = [])) :=
  ⟨by decide, by decide,
    (C14_read_nil_error emptyBufExample newPipeConns .c2 [0] [0] 0 (by decide) (by decide)).1⟩

/-! ## C15: joint release -/

/-- C15, the code at the failing input.  The drain loop of `releasePipeChan`
does not terminate on any queue: the channel is never closed, so after the
queued entries the receive of the `range` clause blocks, and `releasePipeChan`
and `pipeConn.release` never return.  On a fresh pair after `c1.Close()`, the
call `c2.Close()`, whose send queue has a free slot, is blocked: the receive
and send channels of both endpoints are still set, `ch2` still holds a
sentinel and nothing is in the pool.  In every state between the calls of a
sequential trace, a `Close` on an endpoint whose peer is closed for writing
does not return. -/
theorem C15_joint_release_blocks :
    (∀ s ref q, rangeRelease s ref q = .block (s.setChan ref [])) ∧
    (∀ s ref, releasePipeChan s (some ref) = .block (s.setChan ref [])) ∧
    (∀ s e ref, (s.conn e).r = some ref → pipeConn.release s e = .block (s.setChan ref [])) ∧
    Close (halfClosed newPipeConns .c1 .ch2) .c2 = .block jointCloseBlocked ∧
    (sendQueue (halfClosed newPipeConns .c1 .ch2) .c2).length < 4 ∧
    ((halfClosed newPipeConns .c1 .ch2).conn Side.c2.peer).wclosed = true ∧
    jointCloseBlocked.c1.r = some .ch1 ∧ jointCloseBlocked.c1.w = some .ch2 ∧
    jointCloseBlocked.c2.r = some .ch2 ∧ jointCloseBlocked.c2.w = some .ch1 ∧
    jointCloseBlocked.ch2 = [none] ∧ jointCloseBlocked.pooled = [] ∧
    (∀ s, Reachable s → ∀ e, (s.conn e.peer).wclosed = true →
      ∀ s1 v, Close s e ≠ .ret s1 v) := by
  refine ⟨rangeRelease_block, releasePipeChan_block, pipeConn_release_block, by decide,
    by decide, by decide, rfl, rfl, rfl, rfl, rfl, rfl, ?_⟩
  intro s hs e hp s1 v hc
  have h := hs.inv
  by_cases hlen : (s.chan (recvRef e.peer)).length < chanCap
  · rw [Close_joint s e _ _ hp (h.1 e).2 (h.1 .c1).1 hlen] at hc; cases hc
  · rw [Close_full s e _ (h.1 e).2 hlen] at hc; cases hc

/-! ## C17: repeated Close -/

theorem Close_eq_release (s : pipeConns) (e : Side) (ref : ChanRef)
    (hw : (s.conn e).w = some ref) (hlen : (s.chan ref).length < chanCap) :
    Close s e = (pipeConns.release (halfClosed s e ref)).mapVal (fun _ => none) := by
  have hw1 : ((s.setConn e { s.conn e with wclosed := true }).conn e).w = some ref := by
    simpa using hw
  simp only [Close, hw1, chan_setConn, hlen, if_true]
  simp only [halfClosed]
  cases pipeConns.release ((s.setConn e { s.conn e with wclosed := true }).setChan ref
    (s.chan ref ++ [none])) <;> rfl

/-- C17 (Close is not idempotent).  In every state, a `Close` on an endpoint
whose send channel is not nil and has a free slot sets `wclosed`, appends
exactly one sentinel to the send channel and then runs the joint-release check
`pipeConns.release` on the resulting state, whether or not `wclosed` was
already set.  In every state between the calls of a sequential trace on a
fresh pair, with the peer open and two free slots, two `Close` calls on one
endpoint both return nil and leave the peer's receive queue with two sentinels
appended; on a fresh pair it then holds exactly two sentinels. -/
theorem C17_close_not_idempotent :
    (∀ s e ref, (s.conn e).w = some ref → (s.chan ref).length < 4 →
      Close s e = (pipeConns.release (halfClosed s e ref)).mapVal (fun _ => none) ∧
      (halfClosed s e ref).chan ref = s.chan ref ++ [none]) ∧
    (∀ s, Reachable s → ∀ e, (s.conn e.peer).wclosed = false →
      (recvQueue s e.peer).length + 2 ≤ 4 →
      ∃ s2, run s [.Close e, .Close e] =
          some (s2, [(.Close e, .closed none), (.Close e, .closed none)]) ∧
        recvQueue s2 e.peer = recvQueue s e.peer ++ [none, none]) ∧
    run newPipeConns [.Close .c1, .Close .c1] =
      some (twoSentinels, [(.Close .c1, .closed none), (.Close .c1, .closed none)]) ∧
    recvQueue twoSentinels .c2 = [none, none] := by
  refine ⟨?_, ?_, by decide, by decide⟩
  · intro s e ref hw hlen
    exact ⟨Close_eq_release s e ref hw hlen, by simp [halfClosed]⟩
  · intro s hs e hp hlen
    have h := hs.inv
    rw [h.recvQueue] at hlen
    have h1 : Close s e = .ret (halfClosed s e (recvRef e.peer)) none :=
      Close_half s e _ hp (h.1 e).2 (by show _ < 4; omega)
    obtain ⟨hinv1, _⟩ := Close_inv h h1
    have hp1 : ((halfClosed s e (recvRef e.peer)).conn e.peer).wclosed = false := by
      simpa [halfClosed] using hp
    have hlen1 : ((halfClosed s e (recvRef e.peer)).chan (recvRef e.peer)).length < chanCap := by
      simp only [halfClosed, chan_setChan_same, List.length_append, List.length_singleton]
      show _ < 4
      omega
    have h2 := Close_half (halfClosed s e (recvRef e.peer)) e _ hp1 (hinv1.1 e).2 hlen1
    obtain ⟨hinv2, _⟩ := Close_inv hinv1 h2
    refine ⟨halfClosed (halfClosed s e (recvRef e.peer)) e (recvRef e.peer),
      by simp [run, exec, h1, h2, Res.mapVal], ?_⟩
    rw [hinv2.recvQueue, h.recvQueue]
    simp [halfClosed]

/-- Witness of C17: `c2` closes twice after `c1` wrote three bytes. -/
theorem C17_close_not_idempotent_witness :
    (shortExample.conn .c2).w = some .ch1 ∧ (shortExample.chan .ch1).length < 4 ∧
    Close shortExample .c2 =
      (pipeConns.release (halfClosed shortExample .c2 .ch1)).mapVal (fun _ => none) ∧
    Reachable shortExample ∧ (shortExample.conn Side.c2.peer).wclosed = false ∧
    (recvQueue shortExample Side.c2.peer).length + 2 ≤ 4 ∧
    ∃ s2, run shortExample [.Close .c2, .Close .c2] =
        some (s2, [(.Close .c2, .closed none), (.Close .c2, .closed none)]) ∧
      recvQueue s2 Side.c2.peer = recvQueue shortExample Side.c2.peer ++ [none, none] :=
  have hr : Reachable shortExample :=
    ⟨[.Write .c1 [1, 2, 3]], [(.Write .c1 [1, 2, 3], .wrote 3 none)], by decide⟩
  ⟨by decide, by decide,
    (C17_close_not_idempotent.1 shortExample .c2 .ch1 (by decide) (by decide)).1,
    hr, by decide, by decide,
    C17_close_not_idempotent.2.1 shortExample hr .c2 (by decide) (by decide)⟩

/-! ## C19: unread data and joint release -/

/-- C19, the code at the failing input.  On a fresh pair after `c1.Write([7])`
and `c1.Close()`, the call `c2.Close()` makes both `wclosed` flags true and is
blocked in the release of `c1`; the release of `c2` is never reached, so the
receive queue of `c2` still holds the unread byte, and a `Read` on `c2` in that
state with a destination of length 2 returns it. -/
theorem C19_unread_data_survives :
    run newPipeConns [.Write .c1 [7], .Close .c1] =
      some (eofExample, [(.Write .c1 [7], .wrote 1 none), (.Close .c1, .closed none)]) ∧
    Close eofExample .c2 = .block unreadBlocked ∧
    unreadBlocked.c1.wclosed = true ∧ unreadBlocked.c2.wclosed = true ∧
    recvQueue unreadBlocked .c2 = [some { b := [7] }, none] ∧
    available unreadBlocked .c2 = [7] ∧
    Read unreadBlocked .c2 [0, 0] = .ret unreadBlockedRead (1, some .EOF, [7, 0]) := by
  decide

/-! ## C18: Write and the send channel -/

/-- A returning call never resets a `wclosed` flag. -/
theorem exec_ret_wclosed {s s1 : pipeConns} {c : Call} {o : Out} (h : Inv s)
    (hx : exec s c = .ret s1 o) (e : Side) (hc : (s.conn e).wclosed = true) :
    (s1.conn e).wclosed = true := by
  cases c with
  | Write e0 p =>
    obtain ⟨⟨n, err⟩, hw, _⟩ := mapVal_eq_ret hx
    cases hc0 : (s.conn e0).wclosed with
    | true =>
      rw [Write_closed s e0 p hc0] at hw
      simp only [Res.ret.injEq] at hw
      rw [← hw.1]; exact hc
    | false =>
      by_cases hlen : (s.chan (recvRef e0.peer)).length < chanCap
      · rw [Write_open s e0 p _ hc0 (h.1 e0).2 hlen] at hw
        simp only [Res.ret.injEq] at hw
        rw [← hw.1]; simpa using hc
      · rw [Write_full s e0 p _ hc0 (h.1 e0).2 hlen] at hw; cases hw
  | Read e0 p =>
    obtain ⟨⟨n, err, d⟩, hw, _⟩ := mapVal_eq_ret hx
    obtain ⟨_, _, _, _, _, hwc⟩ := Read_spec h hw
    rw [hwc e]; exact hc
  | Close e0 =>
    obtain ⟨err, hw, _⟩ := mapVal_eq_ret hx
    obtain ⟨_, _, _, _, hs1⟩ := Close_inv h hw
    rw [hs1]
    rcases eq_or_eq_peer e0 e with rfl | rfl
    · simp [halfClosed]
    · simpa [halfClosed] using hc

/-- In the state a call is blocked in, the channel fields of both endpoints
are what they were and no `wclosed` flag has been reset. -/
theorem exec_block_conn {s s1 : pipeConns} {c : Call} (h : Inv s) (hx : exec s c = .block s1)
    (e : Side) :
    (s1.conn e).r = (s.conn e).r ∧ (s1.conn e).w = (s.conn e).w ∧
      ((s.conn e).wclosed = true → (s1.conn e).wclosed = true) := by
  cases c with
  | Write e0 p =>
    have hw : Write s e0 p = .block s1 := by
      cases hres : Write s e0 p <;> simp [exec, hres, Res.mapVal] at hx
      rw [hx]
    cases hc : (s.conn e0).wclosed with
    | true => rw [Write_closed s e0 p hc] at hw; cases hw
    | false =>
      by_cases hlen : (s.chan (recvRef e0.peer)).length < chanCap
      · rw [Write_open s e0 p _ hc (h.1 e0).2 hlen] at hw; cases hw
      · rw [Write_full s e0 p _ hc (h.1 e0).2 hlen] at hw
        cases hw
        exact ⟨rfl, rfl, fun hc => hc⟩
  | Read e0 p =>
    have hw : Read s e0 p = .block s1 := by
      cases hres : Read s e0 p <;> simp [exec, hres, Res.mapVal] at hx
      rw [hx]
    obtain ⟨_, _, _, _, rfl⟩ := Read_block hw
    rcases eq_or_eq_peer e0 e with rfl | rfl
    · simp
    · simp
  | Close e0 =>
    have hw : Close s e0 = .block s1 := by
      cases hres : Close s e0 <;> simp [exec, hres, Res.mapVal] at hx
      rw [hx]
    by_cases hlen : (s.chan (recvRef e0.peer)).length < chanCap
    · cases hp : (s.conn e0.peer).wclosed with
      | true =>
        rw [Close_joint s e0 _ _ hp (h.1 e0).2 (h.1 .c1).1 hlen] at hw
        simp only [Res.block.injEq] at hw
        subst hw
        rcases eq_or_eq_peer e0 e with rfl | rfl
        · simp [halfClosed]
        · simp [halfClosed]
      | false =>
        rw [Close_half s e0 _ hp (h.1 e0).2 hlen] at hw; cases hw
    · rw [Close_full s e0 _ (h.1 e0).2 hlen] at hw
      cases hw
      rcases eq_or_eq_peer e0 e with rfl | rfl
      · simp
      · simp

/-- What `Write` does on an endpoint with a non-nil send channel. -/
theorem Write_cases (s : pipeConns) (e : Side) (p : List Byte) (ref : ChanRef)
    (hw : (s.conn e).w = some ref) :
    Write s e p = .ret s (0, some .closedForWriting) ∨
    Write s e p = .ret (s.setChan ref (s.chan ref ++ [some { b := p }])) (p.length, none) ∨
    Write s e p = .block s := by
  cases hc : (s.conn e).wclosed with
  | true => exact Or.inl (Write_closed s e p hc)
  | false =>
    by_cases hlen : (s.chan ref).length < chanCap
    · exact Or.inr (Or.inl (Write_open s e p ref hc hw hlen))
    · exact Or.inr (Or.inr (Write_full s e p ref hc hw hlen))

/-- C18 (Write never touches a cleared queue).  In every state between the
calls of a sequential trace on a fresh pair, and in every state a call of such
a trace is blocked in, the send channel of each endpoint is not nil, so an
endpoint with a nil send channel has `wclosed = true`; no call, returning or
blocked, resets a `wclosed` flag or changes a channel field; and `Write` with
any input returns the closed-connection error, or enqueues on the non-nil send
channel, or blocks on it: it never dereferences nil.  `pipeConns.release`
changes no endpoint unless both `wclosed` flags are true. -/
theorem C18_write_no_nil_deref :
    (∀ s, Reachable s → ∀ e,
      (s.conn e).w = some (recvRef e.peer) ∧
      ((s.conn e).w = none → (s.conn e).wclosed = true) ∧
      (∀ c s1 o, exec s c = .ret s1 o →
        (s1.conn e).w = (s.conn e).w ∧
        ((s.conn e).wclosed = true → (s1.conn e).wclosed = true)) ∧
      (∀ c s1, exec s c = .block s1 →
        (s1.conn e).w = (s.conn e).w ∧
        ((s.conn e).wclosed = true → (s1.conn e).wclosed = true) ∧
        ∀ e1 p, Write s1 e1 p ≠ .nilDeref) ∧
      (∀ p, Write s e p ≠ .nilDeref ∧
        (Write s e p = .ret s (0, some .closedForWriting) ∨
         Write s e p = .ret (s.setChan (recvRef e.peer)
            (s.chan (recvRef e.peer) ++ [some { b := p }])) (p.length, none) ∨
         Write s e p = .block s))) ∧
    (∀ s, ¬ (s.c1.wclosed = true ∧ s.c2.wclosed = true) → pipeConns.release s = .ret s ()) := by
  refine ⟨?_, release_open⟩
  intro s hs e
  have h := hs.inv
  have hno : ∀ (s0 : pipeConns) (e1 : Side) (p : List Byte) (ref : ChanRef),
      (s0.conn e1).w = some ref → Write s0 e1 p ≠ .nilDeref := by
    intro s0 e1 p ref hw hn
    rcases Write_cases s0 e1 p ref hw with h1 | h1 | h1 <;> rw [h1] at hn <;> cases hn
  refine ⟨(h.1 e).2, ?_, ?_, ?_, ?_⟩
  · intro hn
    rw [(h.1 e).2] at hn; cases hn
  · intro c s1 o hx
    have hinv1 := (exec_inv h hx).1
    exact ⟨by rw [(hinv1.1 e).2, (h.1 e).2], exec_ret_wclosed h hx e⟩
  · intro c s1 hx
    obtain ⟨_, hw, hc⟩ := exec_block_conn h hx e
    refine ⟨hw, hc, ?_⟩
    intro e1 p
    obtain ⟨_, hw1, _⟩ := exec_block_conn h hx e1
    exact hno s1 e1 p (recvRef e1.peer) (by rw [hw1]; exact (h.1 e1).2)
  · intro p
    exact ⟨hno s e p _ (h.1 e).2, Write_cases s e p _ (h.1 e).2⟩

/-- Witness of C18: in the state after `c1.Write([7])` and `c1.Close()`, `Write`
on the closed endpoint `c1` takes the error branch, and `c2.Close()` leads to a
blocked state in which `Write` on `c2` still has its send channel. -/
theorem C18_write_no_nil_deref_witness :
    Reachable eofExample ∧ (eofExample.conn .c1).w = some (recvRef Side.c1.peer) ∧
    Write eofExample .c1 [9] ≠ .nilDeref ∧
    exec eofExample (.Close .c2) = .block unreadBlocked ∧
    Write unreadBlocked .c2 [9] ≠ .nilDeref ∧
    Write unreadBlocked .c2 [9] = .ret unreadBlocked (0, some .closedForWriting) :=
  have hr : Reachable eofExample :=
    ⟨[.Write .c1 [7], .Close .c1],
      [(.Write .c1 [7], .wrote 1 none), (.Close .c1, .closed none)], by decide⟩
  ⟨hr, (C18_write_no_nil_deref.1 eofExample hr .c1).1,
    ((C18_write_no_nil_deref.1 eofExample hr .c1).2.2.2.2 [9]).1, by decide,
    ((C18_write_no_nil_deref.1 eofExample hr .c1).2.2.2.1 (.Close .c2) unreadBlocked
      (by decide)).2.2 .c2 [9],
    by decide⟩

/-! ## Several pairs: the heap -/

theorem getD_set (l : List (List BufPtr)) (i j : Nat) (x : List BufPtr) :
    (l.set i x).getD j [] = if i = j ∧ i < l.length then x else l.getD j [] := by
  simp only [List.getD_eq_getElem?_getD, List.getElem?_set]
  by_cases hij : i = j
  · subst hij
    by_cases hlt : i < l.length
    · simp [hlt]
    · simp [hlt, List.getElem?_eq_none (Nat.le_of_not_lt hlt)]
  · simp [hij]

theorem getD_append_nil (l : List (List BufPtr)) (a : Nat) :
    (l ++ [[]]).getD a [] = l.getD a [] := by
  simp only [List.getD_eq_getElem?_getD]
  by_cases hlt : a < l.length
  · rw [List.getElem?_append_left hlt]
  · have hle : l.length ≤ a := Nat.le_of_not_lt hlt
    rw [List.getElem?_append_right hle, List.getElem?_eq_none hle]
    cases h : a - l.length with
    | zero => simp
    | succ n => simp

theorem view_store_self (w : World) (i : Nat) (pc : PairCell) (s : pipeConns)
    (h1 : pc.a1 < w.heap.length) (h2 : pc.a2 < w.heap.length) (h12 : pc.a1 ≠ pc.a2)
    (hp : s.pooled = []) :
    (w.store i pc s).view { pc with c1 := s.c1, c2 := s.c2 } = s := by
  obtain ⟨c1, c2, ch1, ch2, pooled⟩ := s
  simp only at hp
  subst hp
  simp only [World.view, World.store, getD_set, List.length_set]
  simp [h1, h2, h12, Ne.symm h12]

theorem view_store_other (w : World) (i : Nat) (pc pb : PairCell) (s : pipeConns)
    (h : pc.a1 ≠ pb.a1 ∧ pc.a1 ≠ pb.a2 ∧ pc.a2 ≠ pb.a1 ∧ pc.a2 ≠ pb.a2) :
    (w.store i pc s).view pb = w.view pb := by
  simp only [World.view, World.store, getD_set]
  simp [h.1, h.2.1, h.2.2.1, h.2.2.2]

theorem pairs_store (w : World) (i j : Nat) (pc : PairCell) (s : pipeConns)
    (hi : w.pairs[i]? = some pc) :
    (w.store i pc s).pairs[j]? =
      if i = j then some { pc with c1 := s.c1, c2 := s.c2 } else w.pairs[j]? := by
  have hlt : i < w.pairs.length := by
    by_contra hn
    rw [List.getElem?_eq_none (Nat.le_of_not_lt hn)] at hi
    cases hi
  simp only [World.store, List.getElem?_set]
  by_cases hij : i = j
  · subst hij; simp [hlt]
  · simp [hij]

theorem WInv_store {w : World} {i : Nat} {pc : PairCell} {s : pipeConns} (h : WInv w)
    (hi : w.pairs[i]? = some pc) (hs : Inv s) : WInv (w.store i pc s) := by
  obtain ⟨hpool, hcells, hdis⟩ := h
  obtain ⟨h1, h2, h12, _⟩ := hcells i pc hi
  refine ⟨?_, ?_, ?_⟩
  · simp [World.store, hpool, hs.2.1]
  · intro k cell hk
    rw [pairs_store w i k pc s hi] at hk
    by_cases hik : i = k
    · simp only [hik, if_true, Option.some.injEq] at hk
      subst hk
      refine ⟨by simpa [World.store] using h1, by simpa [World.store] using h2, h12, ?_⟩
      rw [view_store_self w i pc s h1 h2 h12 hs.2.1]
      exact hs
    · simp only [hik, if_false] at hk
      obtain ⟨g1, g2, g12, ginv⟩ := hcells k cell hk
      refine ⟨by simpa [World.store] using g1, by simpa [World.store] using g2, g12, ?_⟩
      rw [view_store_other w i pc cell s (hdis i k pc cell hi hk hik)]
      exact ginv
  · intro k l pa pb hk hl hkl
    rw [pairs_store w i k pc s hi] at hk
    rw [pairs_store w i l pc s hi] at hl
    by_cases hik : i = k
    · by_cases hil : i = l
      · exact absurd (hik.symm.trans hil) hkl
      · simp only [hik, if_true, Option.some.injEq] at hk
        simp only [hil, if_false] at hl
        subst hk
        exact hdis i l pc pb hi hl hil
    · simp only [hik, if_false] at hk
      by_cases hil : i = l
      · simp only [hil, if_true, Option.some.injEq] at hl
        subst hl
        exact hdis k i pa pc hk hi (Ne.symm hik)
      · simp only [hil, if_false] at hl
        exact hdis k l pa pb hk hl hkl

theorem WInv_empty : WInv World.empty := by
  refine ⟨rfl, ?_, ?_⟩
  · intro i pc h; simp [World.empty] at h
  · intro i j pa pb h; simp [World.empty] at h

/-- With an empty pool both `acquirePipeChan` calls of `newPipeConns` make a
new channel, whatever `Get` would pick. -/
theorem newPipeConns_eq (w : World) (k1 k2 : Nat) (hp : w.pool = []) :
    World.newPipeConns w k1 k2 =
      .ret { heap := w.heap ++ [[]] ++ [[]], pool := [],
             pairs := w.pairs ++ [{ c1 := Pipe.newPipeConns.c1, c2 := Pipe.newPipeConns.c2,
                                    a1 := w.heap.length, a2 := w.heap.length + 1 }] }
        w.pairs.length := by
  simp [World.newPipeConns, acquirePipeChan, hp]

/-! ## Several pairs: one call -/

theorem view_new (w : World) (ps : List PairCell) (pl : List Nat) (pc : PairCell) :
    World.view { heap := w.heap ++ [[]] ++ [[]], pool := pl, pairs := ps } pc = w.view pc := by
  simp only [World.view, getD_append_nil]

theorem pairs_append (ps : List PairCell) (cell : PairCell) (j : Nat) :
    (ps ++ [cell])[j]? = if j < ps.length then ps[j]? else if j = ps.length then some cell
      else none := by
  by_cases hlt : j < ps.length
  · rw [List.getElem?_append_left hlt, if_pos hlt]
  · have hle : ps.length ≤ j := Nat.le_of_not_lt hlt
    rw [List.getElem?_append_right hle, if_neg hlt]
    by_cases heq : j = ps.length
    · simp [heq]
    · rw [if_neg heq]
      have : j - ps.length ≠ 0 := by omega
      cases h : j - ps.length with
      | zero => exact absurd h this
      | succ n => simp

/-- The world `newPipeConns` leads to when the pool is empty. -/
theorem WInv_new {w : World} (h : WInv w) :
    WInv { heap := w.heap ++ [[]] ++ [[]], pool := [],
           pairs := w.pairs ++ [{ c1 := Pipe.newPipeConns.c1, c2 := Pipe.newPipeConns.c2,
                                  a1 := w.heap.length, a2 := w.heap.length + 1 }] } := by
  obtain ⟨hpool, hcells, hdis⟩ := h
  have hnewview : ∀ pl ps, World.view { heap := w.heap ++ [[]] ++ [[]], pool := pl, pairs := ps }
      { c1 := Pipe.newPipeConns.c1, c2 := Pipe.newPipeConns.c2,
        a1 := w.heap.length, a2 := w.heap.length + 1 } = Pipe.newPipeConns := by
    intro pl ps
    rw [view_new]
    simp [World.view, List.getD_eq_getElem?_getD, newPipeConns,
      List.getElem?_eq_none (Nat.le_succ w.heap.length)]
  refine ⟨rfl, ?_, ?_⟩
  · intro k cell hk
    simp only [pairs_append] at hk
    by_cases hlt : k < w.pairs.length
    · rw [if_pos hlt] at hk
      obtain ⟨g1, g2, g12, ginv⟩ := hcells k cell hk
      refine ⟨by simp; omega, by simp; omega, g12, ?_⟩
      rw [view_new]; exact ginv
    · rw [if_neg hlt] at hk
      by_cases heq : k = w.pairs.length
      · rw [if_pos heq] at hk
        simp only [Option.some.injEq] at hk
        subst hk
        refine ⟨by simp, by simp, by simp, ?_⟩
        rw [hnewview]; exact Inv_new
      · rw [if_neg heq] at hk; cases hk
  · intro k l pa pb hk hl hkl
    simp only [pairs_append] at hk hl
    by_cases hk1 : k < w.pairs.length
    · rw [if_pos hk1] at hk
      obtain ⟨g1, g2, _, _⟩ := hcells k pa hk
      by_cases hl1 : l < w.pairs.length
      · rw [if_pos hl1] at hl
        exact hdis k l pa pb hk hl hkl
      · rw [if_neg hl1] at hl
        by_cases hl2 : l = w.pairs.length
        · rw [if_pos hl2] at hl
          simp only [Option.some.injEq] at hl
          subst hl
          simp only
          omega
        · rw [if_neg hl2] at hl; cases hl
    · rw [if_neg hk1] at hk
      by_cases hk2 : k = w.pairs.length
      · rw [if_pos hk2] at hk
        simp only [Option.some.injEq] at hk
        subst hk
        by_cases hl1 : l < w.pairs.length
        · rw [if_pos hl1] at hl
          obtain ⟨g1, g2, _, _⟩ := hcells l pb hl
          simp only
          omega
        · rw [if_neg hl1] at hl
          by_cases hl2 : l = w.pairs.length
          · exact absurd (hk2.trans hl2.symm) hkl
          · rw [if_neg hl2] at hl; cases hl
      · rw [if_neg hk2] at hk; cases hk

theorem startView_new (w : World) (j : Nat) :
    startView { heap := w.heap ++ [[]] ++ [[]], pool := [],
                pairs := w.pairs ++ [{ c1 := Pipe.newPipeConns.c1, c2 := Pipe.newPipeConns.c2,
                                       a1 := w.heap.length, a2 := w.heap.length + 1 }] } j =
      startView w j := by
  simp only [startView, pairs_append]
  by_cases hlt : j < w.pairs.length
  · rw [if_pos hlt]
    cases w.pairs[j]? with
    | none => rfl
    | some pc => simp only [view_new]
  · rw [if_neg hlt, List.getElem?_eq_none (Nat.le_of_not_lt hlt)]
    by_cases heq : j = w.pairs.length
    · rw [if_pos heq]
      simp only [view_new]
      simp [World.view, List.getD_eq_getElem?_getD, newPipeConns,
        List.getElem?_eq_none (Nat.le_succ w.heap.length)]
    · rw [if_neg heq]

theorem startView_store_self {w : World} {i : Nat} {pc : PairCell} {s : pipeConns} (h : WInv w)
    (hi : w.pairs[i]? = some pc) (hp : s.pooled = []) :
    startView (w.store i pc s) i = s := by
  obtain ⟨h1, h2, h12, _⟩ := h.2.1 i pc hi
  simp only [startView, pairs_store w i i pc s hi, if_true]
  exact view_store_self w i pc s h1 h2 h12 hp

theorem startView_store_other {w : World} {i j : Nat} {pc : PairCell} (s : pipeConns)
    (h : WInv w) (hi : w.pairs[i]? = some pc) (hij : i ≠ j) :
    startView (w.store i pc s) j = startView w j := by
  simp only [startView, pairs_store w i j pc s hi, if_neg hij]
  cases hj : w.pairs[j]? with
  | none => rfl
  | some pb => exact view_store_other w i pc pb s (h.2.2 i j pc pb hi hj hij)

/-- What a returning call on a pair is: the single-pair call on the pair's view. -/
theorem call_ret {w w1 : World} {i : Nat} {c : Call} {o : Out}
    (h : World.call w i c = .ret w1 o) :
    ∃ pc s1, w.pairs[i]? = some pc ∧ exec (w.view pc) c = .ret s1 o ∧ w1 = w.store i pc s1 := by
  simp only [World.call] at h
  cases hi : w.pairs[i]? with
  | none => rw [hi] at h; cases h
  | some pc =>
    rw [hi] at h
    simp only at h
    cases hx : exec (w.view pc) c with
    | ret s1 o1 =>
      rw [hx] at h
      simp only [WRes.ret.injEq] at h
      exact ⟨pc, s1, rfl, by rw [hx, h.2], h.1.symm⟩
    | block s1 => rw [hx] at h; cases h
    | nilDeref => rw [hx] at h; cases h
    | outOfFuel => rw [hx] at h; cases h

theorem call_block {w w1 : World} {i : Nat} {c : Call}
    (h : World.call w i c = .block w1) :
    ∃ pc s1, w.pairs[i]? = some pc ∧ exec (w.view pc) c = .block s1 ∧ w1 = w.store i pc s1 := by
  simp only [World.call] at h
  cases hi : w.pairs[i]? with
  | none => rw [hi] at h; cases h
  | some pc =>
    rw [hi] at h
    simp only at h
    cases hx : exec (w.view pc) c with
    | ret s1 o1 => rw [hx] at h; cases h
    | block s1 =>
      rw [hx] at h
      simp only [WRes.block.injEq] at h
      exact ⟨pc, s1, rfl, hx, h.symm⟩
    | nilDeref => rw [hx] at h; cases h
    | outOfFuel => rw [hx] at h; cases h

/-! ## Several pairs: sequential traces -/

theorem wrun_cons {w w2 : World} {c : WCall} {cs : List WCall} {log : List (WCall × WOut)}
    (h : wrun w (c :: cs) = some (w2, log)) :
    ∃ w1 o log1, wexec w c = .ret w1 o ∧ wrun w1 cs = some (w2, log1) ∧ log = (c, o) :: log1 := by
  simp only [wrun] at h
  cases hx : wexec w c with
  | ret w1 o =>
    rw [hx] at h
    simp only at h
    cases hr : wrun w1 cs with
    | none => rw [hr] at h; simp at h
    | some v =>
      obtain ⟨w3, log1⟩ := v
      rw [hr] at h
      simp only [Option.some.injEq, Prod.mk.injEq] at h
      exact ⟨w1, o, log1, rfl, by rw [hr, h.1], h.2.symm⟩
  | block w1 => rw [hx] at h; simp at h
  | nilDeref => rw [hx] at h; simp at h
  | outOfFuel => rw [hx] at h; simp at h
  | bugPanic => rw [hx] at h; simp at h

/-- What a returning call in a world is. -/
theorem wexec_ret {w w1 : World} {c : WCall} {o : WOut} (h : WInv w)
    (hx : wexec w c = .ret w1 o) :
    (∃ k1 k2, c = .new k1 k2 ∧ o = .pair w.pairs.length ∧
      w1 = { heap := w.heap ++ [[]] ++ [[]], pool := [],
             pairs := w.pairs ++ [{ c1 := Pipe.newPipeConns.c1, c2 := Pipe.newPipeConns.c2,
                                    a1 := w.heap.length, a2 := w.heap.length + 1 }] }) ∨
    (∃ i cl o1 pc s1, c = .onPair i cl ∧ o = .out o1 ∧ w.pairs[i]? = some pc ∧
      exec (w.view pc) cl = .ret s1 o1 ∧ w1 = w.store i pc s1) := by
  cases c with
  | new k1 k2 =>
    left
    simp only [wexec, newPipeConns_eq w k1 k2 h.1, WRes.ret.injEq] at hx
    exact ⟨k1, k2, rfl, hx.2.symm, hx.1.symm⟩
  | onPair i cl =>
    right
    simp only [wexec] at hx
    cases hc : World.call w i cl with
    | ret w2 o1 =>
      rw [hc] at hx
      simp only [WRes.ret.injEq] at hx
      obtain ⟨pc, s1, hi, he, hw⟩ := call_ret hc
      exact ⟨i, cl, o1, pc, s1, rfl, hx.2.symm, hi, he, by rw [← hx.1]; exact hw⟩
    | block w2 => rw [hc] at hx; cases hx
    | nilDeref => rw [hc] at hx; cases hx
    | outOfFuel => rw [hc] at hx; cases hx
    | bugPanic => rw [hc] at hx; cases hx

/-- A returning call in a world keeps the invariant, is a call of the
single-pair trace of its own pair, and leaves the view of every other pair as
it is. -/
theorem wexec_inv {w w1 : World} {c : WCall} {o : WOut} (h : WInv w)
    (hx : wexec w c = .ret w1 o) :
    WInv w1 ∧ ∀ j, run (startView w j) ((logOn j [(c, o)]).map Prod.fst) =
      some (startView w1 j, logOn j [(c, o)]) := by
  rcases wexec_ret h hx with ⟨k1, k2, rfl, rfl, rfl⟩ | ⟨i, cl, o1, pc, s1, rfl, rfl, hi, he, rfl⟩
  · refine ⟨WInv_new h, fun j => ?_⟩
    simp only [logOn, List.map_nil, run, startView_new]
  · have hinv1 : Inv s1 := (exec_inv (h.2.1 i pc hi).2.2.2 he).1
    refine ⟨WInv_store h hi hinv1, fun j => ?_⟩
    by_cases hij : i = j
    · subst hij
      have hsv : startView w i = w.view pc := by simp [startView, hi]
      simp only [logOn, if_true, List.map_cons, List.map_nil, run, hsv, he,
        startView_store_self h hi hinv1.2.1]
    · simp only [logOn, if_neg hij, List.map_nil, run, startView_store_other s1 h hi hij]

theorem logOn_cons (j : Nat) (x : WCall × WOut) (log : List (WCall × WOut)) :
    logOn j (x :: log) = logOn j [x] ++ logOn j log := by
  obtain ⟨c, o⟩ := x
  cases c with
  | new k1 k2 => cases o <;> simp [logOn]
  | onPair i cl =>
    cases o with
    | pair k => simp [logOn]
    | out o1 =>
      simp only [logOn]
      split <;> simp

theorem run_append_some {s s1 s2 : pipeConns} {cs1 cs2 : List Call}
    {log1 log2 : List (Call × Out)} (h1 : run s cs1 = some (s1, log1))
    (h2 : run s1 cs2 = some (s2, log2)) : run s (cs1 ++ cs2) = some (s2, log1 ++ log2) := by
  induction cs1 generalizing s log1 with
  | nil =>
    simp only [run, Option.some.injEq, Prod.mk.injEq] at h1
    obtain ⟨rfl, rfl⟩ := h1
    simpa using h2
  | cons c cs ih =>
    obtain ⟨s3, o, log3, hx, hr, rfl⟩ := run_cons h1
    have := ih hr
    simp [run, hx, this]

/-- Projection: the calls of a world trace on one pair, with their results,
form a sequential trace of that pair alone. -/
theorem wrun_project (calls : List WCall) : ∀ {w w2 : World} {log : List (WCall × WOut)},
    WInv w → wrun w calls = some (w2, log) →
    WInv w2 ∧ ∀ j, run (startView w j) ((logOn j log).map Prod.fst) =
      some (startView w2 j, logOn j log) := by
  induction calls with
  | nil =>
    intro w w2 log h hr
    simp only [wrun, Option.some.injEq, Prod.mk.injEq] at hr
    obtain ⟨rfl, rfl⟩ := hr
    exact ⟨h, fun j => rfl⟩
  | cons c cs ih =>
    intro w w2 log h hr
    obtain ⟨w1, o, log1, hx, hr1, rfl⟩ := wrun_cons hr
    obtain ⟨hinv1, hstep⟩ := wexec_inv h hx
    obtain ⟨hinv2, hrest⟩ := ih hinv1 hr1
    refine ⟨hinv2, fun j => ?_⟩
    rw [logOn_cons, List.map_append]
    exact run_append_some (hstep j) (hrest j)

theorem WReachable.winv {w : World} (h : WReachable w) : WInv w := by
  obtain ⟨calls, log, hr⟩ := h
  exact (wrun_project calls WInv_empty hr).1

/-! ## C12: pairs and the shared buffer pool -/

/-- C12 (pairs do not interfere), at the failing trace.  Two pairs are made.
On the first pair `c2` writes `[1, 2, 3]`, `c1` reads one byte and closes, and
`c2` closes: this `Close` does not return, it is blocked in `releasePipeChan`
after `pipeConn.release` has put the buffer of `c1` into `byteBufferPool`,
while `c1` still holds the bytes `[2, 3]` of that buffer as pending bytes.
Then `c1` of the second pair writes `[9, 9, 9]` and `Get` hands out the pooled
buffer: the `Write` stores its bytes into the storage of the pending bytes of
the first pair, which become `[9, 9]`, and the next `Read` on `c1` of the first
pair returns `[9, 9]`, two bytes written on the second pair.  Without that
`Write` the same `Read` returns `[2, 3]`. -/
theorem C12_pooled_buffer_interference :
    Mem.mrun Mem.Store.empty Mem.aliasSetup = some (Mem.aliasStore, Mem.aliasSetupLog) ∧
    Mem.aliasStore.bufPool = [0] ∧
    (Mem.aliasStore.pairs.map fun pc => pc.c1.b) = [some 0, none] ∧
    Mem.pending Mem.aliasStore 0 .c1 = [2, 3] ∧
    Mem.Write 1 .c1 [9, 9, 9] 0 Mem.aliasStore = .ret Mem.aliasWritten (3, none) ∧
    Mem.pending Mem.aliasWritten 0 .c1 = [9, 9] ∧
    (Mem.Read 0 .c1 [0, 0] Mem.aliasWritten).val = some (2, none, [9, 9]) ∧
    (Mem.Read 0 .c1 [0, 0] Mem.aliasStore).val = some (2, none, [2, 3]) := by
  refine ⟨by decide!, by decide, by decide, by decide, by decide, by decide, by decide,
    by decide⟩

/-! ## C16: the pool -/

/-- C16 (pool invariant).  In every world between the calls of a sequential
trace of `newPipeConns`, `Write`, `Read` and `Close` calls on any number of
pairs that starts with an empty pool, every channel held in `pipeChanPool` is
empty and no endpoint refers to it (the pool is in fact empty); so
`acquirePipeChan` does not reach its panic, whatever `Get` picks, and
`newPipeConns` returns a new pair.  The same holds in the world a call is
blocked in. -/
theorem C16_pool_invariant (w : World) (hw : WReachable w) :
    (∀ a ∈ w.pool, w.heap.getD a [] = [] ∧ ∀ pc ∈ w.pairs, a ∉ pc.refs) ∧
    w.pool = [] ∧
    (∀ k, acquirePipeChan w k ≠ .bugPanic) ∧
    (∀ k1 k2, ∃ w1, World.newPipeConns w k1 k2 = .ret w1 w.pairs.length ∧ WInv w1) ∧
    (∀ c w1, wexec w c = .block w1 →
      w1.pool = [] ∧ ∀ k1 k2, ∃ w2, World.newPipeConns w1 k1 k2 = .ret w2 w1.pairs.length) := by
  have h := hw.winv
  refine ⟨?_, h.1, ?_, ?_, ?_⟩
  · intro a ha
    rw [h.1] at ha
    cases ha
  · intro k hk
    simp [acquirePipeChan, h.1] at hk
  · intro k1 k2
    exact ⟨_, newPipeConns_eq w k1 k2 h.1, WInv_new h⟩
  · intro c w1 hx
    have hpool : w1.pool = [] := by
      cases c with
      | new k1 k2 =>
        simp only [wexec, newPipeConns_eq w k1 k2 h.1] at hx
        cases hx
      | onPair i cl =>
        simp only [wexec] at hx
        cases hc : World.call w i cl with
        | ret w2 o1 => rw [hc] at hx; cases hx
        | block w2 =>
          rw [hc] at hx
          simp only [WRes.block.injEq] at hx
          obtain ⟨pc, s1, hi, he, hw2⟩ := call_block hc
          rw [← hx, hw2]
          simp [World.store, h.1, exec_block_pooled (h.2.1 i pc hi).2.2.2 he]
        | nilDeref => rw [hc] at hx; cases hx
        | outOfFuel => rw [hc] at hx; cases hx
        | bugPanic => rw [hc] at hx; cases hx
    exact ⟨hpool, fun k1 k2 => ⟨_, newPipeConns_eq w1 k1 k2 hpool⟩⟩

/-- Witness of C16: in the world with two pairs a third `newPipeConns` call
returns the pair with index 2. -/
theorem C16_pool_invariant_witness :
    WReachable twoPairsWorld ∧ twoPairsWorld.pool = [] ∧
    acquirePipeChan twoPairsWorld 0 ≠ .bugPanic ∧
    ∃ w1, World.newPipeConns twoPairsWorld 0 0 = .ret w1 twoPairsWorld.pairs.length ∧ WInv w1 :=
  have hr : WReachable twoPairsWorld := ⟨twoPairsCalls, twoPairsLog, by decide⟩
  ⟨hr, (C16_pool_invariant twoPairsWorld hr).2.1, (C16_pool_invariant twoPairsWorld hr).2.2.1 0,
    (C16_pool_invariant twoPairsWorld hr).2.2.2.1 0 0⟩

end Pipe
